import Mathlib

/-!
NOIR, the ordered-key codec (`noir/codec/orderedcode.h`)

A shallow embedding of the order-preserving codec and proofs about it.

Conventions of the embedding

* A byte is a natural number below 256; a `std::string`, a `std::vector<char>` and a
  `std::span<const char>` are lists of bytes (`List Nat`).  Well-formedness of an input
  (`∀ b ∈ s, b < 256`) is a hypothesis wherever the code relies on it.
* An `int64_t` is an `Int` in `[-2^63, 2^63)`, a `uint64_t` a `Nat` below `2^64`; wrap-around
  of the machine operations is written out with `% 2^64`.
* `int` loop counters and buffer indices are natural numbers.
* An input `datastream<const char>` is the list of bytes not yet consumed together with the
  `dir` member.  A reading operator returns its result *and* the stream it leaves behind, also
  when it throws: the C++ stream is passed by reference and keeps what was consumed.
* An output `datastream<char>` is the list of bytes written so far; `ds << v` appends.
  `encode` sizes its buffer with `encode_size`, which runs the very same operators on the
  counting stream, so the bound check of `write`/`put` does not fire and is not modelled.
-/

namespace noir.codec.orderedcode

/-! ## Constants (orderedcode.h 15–22) -/

/-- The string terminator `term[] = {0x00, 0x01}`. -/
def term : List Nat := [0x00, 0x01]
/-- The escape of a `0x00` byte, `lit00[] = {0x00, 0xff}`. -/
def lit00 : List Nat := [0x00, 0xff]
/-- The escape of a `0xff` byte, `litff[] = {0xff, 0x00}`. -/
def litff : List Nat := [0xff, 0x00]
/-- The encoding of infinity, `inf[] = {0xff, 0xff}`. -/
def inf : List Nat := [0xff, 0xff]
/-- The unary length headers `msb[]`. -/
def msb : List Nat := [0x00, 0x80, 0xc0, 0xe0, 0xf0, 0xf8, 0xfc, 0xfe]

/-- The direction `increasing = 0x00`. -/
def increasing : Nat := 0x00
/-- The direction `decreasing = 0xff`. -/
def decreasing : Nat := 0xff

/-- The empty value type `struct infinity {}`. -/
structure infinity where
deriving DecidableEq, Repr

/-- The value type `string_or_infinity {std::string s; bool inf;}`. -/
structure string_or_infinity where
  s : List Nat
  inf : Bool
deriving DecidableEq, Repr

/-- The exceptions the codec raises: `std::runtime_error("orderedcode: corrupt input")`,
the `std::out_of_range` of `basic_datastream`, the `std::runtime_error` of the
`string_or_infinity` writer, and the `std::runtime_error("append: NaN")` and
`std::runtime_error("parse: NaN")` of the double writer and reader. -/
inductive Err where
  | corrupt
  | outOfRange
  | badStringOrInfinity
  | nan
deriving DecidableEq, Repr

/-- An input stream `datastream<const char>`: the unread bytes and the `dir` member. -/
structure DS where
  rem : List Nat
  dir : Nat
deriving DecidableEq, Repr

/-- The outcome of a reading operator: the value or the exception, and the stream after it. -/
abbrev Res (α : Type) := Except Err α × DS

/-- Sequencing of two reads; an exception of the first one propagates with the stream as the
first one left it. -/
def Res.andThen {α β : Type} (r : Res α) (f : α → DS → Res β) : Res β :=
  match r with
  | (Except.ok a, ds) => f a ds
  | (Except.error e, ds) => (Except.error e, ds)

/-- Embeds `basic_datastream::get()` (datastream.h 76–87): `peek` checks `remaining() >= 1`, then the
position advances.  The byte is returned as its unsigned value; every caller in the codec
truncates to 8 bits after the XOR. -/
def DS.get (ds : DS) : Res Nat :=
  match ds.rem with
  | [] => (Except.error Err.outOfRange, ds)
  | b :: r => (Except.ok b, { ds with rem := r })

/-- Embeds `basic_datastream::remaining()`. -/
def DS.remaining (ds : DS) : Nat := ds.rem.length

/-- The idiom `static_cast<unsigned char>(ds.get() ^ ds.dir)`. -/
def DS.getc (ds : DS) : Res Nat :=
  (ds.get).andThen fun b ds1 => (Except.ok ((b ^^^ ds1.dir) % 256), ds1)

/-- Embeds `invert` (orderedcode.h 152–154): `c ^= 0xff` on every byte of the span. -/
def invert (s : List Nat) : List Nat := s.map fun c => c ^^^ 0xff

/-! ## Writers -/

/-- Embeds `operator<<(datastream&, infinity)` (156–161). -/
def writeInfinity (out : List Nat) (_ : infinity) : List Nat :=
  (out ++ [inf.getD 0 0]) ++ [inf.getD 1 0]

/-- One iteration of the loop of the string writer (172–184) at index `i`; the state is the
chunk start `l` and the output. -/
def writeStringStep (v : List Nat) (st : Nat × List Nat) (i : Nat) : Nat × List Nat :=
  if v.getD i 0 = 0x00 then
    (i + 1, (st.2 ++ (v.drop st.1).take (i - st.1)) ++ lit00.take 2)
  else if v.getD i 0 = 0xff then
    (i + 1, (st.2 ++ (v.drop st.1).take (i - st.1)) ++ litff.take 2)
  else st

/-- Embeds `operator<<(datastream&, const std::string&)` (169–188). -/
def writeString (out : List Nat) (v : List Nat) : List Nat :=
  let st := (List.range v.length).foldl (writeStringStep v) (0, out)
  (st.2 ++ (v.drop st.1).take (v.length - st.1)) ++ term.take 2

/-- Embeds `operator<<(datastream&, string_or_infinity)` (190–201). -/
def writeStringOrInfinity (out : List Nat) (v : string_or_infinity) : Except Err (List Nat) :=
  if v.inf then
    if ¬ v.s.isEmpty then Except.error Err.badStringOrInfinity
    else Except.ok (writeInfinity out {})
  else Except.ok (writeString out v.s)

/-- The loop `for (; v > 0; v >>= 8) { buf[i--] = (unsigned char) v; n++; }` of the int64
writer (216–219).  A 64-bit value is zero after eight shifts, so the loop is unrolled with a
bound; `int64Loop_fuel` shows the bound is never what stops it. -/
def int64Loop : Nat → Nat → List Nat → Nat → Nat → List Nat × Nat × Nat
  | 0, _, buf, i, n => (buf, i, n)
  | fuel + 1, v, buf, i, n =>
    if v > 0 then int64Loop fuel (v >>> 8) (buf.set i (v % 256)) (i - 1) (n + 1)
    else (buf, i, n)

/-- The long form of the int64 writer (213–231) for the non-negative `v` it is left with after
`if (neg) v = ~v`: the bytes `buf[i..10)` before the final inversion and write. -/
def int64Long (v : Nat) : List Nat :=
  let st := int64Loop 8 v (List.replicate 10 0) 9 1
  let buf := st.1
  let i := st.2.1
  let n := st.2.2
  let lfb : Bool := decide (n > 7)
  let n := if lfb then n - 7 else n
  let c : Bool := decide (buf.getD (i + 1) 0 < 1 <<< (8 - n))
  let n := if c then n - 1 else n
  let i := if c then i + 1 else i
  let buf := buf.set i (buf.getD i 0 ||| msb.getD n 0)
  let buf := if lfb then buf.set (i - 1) 0xff else buf
  let i := if lfb then i - 1 else i
  buf.drop i

/-- Embeds `operator<<(datastream&, int64_t)` (203–238). -/
def writeInt64 (out : List Nat) (v : Int) : List Nat :=
  if -64 ≤ v ∧ v < 64 then
    out ++ [((v % 2 ^ 64).toNat ^^^ 0x80) % 256]
  else
    let neg : Bool := decide (v < 0)
    let v1 : Nat := (if neg then ~~~v else v).toNat
    let sp := int64Long v1
    out ++ (if neg then invert sp else sp)

/-- The loop `for (; v > 0; v >>= 8) buf[i--] = (unsigned char) v;` of the uint64 writer
(244–246), unrolled like `int64Loop`; see `uint64Loop_fuel`. -/
def uint64Loop : Nat → Nat → List Nat → Nat → List Nat × Nat
  | 0, _, buf, i => (buf, i)
  | fuel + 1, v, buf, i =>
    if v > 0 then uint64Loop fuel (v >>> 8) (buf.set i (v % 256)) (i - 1)
    else (buf, i)

/-- Embeds `operator<<(datastream&, uint64_t)` (240–250). -/
def writeUint64 (out : List Nat) (v : Nat) : List Nat :=
  let st := uint64Loop 8 v (List.replicate 9 0) 8
  let i := st.2
  let buf := st.1.set i ((8 - i) % 256)
  out ++ buf.drop i

/-- Embeds `operator<<(datastream&, decr<T>)` (266–276): the value is written to a scratch buffer by
its own writer `w`, the buffer is inverted and appended. -/
def writeDecr {α : Type} (w : List Nat → α → List Nat) (out : List Nat) (v : α) : List Nat :=
  let buffer := w [] v
  out ++ invert buffer

/-! ## Readers -/

/-- Embeds `operator>>(datastream&, infinity&)` (278–287).  The two `get`s are the operands of `||`:
the second byte is consumed only when the first one matched. -/
def readInfinity (ds : DS) : Res infinity :=
  if ds.remaining < 2 then (Except.error Err.corrupt, ds)
  else
    (ds.getc).andThen fun c1 ds1 =>
      if c1 ≠ inf.getD 0 0 then (Except.error Err.corrupt, ds1)
      else
        (ds1.getc).andThen fun c2 ds2 =>
          if c2 ≠ inf.getD 1 0 then (Except.error Err.corrupt, ds2)
          else (Except.ok {}, ds2)

/-- The loop of `operator>>(datastream&, std::string&)` (310–337) over the unread bytes, with
the direction `dir` and the string `v` read so far.  The result is the outcome and the bytes
left unread. -/
def readStringLoop (dir : Nat) : List Nat → List Nat → Except Err (List Nat) × List Nat
  | [], _ => (Except.error Err.corrupt, [])
  | [b], v =>
    let c := (b ^^^ dir) % 256
    if c = 0x00 then (Except.error Err.corrupt, [])
    else if c = 0xff then (Except.error Err.corrupt, [])
    else readStringLoop dir [] (v ++ [c])
  | b :: b2 :: r, v =>
    let c := (b ^^^ dir) % 256
    if c = 0x00 then
      let c2 := (b2 ^^^ dir) % 256
      if c2 = 0x01 then (Except.ok v, r)
      else if c2 = 0xff then readStringLoop dir r (v ++ [0x00])
      else (Except.error Err.corrupt, r)
    else if c = 0xff then
      if ((b2 % 256) ^^^ dir) ≠ 0x00 then (Except.error Err.corrupt, r)
      else readStringLoop dir r (v ++ [0xff])
    else readStringLoop dir (b2 :: r) (v ++ [c])

/-- Embeds `operator>>(datastream&, std::string&)` (307–338): `v.clear()`, then the loop. -/
def readString (ds : DS) : Res (List Nat) :=
  let r := readStringLoop ds.dir ds.rem []
  (r.1, { ds with rem := r.2 })

/-- Embeds `operator>>(datastream&, string_or_infinity&)` (340–351) on the target `v`.  When the
read of `infinity` throws, the string is read from the stream as that read left it; `v.inf`
is assigned on the infinity path only. -/
def readStringOrInfinity (ds : DS) (v : string_or_infinity) : Res string_or_infinity :=
  match readInfinity ds with
  | (Except.ok _, ds1) => (Except.ok { v with inf := true }, ds1)
  | (Except.error _, ds1) =>
    (readString ds1).andThen fun s ds2 => (Except.ok { v with s := s }, ds2)

/-- The loop `for (mask = 0x80; (c & mask) != 0; mask >>= 1) { c &= ~mask; n++; }` of the
int64 reader (374–377).  `mask` is an `unsigned char`: after eight shifts it is zero and the
test fails, so nine rounds of fuel cover every run (`maskLoop_fuel`). -/
def maskLoop : Nat → Nat → Nat → Nat → Nat × Nat
  | 0, _, c, n => (c, n)
  | fuel + 1, mask, c, n =>
    if c &&& mask ≠ 0 then maskLoop fuel (mask >>> 1) (c &&& (mask ^^^ 0xff)) (n + 1)
    else (c, n)

/-- The loop `for (i = 1; i < n; i++) { c = ds.get() ^ ds.dir; x = x << 8 | c; }` of the
int64 reader (379–382), as `k = n - 1` rounds; `x` is the 64-bit pattern of the `int64_t`. -/
def readInt64Bytes : Nat → Nat → DS → Res Nat
  | 0, x, ds => (Except.ok x, ds)
  | k + 1, x, ds =>
    (ds.getc).andThen fun c ds1 => readInt64Bytes k (((x <<< 8) % 2 ^ 64) ||| c) ds1

/-- The conversion `int64_t(int8_t(b))` of a byte. -/
def int8 (b : Nat) : Int :=
  if b % 256 < 128 then ((b % 256 : Nat) : Int) else ((b % 256 : Nat) : Int) - 256

/-- The value of the `int64_t` whose 64-bit pattern is `x`. -/
def toInt64 (x : Nat) : Int :=
  if x % 2 ^ 64 < 2 ^ 63 then ((x % 2 ^ 64 : Nat) : Int) else ((x % 2 ^ 64 : Nat) : Int) - 2 ^ 64

/-- The long form of the int64 reader (366–387): what follows the sign test, for the first
byte `c` (already complemented when `neg`) and the stream `ds2` (its `dir` already flipped when
`neg`). -/
def readInt64Long (neg : Bool) (c : Nat) (ds2 : DS) : Res Int :=
  let hdr : Res (Nat × Nat) :=
    if c = 0xff then
      (ds2.getc).andThen fun c2 ds3 =>
        if c2 > 0xc0 then (Except.error Err.corrupt, ds3)
        else (Except.ok (c2, 7), ds3)
    else (Except.ok (c, 0), ds2)
  hdr.andThen fun cn ds3 =>
    let m := maskLoop 9 0x80 cn.1 cn.2
    (readInt64Bytes (m.2 - 1) m.1 ds3).andThen fun x ds4 =>
      (Except.ok (toInt64 (if neg then x ^^^ (2 ^ 64 - 1) else x)), ds4)

/-- Embeds `operator>>(datastream&, int64_t&)` (353–388).  `ds.dir = ~ds.dir` is kept in the stream
that is returned: the operator does not restore it. -/
def readInt64 (ds : DS) : Res Int :=
  (ds.getc).andThen fun c ds1 =>
    if c ≥ 0x40 ∧ c < 0xc0 then
      (Except.ok (int8 (c ^^^ 0x80)), ds1)
    else
      let neg : Bool := decide (c &&& 0x80 = 0)
      let c := if neg then c ^^^ 0xff else c
      let ds2 : DS := if neg then { ds1 with dir := ds1.dir ^^^ 0xff } else ds1
      readInt64Long neg c ds2

/-- The loop `for (i = 0; i < n; i++) v = v << 8 | (unsigned char)(ds.get() ^ ds.dir);` of the
uint64 reader (394–396). -/
def readUint64Bytes : Nat → Nat → DS → Res Nat
  | 0, v, ds => (Except.ok v, ds)
  | k + 1, v, ds =>
    (ds.getc).andThen fun c ds1 => readUint64Bytes k (((v <<< 8) % 2 ^ 64) ||| c) ds1

/-- Embeds `operator>>(datastream&, uint64_t&)` (390–398). -/
def readUint64 (ds : DS) : Res Nat :=
  (ds.getc).andThen fun n ds1 => readUint64Bytes n 0 ds1

/-! ## Doubles (252–264, 400–412)

A `double` is its 64-bit pattern, a natural number below `2^64` (what `memcpy` to and from a
`uint64_t` or `int64_t` moves). -/

/-- The library predicate `isnan` on a binary64 pattern: all eleven exponent bits set and a
non-zero fraction. -/
def isnan (b : Nat) : Bool :=
  decide ((b / 2 ^ 52) % 2 ^ 11 = 2 ^ 11 - 1 ∧ b % 2 ^ 52 ≠ 0)

/-- The 64-bit pattern of an `int64_t`. -/
def ofInt64 (i : Int) : Nat := (i % 2 ^ 64).toNat

/-- Embeds `operator<<(datastream&, double)` (252–264): `auto i = int64_t(b);
if (i < 0) i = numeric_limits<int64_t>::min() - i; return ds << i;`.  The subtraction does not
leave the range of `int64_t` for a negative `i`. -/
def writeDouble (out : List Nat) (v : Nat) : Except Err (List Nat) :=
  if isnan v then Except.error Err.nan
  else
    let i := toInt64 v
    let i := if i < 0 then -2 ^ 63 - i else i
    Except.ok (writeInt64 out i)

/-- Embeds `operator>>(datastream&, double&)` (400–412): `ds >> i;
if (i < 0) i = ((int64_t)-1 << 63) - i; memcpy(&v, &i, sizeof(i)); if (isnan(v)) throw`. -/
def readDouble (ds : DS) : Res Nat :=
  (readInt64 ds).andThen fun i ds1 =>
    let i := if i < 0 then -2 ^ 63 - i else i
    let v := ofInt64 i
    if isnan v then (Except.error Err.nan, ds1) else (Except.ok v, ds1)

/-! ## `decode` and `encode` (78–150) -/

/-- Embeds `decode(std::span<const char>, T&)` (105–110): `dir = increasing`, then the reader. -/
def decode {α : Type} (rd : DS → Res α) (s : List Nat) : Res α :=
  rd { rem := s, dir := increasing }

/-- Embeds `decode(std::span<const char>, decr<T>&)` (112–117): `dir = decreasing`, then the reader
of the wrapped type. -/
def decodeDecr {α : Type} (rd : DS → Res α) (s : List Nat) : Res α :=
  rd { rem := s, dir := decreasing }

/-- Embeds `encode(const T& v)` (78–84): a buffer of `encode_size(v)` bytes filled by the writer `w`
of the type. -/
def encode {α : Type} (w : List Nat → α → List Nat) (v : α) : List Nat :=
  w [] v

/-- Embeds `decode(std::span<const char>, T&, U&, V&)` for three plain field types: the variadic
overload (145–150) sets `dir = increasing`, overload (131–135) reads the first and the second
field and recurses, overload (119–122) reads the last one.  Nothing resets `dir` between
fields. -/
def decode3 {α β γ : Type} (r1 : DS → Res α) (r2 : DS → Res β) (r3 : DS → Res γ)
    (s : List Nat) : Res (α × β × γ) :=
  (r1 { rem := s, dir := increasing }).andThen fun a ds1 =>
    (r2 ds1).andThen fun b ds2 =>
      (r3 ds2).andThen fun c ds3 => (Except.ok (a, b, c), ds3)

/-- Embeds `decode(std::span<const char>, decr<T>&, U&)`: the variadic overload (145–150) sets
`dir = increasing`, then overload (137–143) runs `ds.dir = decreasing; ds >> t.val;
decode(ds, u); ds.dir = increasing;` where `decode(ds, u)` is overload (119–122), `ds >> u`. -/
def decodeDecr2 {α β : Type} (r1 : DS → Res α) (r2 : DS → Res β) (s : List Nat) : Res (α × β) :=
  let ds : DS := { rem := s, dir := increasing }
  (r1 { ds with dir := decreasing }).andThen fun a ds1 =>
    (r2 ds1).andThen fun b ds2 => (Except.ok (a, b), { ds2 with dir := increasing })

/-- Embeds `decode(datastream&, decr<T>&)` (124–129), the single-field overload:
`ds.dir = decreasing; ds >> t.val; ds.dir = increasing;`. -/
def decodeDecrField {α : Type} (r : DS → Res α) (ds : DS) : Res α :=
  (r { ds with dir := decreasing }).andThen fun a ds1 =>
    (Except.ok a, { ds1 with dir := increasing })

/-- Embeds `encode(const T&, const U&)`: overloads (97–103) and (91–95), `ds << t; ds << u;`. -/
def encode2 {α β : Type} (w1 : List Nat → α → List Nat) (w2 : List Nat → β → List Nat)
    (a : α) (b : β) : List Nat :=
  w2 (w1 [] a) b

/-- Embeds `encode(const T&, const U&, const V&)`: overloads (97–103) and (91–95),
`ds << t; ds << u; ds << v;`. -/
def encode3 {α β γ : Type} (w1 : List Nat → α → List Nat) (w2 : List Nat → β → List Nat)
    (w3 : List Nat → γ → List Nat) (a : α) (b : β) (c : γ) : List Nat :=
  w3 (w2 (w1 [] a) b) c

/-! ## Notions used to state the properties -/

/-- Unsigned lexicographic byte order on byte strings (the order of `memcmp` on the common
length, a proper prefix being smaller). -/
def lexLt : List Nat → List Nat → Prop
  | [], [] => False
  | [], _ :: _ => True
  | _ :: _, [] => False
  | a :: x, b :: y => a < b ∨ (a = b ∧ lexLt x y)

instance lexLt.instDecidable : (x y : List Nat) → Decidable (lexLt x y)
  | [], [] => isFalse (by simp [lexLt])
  | [], _ :: _ => isTrue (by simp [lexLt])
  | _ :: _, [] => isFalse (by simp [lexLt])
  | a :: x, b :: y =>
    have := lexLt.instDecidable x y
    decidable_of_iff (a < b ∨ (a = b ∧ lexLt x y)) (by simp [lexLt])

/-- Two byte strings differ at a position both have, the first one holding the smaller byte
there: the first is smaller and stays so whatever is appended to either. -/
def diffLt : List Nat → List Nat → Prop
  | a :: x, b :: y => a < b ∨ (a = b ∧ diffLt x y)
  | _, _ => False

/-- A string, byte by byte, with `0x00` written `0x00 0xff` and `0xff` written `0xff 0x00`
(the spec's description of the string form, without the terminator). -/
def escape : List Nat → List Nat
  | [] => []
  | b :: r => (if b = 0x00 then [0x00, 0xff] else if b = 0xff then [0xff, 0x00] else [b]) ++ escape r

/-- The `n` big-endian bytes of `u` (the low `n` bytes, most significant first). -/
def bigEndian : Nat → Nat → List Nat
  | 0, _ => []
  | n + 1, u => (u / 256 ^ n) % 256 :: bigEndian n u

/-- The length of the int64 form of a non-negative `u`: the least `n` with `u < 2^(7n-1)`. -/
def int64Len (u : Nat) : Nat :=
  if u < 2 ^ 6 then 1 else if u < 2 ^ 13 then 2 else if u < 2 ^ 20 then 3
  else if u < 2 ^ 27 then 4 else if u < 2 ^ 34 then 5 else if u < 2 ^ 41 then 6
  else if u < 2 ^ 48 then 7 else if u < 2 ^ 55 then 8 else if u < 2 ^ 62 then 9 else 10

/-- The unary-coded header of an `n`-byte int64 form, as an `n`-byte number: `n` one bits
followed by zero bits. -/
def int64Hdr (n : Nat) : Nat := 2 ^ (8 * n) - 2 ^ (7 * n)

/-- The int64 form in closed shape: for `v ≥ 0` the big-endian bytes of header plus value at
the length of `v`; for `v < 0` the bitwise complement of the form of `~v = -v - 1`. -/
def int64Form (v : Int) : List Nat :=
  if 0 ≤ v then
    bigEndian (int64Len v.toNat) (int64Hdr (int64Len v.toNat) + v.toNat)
  else
    invert (bigEndian (int64Len (-v - 1).toNat) (int64Hdr (int64Len (-v - 1).toNat) + (-v - 1).toNat))

/-! ## The int64 writer with its index checks -/

/-- The read `a[i]` of a vector or array with an `int` index: `none` out of range. -/
def readAt (a : List Nat) (i : Int) : Option Nat :=
  if 0 ≤ i ∧ i < a.length then a.get? i.toNat else none

/-- The write `a[i] = x` of a vector with an `int` index: `none` out of range. -/
def writeAt (a : List Nat) (i : Int) (x : Nat) : Option (List Nat) :=
  if 0 ≤ i ∧ i < a.length then some (a.set i.toNat x) else none

/-- The loop of the int64 writer (216–219) as `int64Loop` has it, with `i` and `n` the `int`
variables of the source and the write `buf[i--]` checked. -/
def int64LoopChecked : Nat → Nat → List Nat → Int → Int → Option (List Nat × Int × Int)
  | 0, _, buf, i, n => some (buf, i, n)
  | fuel + 1, v, buf, i, n =>
    if v > 0 then
      match writeAt buf i (v % 256) with
      | none => none
      | some buf1 => int64LoopChecked fuel (v >>> 8) buf1 (i - 1) (n + 1)
    else some (buf, i, n)

/-- The long form of the int64 writer (213–236) as `int64Long` has it, with every access to
the 10-byte vector `buf` and to the 8-entry table `msb` checked, and the shift count of
`1 << (8 - n)` checked to be a valid one for an `int`. -/
def int64LongChecked (v : Nat) : Option (List Nat) :=
  match int64LoopChecked 8 v (List.replicate 10 0) 9 1 with
  | none => none
  | some (buf, i, n) =>
    let lfb : Bool := decide (n > 7)
    let n := if lfb then n - 7 else n
    match readAt buf (i + 1) with
    | none => none
    | some b =>
      if 0 ≤ 8 - n ∧ 8 - n < 31 then
        let c : Bool := decide (b < 1 <<< (8 - n).toNat)
        let n := if c then n - 1 else n
        let i := if c then i + 1 else i
        match readAt buf i, readAt msb n with
        | some x, some m =>
          match writeAt buf i (x ||| m) with
          | none => none
          | some buf1 =>
            let i := if lfb then i - 1 else i
            match (if lfb then writeAt buf1 i 0xff else some buf1) with
            | none => none
            | some buf2 =>
              if 0 ≤ i ∧ i < buf2.length then some (buf2.drop i.toNat) else none
        | _, _ => none
      else none

/-- The int64 writer (203–238) as `writeInt64` has it, over the checked long form. -/
def writeInt64Checked (out : List Nat) (v : Int) : Option (List Nat) :=
  if -64 ≤ v ∧ v < 64 then
    some (out ++ [((v % 2 ^ 64).toNat ^^^ 0x80) % 256])
  else
    let neg : Bool := decide (v < 0)
    let v1 : Nat := (if neg then ~~~v else v).toNat
    match int64LongChecked v1 with
    | none => none
    | some sp => some (out ++ (if neg then invert sp else sp))

end noir.codec.orderedcode

/-!
The unapplied-tx queue (`noir/tx_pool/unapplied_tx_queue.hpp`)

Conventions of the embedding

* A `consensus::tx` (declared outside the sources at hand) is the record of what the queue
  reads through a `tx_ptr`: `id()`, `sender`, `nonce`, `gas`, `height` and `size()`.  The key
  types `tx_id_type` and `sender_type` are natural numbers.
* The `boost::multi_index_container` is the list of its elements, the most recently inserted
  first.  Its two `ordered_unique` indices (`by_tx_id` on `id`, `by_nonce` on the composite
  key `(sender, nonce)`) make `insert` fail on an equivalent key; the other three indices are
  non-unique and never refuse an element.
* `sizeof(unapplied_tx)` depends on the declaration of `tx_ptr`; it is the parameter `sz` of
  `bytes_size` and of the operations that call it.
* The `uint64_t` and `size_t` counters wrap: their updates are written with `% 2^64`.
* The sequence of the `by_nonce` index is the list of the elements sorted by the composite
  key; an iterator of the index is a position in that list, `end()` the length of the list.
-/

namespace noir.tx_pool

/-- The fields of a `consensus::tx` read by the queue. -/
structure tx where
  id : Nat
  sender : Nat
  nonce : Nat
  gas : Nat
  height : Nat
  size : Nat
deriving DecidableEq, Repr

/-- The class `unapplied_tx_queue` (44–72): the container and the three counters. -/
structure unapplied_tx_queue where
  queue_ : List tx
  max_tx_queue_bytes_size_ : Nat
  size_in_bytes_ : Nat
  incoming_count_ : Nat
deriving DecidableEq, Repr

/-- The constructor `unapplied_tx_queue(uint64_t size)` (77–79). -/
def unapplied_tx_queue.new (size : Nat) : unapplied_tx_queue :=
  { queue_ := [], max_tx_queue_bytes_size_ := size, size_in_bytes_ := 0, incoming_count_ := 0 }

/-- The lookup `queue_.get<by_tx_id>().find(id)`: the element with that id, if any. -/
def unapplied_tx_queue.find (q : unapplied_tx_queue) (id : Nat) : Option tx :=
  q.queue_.find? fun e => decide (e.id = id)

/-- The insertion `queue_.insert({tx_ptr})` (134) of the container: refused, with the
container unchanged, when an element with an equivalent key exists in a unique index. -/
def insert (c : List tx) (t : tx) : List tx × Bool :=
  if c.any (fun e => decide (e.id = t.id) || decide (e.sender = t.sender ∧ e.nonce = t.nonce))
  then (c, false) else (t :: c, true)

/-- The static `bytes_size(const tx_ptr&)` (222–224): `sizeof(unapplied_tx) + tx_ptr->size()`
in `uint64_t`. -/
def bytes_size (sz : Nat) (t : tx) : Nat := (sz + t.size) % 2 ^ 64

/-- The method `clear()` (93–97). -/
def unapplied_tx_queue.clear (q : unapplied_tx_queue) : unapplied_tx_queue :=
  { q with queue_ := [], size_in_bytes_ := 0, incoming_count_ := 0 }

/-- The method `has(id)` (103–105). -/
def unapplied_tx_queue.has (q : unapplied_tx_queue) (id : Nat) : Bool :=
  (q.find id).isSome

/-- The method `get_tx(const tx_id_type&)` (107–113). -/
def unapplied_tx_queue.get_tx (q : unapplied_tx_queue) (id : Nat) : Option tx :=
  match q.find id with
  | none => none
  | some e => some e

/-- The method `add_tx` (123–141): the returned flag and the queue after the call. -/
def unapplied_tx_queue.add_tx (sz : Nat) (q : unapplied_tx_queue) (t : tx) :
    Bool × unapplied_tx_queue :=
  match q.find t.id with
  | some _ => (false, q)
  | none =>
    let size := bytes_size sz t
    if (q.size_in_bytes_ + size) % 2 ^ 64 > q.max_tx_queue_bytes_size_ then (false, q)
    else
      let res := insert q.queue_ t
      if res.2 then
        (true, { q with queue_ := res.1,
                        size_in_bytes_ := (q.size_in_bytes_ + bytes_size sz t) % 2 ^ 64,
                        incoming_count_ := (q.incoming_count_ + 1) % 2 ^ 64 })
      else (false, { q with queue_ := res.1 })

/-- The method `erase(const tx_id_type&)` (210–220): the returned flag and the queue after
the call; `erase(itr)` removes the element found. -/
def unapplied_tx_queue.erase (sz : Nat) (q : unapplied_tx_queue) (id : Nat) :
    Bool × unapplied_tx_queue :=
  match q.find id with
  | none => (false, q)
  | some e =>
    (true, { q with incoming_count_ := (q.incoming_count_ + 2 ^ 64 - 1) % 2 ^ 64,
                    size_in_bytes_ := (q.size_in_bytes_ + 2 ^ 64 - bytes_size sz e) % 2 ^ 64,
                    queue_ := q.queue_.eraseP fun x => decide (x.id = id) })

/-- The states of a queue built with the budget `max`: what the constructor gives and what
`add_tx`, `erase` and `clear` make of such a state.  The txs added are those whose byte size
added to the budget stays below `2^64`, so that the `uint64_t` sum in `add_tx` does not
wrap. -/
inductive Reachable (sz max : Nat) : unapplied_tx_queue → Prop where
  | init : Reachable sz max (unapplied_tx_queue.new max)
  | add (q : unapplied_tx_queue) (t : tx) : Reachable sz max q → max + sz + t.size < 2 ^ 64 →
      Reachable sz max (q.add_tx sz t).2
  | erase (q : unapplied_tx_queue) (id : Nat) : Reachable sz max q →
      Reachable sz max (q.erase sz id).2
  | clear (q : unapplied_tx_queue) : Reachable sz max q → Reachable sz max q.clear

/-- The accounting a queue keeps: the byte counter is the sum of `bytes_size` over the
entries, the entry counter is the number of entries, the byte counter is within the budget,
every entry has a positive byte size that did not wrap, and the two unique indices hold. -/
def Inv (sz : Nat) (q : unapplied_tx_queue) : Prop :=
  q.size_in_bytes_ = (q.queue_.map (bytes_size sz)).sum ∧
  q.incoming_count_ = q.queue_.length ∧
  q.size_in_bytes_ ≤ q.max_tx_queue_bytes_size_ ∧
  q.max_tx_queue_bytes_size_ < 2 ^ 64 ∧
  (∀ e ∈ q.queue_, 0 < bytes_size sz e) ∧
  (q.queue_.map fun e => e.id).Nodup ∧
  (q.queue_.map fun e => (e.sender, e.nonce)).Nodup

/-- The states reached from an empty queue, of any budget, by `add_tx` and `erase` of any
tx and id. -/
inductive FromEmpty (sz : Nat) : unapplied_tx_queue → Prop where
  | init (max : Nat) : FromEmpty sz (unapplied_tx_queue.new max)
  | add (q : unapplied_tx_queue) (t : tx) : FromEmpty sz q → FromEmpty sz (q.add_tx sz t).2
  | erase (q : unapplied_tx_queue) (id : Nat) : FromEmpty sz q →
      FromEmpty sz (q.erase sz id).2

/-- The order of the `by_nonce` index (61–64): `std::less` on the composite key
`(sender, nonce)`, the sender first. -/
def key_less (a b : Nat × Nat) : Bool :=
  decide (a.1 < b.1) || (decide (a.1 = b.1) && decide (a.2 < b.2))

/-- The composite key of an element in the `by_nonce` index. -/
def nonce_key (e : tx) : Nat × Nat := (e.sender, e.nonce)

/-- The sequence of the `by_nonce` index, `queue_.get<by_nonce>()`: the elements of the
container in ascending key order. -/
def by_nonce (c : List tx) : List tx :=
  c.insertionSort fun a b => key_less (nonce_key b) (nonce_key a) = false

/-- The position `lower_bound(k)` of an ordered index: the first element whose key is not
less than `k`, the end position when there is none. -/
def lower_bound (idx : List tx) (k : Nat × Nat) : Nat :=
  idx.findIdx fun e => !key_less (nonce_key e) k

/-- The position `upper_bound(k)` of an ordered index: the first element whose key is
greater than `k`, the end position when there is none. -/
def upper_bound (idx : List tx) (k : Nat × Nat) : Nat :=
  idx.findIdx fun e => key_less k (nonce_key e)

/-- The method `begin(sender, begin)` (167–169), as a position in the `by_nonce` index. -/
def unapplied_tx_queue.begin (q : unapplied_tx_queue) (sender : Nat) (b : Nat) : Nat :=
  lower_bound (by_nonce q.queue_) (sender, b)

/-- The method `end(sender, end)` (171–174), as a position in the `by_nonce` index. -/
def unapplied_tx_queue.end_ (q : unapplied_tx_queue) (sender : Nat) (e : Nat) : Nat :=
  upper_bound (by_nonce q.queue_) (sender, e)

/-- The loop `for (it = b; it != e; ++it)` over the elements `l` from position `b` on: the
elements visited, or `none` when the iterator is incremented at the end position. -/
def walk : List tx → Nat → Nat → Option (List tx)
  | [], b, e => if b = e then some [] else none
  | t :: r, b, e => if b = e then some [] else (walk r (b + 1) e).map fun v => t :: v

/-- Iterating from `begin(sender, lo)` to `end(sender, hi)`. -/
def unapplied_tx_queue.iterate (q : unapplied_tx_queue) (sender lo hi : Nat) :
    Option (List tx) :=
  walk ((by_nonce q.queue_).drop (q.begin sender lo)) (q.begin sender lo) (q.end_ sender hi)

end noir.tx_pool

/-!
The consensus types (`noir/consensus/types.h`, `noir/consensus/params.h`,
`noir/consensus/types/block.cpp`)

Conventions of the embedding

* `std::string` and `Bytes` values are lists of bytes; `int32_t` and `int64_t` values are
  integers, `uint32_t` and `size_t` values natural numbers, with `% 2^32` and `% 2^64` written
  where the arithmetic of the source can wrap.
* A method that changes its object returns the object after the call next to its result; a
  method that can throw returns an `Except` whose error is the exception's message.
* A `std::map` is the list of its `(key, value)` pairs, each key once.
* A `std::vector<std::shared_ptr<part>>` is a list of optional parts, `none` for a null
  pointer.  Reading or writing a slot past the end of the vector has no defined result in the
  source; the operations return `none` there.
* Declarations that the sources at hand use and do not contain (`vote`, `vote_set`,
  `validator_set`, `node_id`, `p2p::is_vote_type_valid`, `pub_key`, the Merkle proofs) are
  parameters: the records `Decls` and `Merkle`, and the arguments `address` and `now` of
  `validate_and_complete`.
-/

namespace noir.consensus

/-! ### `params.h` -/

/-- The constant `max_block_size_bytes` (`params.h`, 12). -/
def max_block_size_bytes : Int := 104857600

/-- The struct `block_params` (14–21). -/
structure block_params where
  max_bytes : Int
  max_gas : Int
deriving DecidableEq, Repr

/-- The static `block_params::get_default` (18–20). -/
def block_params.get_default : block_params := { max_bytes := 22020096, max_gas := -1 }

/-- The struct `evidence_params` (23–31). -/
structure evidence_params where
  max_age_num_blocks : Int
  max_age_duration : Int
  max_bytes : Int
deriving DecidableEq, Repr

/-- The static `evidence_params::get_default` (28–30); `std::chrono::hours(48).count()` is
48. -/
def evidence_params.get_default : evidence_params :=
  { max_age_num_blocks := 100000, max_age_duration := 48, max_bytes := 1048576 }

/-- The struct `validator_params` (33–39). -/
structure validator_params where
  pub_key_types : List String
deriving DecidableEq, Repr

/-- The static `validator_params::get_default` (36–38). -/
def validator_params.get_default : validator_params := { pub_key_types := ["ed25519"] }

/-- The struct `version_params` (41–47). -/
structure version_params where
  app_version : Nat
deriving DecidableEq, Repr

/-- The static `version_params::get_default` (44–46). -/
def version_params.get_default : version_params := { app_version := 0 }

/-- The struct `consensus_params` (49–78). -/
structure consensus_params where
  block : block_params
  evidence : evidence_params
  validator : validator_params
  version : version_params
deriving DecidableEq, Repr

/-- The method `validate_consensus_params` (55–67): the error message, if any. -/
def consensus_params.validate_consensus_params (p : consensus_params) : Option String :=
  if p.block.max_bytes ≤ 0 then some "block.MaxBytes must be greater than 0."
  else if p.block.max_bytes > max_block_size_bytes then some "block.MaxBytes is too big."
  else if p.block.max_gas < -1 then some "block.MaxGas must be greater or equal to -1."
  else none

/-- The static `consensus_params::get_default` (69–72). -/
def consensus_params.get_default : consensus_params :=
  { block := block_params.get_default, evidence := evidence_params.get_default,
    validator := validator_params.get_default, version := version_params.get_default }

/-! ### `types.h`: the genesis document -/

/-- The constant `max_chain_id_len` (`types.h`, 22). -/
def max_chain_id_len : Nat := 50

/-- The struct `genesis_validator` (24–29), over the type `PK` of a `pub_key`. -/
structure genesis_validator (PK : Type) where
  address : List Nat
  pub_key_ : PK
  power : Int
  name : List Nat

/-- The struct `genesis_doc` (31–86), over the type `PK` of a `pub_key`. -/
structure genesis_doc (PK : Type) where
  genesis_time : Int
  chain_id : List Nat
  initial_height : Int
  cs_params : Option consensus_params
  validators : List (genesis_validator PK)
  app_hash : List Nat
  app_state : List Nat

/-- The loop over the validators in `validate_and_complete` (66–80): whether it ran to its
end, and the validators after it.  The loop returns at the first validator of power zero; a
validator before that one has its empty address filled in from its key. -/
def complete_validators {PK : Type} (address : PK → List Nat) :
    List (genesis_validator PK) → Bool × List (genesis_validator PK)
  | [] => (true, [])
  | v :: vs =>
    if v.power = 0 then (false, v :: vs)
    else
      let r := complete_validators address vs
      (r.1, (if v.address = [] then { v with address := address v.pub_key_ } else v) :: r.2)

/-- The method `genesis_doc::validate_and_complete` (40–85): the returned flag and the
document after the call.  `address` is `pub_key::address()`, `now` the reading of the system
clock. -/
def genesis_doc.validate_and_complete {PK : Type} (address : PK → List Nat) (now : Int)
    (g : genesis_doc PK) : Bool × genesis_doc PK :=
  if g.chain_id = [] then (false, g)
  else if g.chain_id.length > max_chain_id_len then (false, g)
  else if g.initial_height < 0 then (false, g)
  else
    let g1 := if g.initial_height = 0 then { g with initial_height := 1 } else g
    let checked : Option (genesis_doc PK) :=
      match g1.cs_params with
      | none => some { g1 with cs_params := some consensus_params.get_default }
      | some p =>
        match p.validate_consensus_params with
        | some _ => none
        | none => some g1
    match checked with
    | none => (false, g1)
    | some g2 =>
      let r := complete_validators address g2.validators
      let g3 := { g2 with validators := r.2 }
      if r.1 = false then (false, g3)
      else (true, if g3.genesis_time = 0 then { g3 with genesis_time := now } else g3)

/-! ### `types.h`: the height vote set -/

/-- The enum `p2p::signed_msg_type`: the two enumerators that `get_vote_set` names (158–165)
and any other value. -/
inductive signed_msg_type where
  | Prevote
  | Precommit
  | other (n : Nat)
deriving DecidableEq, Repr

/-- The declarations that `height_vote_set` uses and that are not among the sources at hand:
the types `validator_set`, `vote_set`, `vote` and `node_id`, the fields `type` and `round` of
a vote, `p2p::is_vote_type_valid`, `vote_set::new_vote_set` and `vote_set::add_vote`. -/
structure Decls where
  validator_set : Type
  vote_set : Type
  vote : Type
  node_id : Type
  node_id_eq : DecidableEq node_id
  vote_type : vote → signed_msg_type
  vote_round : vote → Int
  is_vote_type_valid : signed_msg_type → Bool
  new_vote_set : List Nat → Int → Int → signed_msg_type → validator_set → vote_set
  vote_set_add_vote : vote_set → vote → Bool × vote_set

instance (D : Decls) : DecidableEq D.node_id := D.node_id_eq

/-- The lookup `m.find(k)` of a `std::map`: the value at `k`, if any. -/
def map_find {κ β : Type} [DecidableEq κ] (m : List (κ × β)) (k : κ) : Option β :=
  (m.find? fun e => decide (e.1 = k)).map Prod.snd

/-- The test `m.contains(k)` of a `std::map`. -/
def map_contains {κ β : Type} [DecidableEq κ] (m : List (κ × β)) (k : κ) : Bool :=
  (map_find m k).isSome

/-- The assignment `m[k] = v` of a `std::map`: the value at `k` replaced, or a new pair. -/
def map_assign {κ β : Type} [DecidableEq κ] (m : List (κ × β)) (k : κ) (v : β) :
    List (κ × β) :=
  if map_contains m k then m.map fun e => if e.1 = k then (k, v) else e else m ++ [(k, v)]

/-- The struct `round_vote_set` (88–91). -/
structure round_vote_set (D : Decls) where
  prevotes : D.vote_set
  precommits : D.vote_set

/-- The struct `height_vote_set` (106–209), without its mutex. -/
structure height_vote_set (D : Decls) where
  chain_id : List Nat
  height : Int
  val_set : D.validator_set
  round : Int
  round_vote_sets : List (Int × round_vote_set D)
  peer_catchup_rounds : List (D.node_id × List Int)

/-- The method `add_round` (132–139): the exception thrown and the object after the call. -/
def height_vote_set.add_round {D : Decls} (h : height_vote_set D) (round_ : Int) :
    Except String Unit × height_vote_set D :=
  if map_contains h.round_vote_sets round_ then
    (.error "add_round() for an existing round", h)
  else
    let prevotes := D.new_vote_set h.chain_id h.height round_ .Prevote h.val_set
    let precommits := D.new_vote_set h.chain_id h.height round_ .Precommit h.val_set
    (.ok (), { h with
      round_vote_sets := map_assign h.round_vote_sets round_ (round_vote_set.mk prevotes precommits) })

/-- The method `reset` (124–130). -/
def height_vote_set.reset {D : Decls} (h : height_vote_set D) (height_ : Int)
    (val_set_ : D.validator_set) : Except String Unit × height_vote_set D :=
  match ({ h with height := height_, val_set := val_set_ } : height_vote_set D).add_round 0 with
  | (.error e, h1) => (.error e, h1)
  | (.ok _, h1) => (.ok (), { h1 with round := 0 })

/-- The static `new_height_vote_set` (116–122): `std::make_shared<height_vote_set>()` gives
empty maps and round 0, then `reset` runs. -/
def height_vote_set.new_height_vote_set {D : Decls} (chain_id_ : List Nat) (height_ : Int)
    (val_set_ : D.validator_set) : height_vote_set D :=
  (({ chain_id := chain_id_, height := 0, val_set := val_set_, round := 0,
      round_vote_sets := [], peer_catchup_rounds := [] } : height_vote_set D).reset
    height_ val_set_).2

/-- The loop of `set_round` (146–150) from `r` on, `n` bounding the number of rounds left to
visit. -/
def height_vote_set.set_round_loop {D : Decls} (round_ : Int) :
    Nat → Int → height_vote_set D → Except String Unit × height_vote_set D
  | 0, _, h => (.ok (), h)
  | n + 1, r, h =>
    if r ≤ round_ then
      if map_contains h.round_vote_sets r then set_round_loop round_ n (r + 1) h
      else
        match h.add_round r with
        | (.error e, h1) => (.error e, h1)
        | (.ok _, h1) => set_round_loop round_ n (r + 1) h1
    else (.ok (), h)

/-- The method `set_round` (141–152): the exception thrown and the object after the call.
The loop visits the `round_ - new_round_ + 1` rounds from `new_round_` to `round_`. -/
def height_vote_set.set_round {D : Decls} (h : height_vote_set D) (round_ : Int) :
    Except String Unit × height_vote_set D :=
  let new_round_ := h.round - 1
  if h.round ≠ 0 ∧ round_ < new_round_ then (.error "set_round() must increment round", h)
  else
    match height_vote_set.set_round_loop round_ (round_ + 1 - new_round_).toNat new_round_ h with
    | (.error e, h1) => (.error e, h1)
    | (.ok _, h1) => (.ok (), { h1 with round := round_ })

/-- The method `get_vote_set` (154–166): a null pointer is `none`. -/
def height_vote_set.get_vote_set {D : Decls} (h : height_vote_set D) (round_ : Int)
    (vote_type : signed_msg_type) : Except String (Option D.vote_set) :=
  match map_find h.round_vote_sets round_ with
  | none => .ok none
  | some rvs =>
    match vote_type with
    | .Prevote => .ok (some rvs.prevotes)
    | .Precommit => .ok (some rvs.precommits)
    | .other _ => .error "get_vote_set() unexpected vote type"

/-- The call `vote_set_->add_vote(vote_)` (197) on the vote set that `get_vote_set` returned
for the round and type of the vote: the shared vote set of the round entry is replaced by
what the call made of it. -/
def height_vote_set.forward {D : Decls} (h : height_vote_set D) (vote_ : D.vote)
    (vote_set_ : D.vote_set) : Except String Bool × height_vote_set D :=
  let r := D.vote_set_add_vote vote_set_ vote_
  (.ok r.1, { h with round_vote_sets := h.round_vote_sets.map fun e =>
    if e.1 = D.vote_round vote_ then
      (e.1, match D.vote_type vote_ with
            | .Prevote => { e.2 with prevotes := r.2 }
            | .Precommit => { e.2 with precommits := r.2 }
            | .other _ => e.2)
    else e })

/-- The method `add_vote` (181–198): the returned flag, or the exception thrown, and the
object after the call. -/
def height_vote_set.add_vote {D : Decls} (h : height_vote_set D) (vote_ : D.vote)
    (peer_id : D.node_id) : Except String Bool × height_vote_set D :=
  if D.is_vote_type_valid (D.vote_type vote_) = false then (.ok false, h)
  else
    match h.get_vote_set (D.vote_round vote_) (D.vote_type vote_) with
    | .error e => (.error e, h)
    | .ok (some vote_set_) => h.forward vote_ vote_set_
    | .ok none =>
      match map_find h.peer_catchup_rounds peer_id with
      | none => (.ok false, h)
      | some rounds =>
        if rounds.length ≥ 2 then (.ok false, h)
        else
          match h.add_round (D.vote_round vote_) with
          | (.error e, h1) => (.error e, h1)
          | (.ok _, h1) =>
            match h1.get_vote_set (D.vote_round vote_) (D.vote_type vote_) with
            | .error e => (.error e, h1)
            | .ok none => (.error "null vote set", h1)
            | .ok (some vote_set_) =>
              let pushed := map_assign h1.peer_catchup_rounds peer_id (rounds ++ [D.vote_round vote_])
              ({ h1 with peer_catchup_rounds := pushed } : height_vote_set D).forward vote_ vote_set_

/-- The entry that `add_round` makes for a round. -/
def fresh_round (D : Decls) (chain_id : List Nat) (height : Int) (val_set : D.validator_set)
    (r : Int) : Int × round_vote_set D :=
  (r, round_vote_set.mk (D.new_vote_set chain_id height r .Prevote val_set)
    (D.new_vote_set chain_id height r .Precommit val_set))

/-- The height vote set at round 5: what `new_height_vote_set` gives, after
`set_round(5)`. -/
def at_round_5 (D : Decls) (chain_id : List Nat) (height : Int) (val_set : D.validator_set) :
    height_vote_set D :=
  ((height_vote_set.new_height_vote_set chain_id height val_set).set_round 5).2

/-- The states of a height vote set: what `new_height_vote_set` gives, and what `set_round`
and `add_vote` make of such a state. -/
inductive Reached (D : Decls) : height_vote_set D → Prop where
  | new (chain_id : List Nat) (height : Int) (val_set : D.validator_set) :
      Reached D (height_vote_set.new_height_vote_set chain_id height val_set)
  | set_round (h : height_vote_set D) (round_ : Int) : Reached D h →
      Reached D (h.set_round round_).2
  | add_vote (h : height_vote_set D) (vote_ : D.vote) (peer_id : D.node_id) : Reached D h →
      Reached D (h.add_vote vote_ peer_id).2

/-! ### `block.cpp`: the part set -/

/-- The Merkle declarations that the part set uses and that are not among the sources at
hand: the type of a `merkle::proof`, `merkle::proofs_from_bytes_list` (the root, and the proof
of each leaf by its position) and `proof::verify` (true when it reports no error). -/
structure Merkle where
  proof : Type
  proofs_from_bytes_list : List (List Nat) → List Nat × (Nat → proof)
  verify : proof → List Nat → List Nat → Bool

/-- The struct `part`: `index`, `bytes_` and `proof_`, as `new_part_set_from_data` and
`add_part` use them. -/
structure part (M : Merkle) where
  index : Nat
  bytes_ : List Nat
  proof_ : M.proof

/-- The struct `p2p::part_set_header`: `total` and `hash`. -/
structure part_set_header where
  total : Nat
  hash : List Nat
deriving DecidableEq, Repr

/-- Modelled from the spec: the class `bit_array` of `parts_bit_array`, whose declaration is
not among the sources at hand.  The spec only says that adding a part marks its bit; the
model is the list of the bits. -/
abbrev bit_array := List Bool

/-- Modelled from the spec: `bit_array::new_bit_array(n)`, an array of `n` clear bits. -/
def bit_array.new_bit_array (n : Nat) : bit_array := List.replicate n false

/-- Modelled from the spec: `bit_array::set_index(i, v)`, which sets bit `i` and leaves an
array too short for `i` as it is. -/
def bit_array.set_index (a : bit_array) (i : Nat) (v : Bool) : bit_array := List.set a i v

/-- The struct `part_set`, with the fields that `block.cpp` assigns (64–69, 97–102), without
its mutex.  The widths of `count` and `byte_size` are not in the sources at hand; they are
natural numbers. -/
structure part_set (M : Merkle) where
  total : Nat
  hash : List Nat
  parts : List (Option (part M))
  parts_bit_array : bit_array
  count : Nat
  byte_size : Nat

/-- The static `part_set::new_part_set_from_header` (60–71). -/
def part_set.new_part_set_from_header (M : Merkle) (header : part_set_header) : part_set M :=
  { total := header.total
    hash := header.hash
    parts := List.replicate header.total none
    parts_bit_array := bit_array.new_bit_array header.total
    count := 0
    byte_size := 0 }

/-- The bytes that iteration `i` of the first loop of `new_part_set_from_data` copies
(80–84): from `i * part_size` to `min((uint32_t)data.size(), (i + 1) * part_size)`, both
products in `uint32_t`.  A range whose end is before its start copies nothing here. -/
def part_bytes (data : List Nat) (part_size i : Nat) : List Nat :=
  let first := (i * part_size) % 2 ^ 32
  let last := min (data.length % 2 ^ 32) (((i + 1) * part_size) % 2 ^ 32)
  (data.drop first).take (last - first)

/-- The static `part_set::new_part_set_from_data` (73–104), for `part_size > 0`: `total` is
computed in `size_t` and stored in a `uint32_t`; the two loops run over `i < total`. -/
def part_set.new_part_set_from_data (M : Merkle) (data : List Nat) (part_size : Nat) :
    part_set M :=
  let total := (data.length + part_size + 2 ^ 64 - 1) % 2 ^ 64 / part_size % 2 ^ 32
  let parts_bytes := (List.range total).map fun i => part_bytes data part_size i
  let parts_bit_array := (List.range total).foldl (fun a i => bit_array.set_index a i true)
    (bit_array.new_bit_array total)
  let proofs := M.proofs_from_bytes_list parts_bytes
  { total := total
    hash := proofs.1
    parts := (List.range total).map fun i =>
      some (part.mk i (part_bytes data part_size i) (proofs.2 i))
    parts_bit_array := parts_bit_array
    count := total
    byte_size := data.length }

/-- The method `part_set::get_hash` (134–138) on an object. -/
def part_set.get_hash {M : Merkle} (ps : part_set M) : List Nat := ps.hash

/-- The test of `add_part` for a part that is already there (115–118): `none` when
`parts[part_->index]` is read past the end of the vector. -/
def part_set.exists_part {M : Merkle} (ps : part_set M) (index : Nat) : Option Bool :=
  if 0 < ps.parts.length ∧ ps.parts.length ≥ index then
    (ps.parts.get? index).map Option.isSome
  else some false

/-- The method `part_set::add_part` (106–132): the returned flag and the part set after the
call, or `none` when a slot past the end of `parts` is read or written. -/
def part_set.add_part {M : Merkle} (ps : part_set M) (part_ : part M) :
    Option (Bool × part_set M) :=
  if part_.index ≥ ps.total then some (false, ps)
  else
    match ps.exists_part part_.index with
    | none => none
    | some true => some (false, ps)
    | some false =>
      if M.verify part_.proof_ ps.get_hash part_.bytes_ = false then some (false, ps)
      else if part_.index < ps.parts.length then
        some (true, { ps with
          parts := ps.parts.set part_.index (some part_)
          parts_bit_array := bit_array.set_index ps.parts_bit_array part_.index true
          count := ps.count + 1
          byte_size := ps.byte_size + part_.bytes_.length })
      else none

/-- Modelled from the spec: `part_set::is_complete`, whose definition is not among the
sources at hand; the spec gives `is_complete() ↔ count == total`. -/
def part_set.is_complete {M : Merkle} (ps : part_set M) : Bool := decide (ps.count = ps.total)

/-- The bytes that `block::new_block_from_part_set` (201–208) hands to the decoder: nothing
for a part set that is not complete, else the bytes of the parts, slot after slot; `none`
when a slot holds a null pointer. -/
def new_block_from_part_set_bytes {M : Merkle} (ps : part_set M) : Option (List Nat) :=
  if ps.is_complete = false then none
  else ps.parts.foldr (fun p acc =>
    match p, acc with
    | some q, some d => some (q.bytes_ ++ d)
    | _, _ => none) (some [])

/-- The part sets that the two constructors and `add_part` produce, the constructor from
data with a part size `0 < part_size` and `data.size() + part_size < 2^32`. -/
inductive Built (M : Merkle) : part_set M → Prop where
  | from_header (header : part_set_header) : header.total < 2 ^ 32 →
      Built M (part_set.new_part_set_from_header M header)
  | from_data (data : List Nat) (part_size : Nat) : 0 < part_size →
      data.length + part_size < 2 ^ 32 →
      Built M (part_set.new_part_set_from_data M data part_size)
  | add_part (ps : part_set M) (part_ : part M) (r : Bool × part_set M) : Built M ps →
      ps.add_part part_ = some r → Built M r.2

/-- The Merkle parameters used to run the definitions on concrete inputs: a proof is a flag
and verifies when the flag is set. -/
def Merkle.flag : Merkle :=
  { proof := Bool
    proofs_from_bytes_list := fun _ => ([], fun _ => true)
    verify := fun p _ _ => p }

/-- The declarations used to run the height vote set on concrete inputs: a vote is its type
and round, a vote set the list of the votes it was given, a peer a number. -/
def Decls.plain : Decls :=
  { validator_set := Unit
    vote_set := List (signed_msg_type × Int)
    vote := signed_msg_type × Int
    node_id := Nat
    node_id_eq := inferInstance
    vote_type := Prod.fst
    vote_round := Prod.snd
    is_vote_type_valid := fun t => decide (t = .Prevote ∨ t = .Precommit)
    new_vote_set := fun _ _ _ _ _ => []
    vote_set_add_vote := fun s v => (true, s ++ [v]) }

/-- The number of non-empty slots of a part set. -/
def part_set.filled {M : Merkle} (ps : part_set M) : Nat := ps.parts.countP Option.isSome

/-- The byte length of the part in a slot, 0 for an empty slot. -/
def slot_size {M : Merkle} : Option (part M) → Nat
  | none => 0
  | some p => p.bytes_.length

/-- The sum of the byte lengths of the parts stored in a part set. -/
def part_set.stored_size {M : Merkle} (ps : part_set M) : Nat := (ps.parts.map slot_size).sum

/-- What a part set keeps count of: `parts` has `total` slots, `count` is the number of
non-empty slots, bit `i` of the bit array is set exactly when slot `i` is non-empty, and
`byte_size` is the sum of the byte lengths of the stored parts. -/
def part_set.Inv {M : Merkle} (ps : part_set M) : Prop :=
  ps.parts.length = ps.total ∧
  ps.count = ps.filled ∧
  ps.parts_bit_array = ps.parts.map Option.isSome ∧
  ps.byte_size = ps.stored_size

/-! ### `types.h`: `pol_info` and `weighted_median` -/

/-- The loop of `pol_info` (173–177) with `n` rounds left to visit, from round `n - 1` down
to round 0: `none` when `get_vote_set` returns a null pointer, which the loop dereferences.
`two_thirds_majority` tells whether `vote_set::two_thirds_majority()` of a vote set has a
value; `vote_set` is not among the sources at hand. -/
def height_vote_set.pol_info_loop {D : Decls} (two_thirds_majority : D.vote_set → Bool)
    (h : height_vote_set D) : Nat → Option Int
  | 0 => some (-1)
  | n + 1 =>
    match h.get_vote_set (n : Int) .Prevote with
    | .ok (some rvs) =>
      if two_thirds_majority rvs then some (n : Int) else pol_info_loop two_thirds_majority h n
    | _ => none

/-- The method `pol_info` (171–179): the loop starts at `round` and visits `round + 1`
rounds, none when `round` is negative. -/
def height_vote_set.pol_info {D : Decls} (two_thirds_majority : D.vote_set → Bool)
    (h : height_vote_set D) : Option Int :=
  h.pol_info_loop two_thirds_majority (h.round + 1).toNat

/-- The struct `weighted_time` (312–315). -/
structure weighted_time where
  time : Int
  weight : Int
deriving DecidableEq, Repr

/-- The loop of `weighted_median` (321–327) over the sorted vector, `res` being 0 when the
loop runs to its end. -/
def weighted_median_loop : Int → List weighted_time → Int
  | _, [] => 0
  | median, t :: ts =>
    if median ≤ t.weight then t.time else weighted_median_loop (median - t.weight) ts

/-- The function `weighted_median` (317–329) after its call of `sort`, on the vector `sorted`
that the call left: `total_voting_power / 2` truncates. -/
def weighted_median_sorted (sorted : List weighted_time) (total_voting_power : Int) : Int :=
  weighted_median_loop (Int.tdiv total_voting_power 2) sorted

/-- The function `weighted_median` (317–329), with a stable sort by time standing for
`std::sort`, which may leave entries of equal time in any order. -/
def weighted_median (weight_times : List weighted_time) (total_voting_power : Int) : Int :=
  weighted_median_sorted (weight_times.insertionSort fun a b => a.time ≤ b.time)
    total_voting_power

/-- The sum of the weights of the entries with a time up to `t`. -/
def weight_upto (l : List weighted_time) (t : Int) : Int :=
  ((l.filter fun e => decide (e.time ≤ t)).map fun e => e.weight).sum

/-! ### `light_block.h` -/

/-- The message `::tendermint::types::LightBlock` as `to_proto` fills it: the two
sub-messages, each present or not.  `SHp` and `VSp` are the message types of a signed header
and of a validator set. -/
structure LightBlock (SHp VSp : Type) where
  signed_header : Option SHp
  validator_set : Option VSp

/-- The struct `light_block` (30–60): two shared pointers, `none` for a null pointer. -/
structure light_block (SH VS : Type) where
  s_header : Option SH
  val_set : Option VS

/-- The method `light_block::to_proto` (48–59): `none` when a null pointer is dereferenced,
else the error or the message returned.  `sh_to_proto` is `signed_header::to_proto` and
`vs_to_proto` is `validator_set::to_proto`, which returns a message or an error. -/
def light_block.to_proto {SH VS SHp VSp : Type} (sh_to_proto : SH → SHp)
    (vs_to_proto : VS → Except String VSp) (lb : light_block SH VS) :
    Option (Except String (LightBlock SHp VSp)) :=
  let ret : LightBlock SHp VSp := { signed_header := none, validator_set := none }
  let ret1 : Option (LightBlock SHp VSp) :=
    if lb.s_header.isNone then
      lb.s_header.map fun s => { ret with signed_header := some (sh_to_proto s) }
    else some ret
  match ret1 with
  | none => none
  | some r =>
    if lb.val_set.isNone then
      match lb.val_set.map vs_to_proto with
      | none => none
      | some (.error e) => some (.error e)
      | some (.ok p) => some (.ok { r with validator_set := some p })
    else some (.ok r)

end noir.consensus

/-!
The RLP codec (`noir/codec/rlp.h`)

Conventions of the embedding

* A byte is a natural number below 256.  The span `std::span((const char*)&v, sizeof(T))`
  over an integer is the list of its bytes in memory order, which is the little-endian order
  on the hosts the code is built for.
* An output stream is the list of bytes written so far.  An input stream is the buffer and
  the position indicator; `tellp()` is the position.
* `check(cond, msg)` throws with the message `msg` when `cond` is false; a reading operator
  returns the value or the message, and the stream as it left it.
-/

namespace noir.codec.rlp

/-- The bytes of a `uint64_t` in memory order, least significant first. -/
def le_bytes (v : Nat) : List Nat := (List.range 8).map fun i => v / 256 ^ i % 256

/-- The `uint64_t` whose bytes in memory order are `s`. -/
def of_le_bytes : List Nat → Nat
  | [] => 0
  | b :: r => b + 256 * of_le_bytes r

/-- The count `trimmed` of `encode_bytes` (19–24): the distance from the first non-zero byte
found from the back to the front of the span, 0 when all bytes are zero. -/
def trimmed (s : List Nat) : Nat := (s.reverse.dropWhile fun c => decide (c = 0)).length

/-- The function `detail::encode_bytes` (17–32). -/
def encode_bytes (out : List Nat) (s : List Nat) (mod : Nat) : List Nat :=
  if trimmed s = 1 ∧ s.getD 0 0 &&& 0x80 = 0 then out ++ [s.getD 0 0]
  else (out ++ [(trimmed s + mod) % 256]) ++ (s.take (trimmed s)).reverse

/-- The integer writer `operator<<(datastream&, const T&)` (86–91) for `uint64_t`. -/
def write_uint64 (out : List Nat) (v : Nat) : List Nat := encode_bytes out (le_bytes v) 0x80

/-- An input stream `datastream<const char>`: the buffer and the position indicator. -/
structure stream where
  buf : List Nat
  pos : Nat
deriving DecidableEq, Repr

/-- The outcome of a reading operator: the value or the message of the exception, and the
stream after it. -/
abbrev Read (α : Type) := Except String α × stream

/-- The method `basic_datastream::get()` (datastream.h 76–87). -/
def stream.get (ds : stream) : Read Nat :=
  match ds.buf.get? ds.pos with
  | none => (.error "datastream attempted to read past the end", ds)
  | some b => (.ok b, { ds with pos := ds.pos + 1 })

/-- The method `basic_datastream::tellp()` (datastream.h 152–154). -/
def stream.tellp (ds : stream) : Nat := ds.pos

/-- The loop `std::for_each(s.rend() - size, s.rend(), [&](auto& c) { ds.get(c); })` of
`decode_bytes` and `decode_prefix`: `size` bytes are read, the first one into the highest of
the `size` low bytes of the span; the result is those bytes in memory order. -/
def get_reversed : Nat → stream → Read (List Nat)
  | 0, ds => (.ok [], ds)
  | size + 1, ds =>
    match ds.get with
    | (.error e, ds1) => (.error e, ds1)
    | (.ok b, ds1) =>
      match get_reversed size ds1 with
      | (.error e, ds2) => (.error e, ds2)
      | (.ok low, ds2) => (.ok (low ++ [b]), ds2)

/-- The function `detail::decode_bytes` (55–66) on a span of `n` bytes, for a prefix with
`prefix - mod ≤ n`: the span after the call, in memory order. -/
def decode_bytes (ds : stream) (n : Nat) (pre mod : Nat) : Read (List Nat) :=
  if pre < 0x80 then (.ok (pre :: List.replicate (n - 1) 0), ds)
  else
    let size := pre - mod
    match get_reversed size ds with
    | (.error e, ds1) => (.error e, ds1)
    | (.ok low, ds1) => (.ok (low ++ List.replicate (n - size) 0), ds1)

/-- The integer reader `operator>>(datastream&, T&)` (93–106) for `uint64_t`. -/
def read_uint64 (ds : stream) : Read Nat :=
  match ds.get with
  | (.error e, ds1) => (.error e, ds1)
  | (.ok pre, ds1) =>
    if pre < 0xb8 then
      if pre ≤ 0x80 + 8 then
        match decode_bytes ds1 8 pre 0x80 with
        | (.error e, ds2) => (.error e, ds2)
        | (.ok s, ds2) => (.ok (of_le_bytes s), ds2)
      else (.error "not sufficient output size", ds1)
    else if pre < 0xc0 then (.error "not implemented", ds1)
    else (.error "not matched prefix type", ds1)

/-- The function `detail::decode_prefix` (68–82), for a prefix not below `mod`: the
`uint64_t` it returns. -/
def decode_prefix (ds : stream) (pre mod : Nat) : Read Nat :=
  let size := pre - mod
  if size ≤ 55 then (.ok size, ds)
  else
    match get_reversed (size - 55) ds with
    | (.error e, ds1) => (.error e, ds1)
    | (.ok low, ds1) => (.ok (of_le_bytes (low ++ List.replicate (8 - (size - 55)) 0)), ds1)

/-- The loop `for_each_field` of the struct reader (274–279) over `k` fields of type
`uint64_t`: `size` is a `uint64_t`, so the subtraction wraps and `size >= 0` compares an
unsigned number with 0. -/
def read_fields : Nat → Nat → stream → Read (List Nat)
  | 0, _, ds => (.ok [], ds)
  | k + 1, size, ds =>
    let start := ds.tellp
    match read_uint64 ds with
    | (.error e, ds1) => (.error e, ds1)
    | (.ok val, ds1) =>
      let size1 := (size + 2 ^ 64 - (ds1.tellp - start) % 2 ^ 64) % 2 ^ 64
      if size1 ≥ 0 then
        match read_fields k size1 ds1 with
        | (.error e, ds2) => (.error e, ds2)
        | (.ok vals, ds2) => (.ok (val :: vals), ds2)
      else (.error "insufficient bytes provided", ds1)

/-- The struct reader `operator>>(datastream&, T&)` (269–281) for a struct of `k` fields of
type `uint64_t`: the values of the fields. -/
def read_struct (k : Nat) (ds : stream) : Read (List Nat) :=
  match ds.get with
  | (.error e, ds1) => (.error e, ds1)
  | (.ok pre, ds1) =>
    if pre ≥ 0xc0 then
      match decode_prefix ds1 pre 0xc0 with
      | (.error e, ds2) => (.error e, ds2)
      | (.ok size, ds2) => read_fields k size ds2
    else (.error "not matched prefix type", ds1)

end noir.codec.rlp

namespace noir.codec.orderedcode

/-! ## Lexicographic order: basic facts -/

theorem lexLt_irrefl : ∀ x : List Nat, ¬ lexLt x x
  | [] => by simp [lexLt]
  | a :: x => by simp [lexLt, lexLt_irrefl x]

theorem lexLt_asymm : ∀ x y : List Nat, lexLt x y → ¬ lexLt y x
  | [], [] => by simp [lexLt]
  | [], _ :: _ => by simp [lexLt]
  | _ :: _, [] => by simp [lexLt]
  | a :: x, b :: y => by
    intro h h2
    simp only [lexLt] at h h2
    rcases h with h | ⟨h, h3⟩
    · rcases h2 with h2 | ⟨h2, _⟩ <;> omega
    · rcases h2 with h2 | ⟨_, h4⟩
      · omega
      · exact lexLt_asymm x y h3 h4

theorem lexLt_append_left : ∀ (p x y : List Nat), lexLt (p ++ x) (p ++ y) ↔ lexLt x y
  | [], _, _ => by simp
  | a :: p, x, y => by simp [lexLt, lexLt_append_left p x y]

theorem diffLt_lexLt : ∀ x y : List Nat, diffLt x y → lexLt x y
  | [], _ => by simp [diffLt]
  | _ :: _, [] => by simp [diffLt]
  | a :: x, b :: y => by
    intro h
    simp only [diffLt] at h
    simp only [lexLt]
    rcases h with h | ⟨h, h3⟩
    · exact Or.inl h
    · exact Or.inr ⟨h, diffLt_lexLt x y h3⟩

theorem diffLt_append : ∀ (x y p q : List Nat), diffLt x y → diffLt (x ++ p) (y ++ q)
  | [], _, _, _ => by simp [diffLt]
  | _ :: _, [], _, _ => by simp [diffLt]
  | a :: x, b :: y, p, q => by
    intro h
    simp only [diffLt] at h
    simp only [List.cons_append, diffLt]
    rcases h with h | ⟨h, h3⟩
    · exact Or.inl h
    · exact Or.inr ⟨h, diffLt_append x y p q h3⟩

theorem diffLt_append_left : ∀ (p x y : List Nat), diffLt x y → diffLt (p ++ x) (p ++ y)
  | [], _, _ => by simp
  | a :: p, x, y => by
    intro h
    simp [diffLt, diffLt_append_left p x y h]

/-- Bytes appended after a decisive difference do not change the order. -/
theorem diffLt_lexLt_append (x y p q : List Nat) (h : diffLt x y) : lexLt (x ++ p) (y ++ q) :=
  diffLt_lexLt _ _ (diffLt_append x y p q h)

theorem lexLt_trichotomy : ∀ x y : List Nat, lexLt x y ∨ x = y ∨ lexLt y x
  | [], [] => by simp
  | [], _ :: _ => by simp [lexLt]
  | _ :: _, [] => by simp [lexLt]
  | a :: x, b :: y => by
    simp only [lexLt, List.cons.injEq]
    rcases Nat.lt_trichotomy a b with h | h | h
    · exact Or.inl (Or.inl h)
    · rcases lexLt_trichotomy x y with h2 | h2 | h2
      · exact Or.inl (Or.inr ⟨h, h2⟩)
      · exact Or.inr (Or.inl ⟨h, h2⟩)
      · exact Or.inr (Or.inr (Or.inr ⟨h.symm, h2⟩))
    · exact Or.inr (Or.inr (Or.inl h))

/-! ## Strings -/

theorem escape_append (x y : List Nat) : escape (x ++ y) = escape x ++ escape y := by
  induction x with
  | nil => simp [escape]
  | cons a x ih => simp [escape, ih]

/-- The loop invariant of the string writer after `k` iterations. -/
theorem writeString_loop (out v : List Nat) (k : Nat) (hk : k ≤ v.length) :
    ((List.range k).foldl (writeStringStep v) (0, out)).1 ≤ k ∧
    ((List.range k).foldl (writeStringStep v) (0, out)).2 ++
      (v.drop ((List.range k).foldl (writeStringStep v) (0, out)).1).take
        (k - ((List.range k).foldl (writeStringStep v) (0, out)).1)
      = out ++ escape (v.take k) := by
  induction k with
  | zero => simp [escape]
  | succ k ih =>
    have hk1 : k < v.length := hk
    obtain ⟨h1, h2⟩ := ih (Nat.le_of_lt hk1)
    rw [List.range_succ, List.foldl_append]
    simp only [List.foldl_cons, List.foldl_nil]
    generalize (List.range k).foldl (writeStringStep v) (0, out) = st at h1 h2 ⊢
    have hget : v.getD k 0 = v[k] := by simp [List.getD, List.getElem?_eq_getElem hk1]
    have htake : v.take (k + 1) = v.take k ++ [v[k]] := by
      rw [List.take_succ, List.getElem?_eq_getElem hk1]; rfl
    rw [htake, escape_append, ← List.append_assoc, ← h2]
    unfold writeStringStep
    rw [hget]
    by_cases c0 : v[k] = 0x00
    · simp [c0, escape, lit00]
    · by_cases c1 : v[k] = 0xff
      · simp [c1, escape, litff]
      · simp only [c0, c1, if_false, escape, List.append_nil]
        refine ⟨Nat.le_succ_of_le h1, ?_⟩
        have : k + 1 - st.1 = (k - st.1) + 1 := by omega
        rw [this, List.take_succ]
        have hlen : k - st.1 < (v.drop st.1).length := by simp; omega
        rw [List.getElem?_eq_getElem hlen]
        have : (v.drop st.1)[k - st.1] = v[k] := by
          rw [List.getElem_drop]; congr 1; omega
        simp [this]

theorem writeString_eq (out v : List Nat) : writeString out v = out ++ escape v ++ [0x00, 0x01] := by
  have h := writeString_loop out v v.length (Nat.le_refl _)
  unfold writeString
  simp only [List.take_length] at h
  simp only [h.2, term]
  rfl

/-- The escaped forms of two ordered strings differ decisively. -/
theorem escape_diffLt : ∀ s1 s2 : List Nat, lexLt s1 s2 →
    diffLt (escape s1 ++ [0x00, 0x01]) (escape s2 ++ [0x00, 0x01])
  | [], [] => by simp [lexLt]
  | [], b :: y => by
    intro _
    by_cases h0 : b = 0
    · simp [escape, diffLt, h0]
    · by_cases h1 : b = 255
      · simp [escape, diffLt, h1]
      · simp [escape, diffLt, h0, h1]; omega
  | _ :: _, [] => by simp [lexLt]
  | a :: x, b :: y => by
    intro h
    simp only [lexLt] at h
    rcases h with h | ⟨h, h2⟩
    · by_cases a0 : a = 0 <;> by_cases a1 : a = 255 <;> by_cases b0 : b = 0 <;>
        by_cases b1 : b = 255 <;> simp [escape, diffLt, a0, a1, b0, b1] <;> omega
    · subst h
      simp only [escape, List.append_assoc]
      exact diffLt_append_left _ _ _ (by simpa using escape_diffLt x y h2)

theorem readStringLoop_escape (rest : List Nat) : ∀ (s : List Nat), (∀ b ∈ s, b < 256) →
    ∀ acc : List Nat,
    readStringLoop 0 (escape s ++ [0x00, 0x01] ++ rest) acc = (Except.ok (acc ++ s), rest)
  | [], _, acc => by simp [escape, readStringLoop]
  | b :: s, hs, acc => by
    have hb : b < 256 := hs b (by simp)
    have ih := readStringLoop_escape rest s (fun c hc => hs c (by simp [hc]))
    by_cases h0 : b = 0
    · subst h0
      simp [escape, readStringLoop]
      have := ih (acc ++ [0])
      simp only [List.append_assoc, List.cons_append, List.nil_append] at this
      exact this
    · by_cases h1 : b = 255
      · subst h1
        simp [escape, readStringLoop]
        have := ih (acc ++ [255])
        simp only [List.append_assoc, List.cons_append, List.nil_append] at this
        exact this
      · simp only [escape, h0, h1, if_false, List.cons_append, List.nil_append]
        cases hrest : escape s ++ [0x00, 0x01] ++ rest with
        | nil => simp at hrest
        | cons c r =>
          have ih2 := ih (acc ++ [b])
          rw [hrest] at ih2
          simp only [List.append_assoc, List.cons_append, List.nil_append] at ih2 ⊢
          simp [readStringLoop, Nat.mod_eq_of_lt hb, h0, h1]
          exact ih2

/-! ## Claims about strings -/

/-- C3: for all strings `s1`, `s2` (arbitrary bytes), `s1` is smaller than `s2` in unsigned
bytewise lexicographic order if and only if the encoding of `s1` is smaller than the encoding
of `s2` in unsigned lexicographic byte order. -/
theorem string_order (s1 s2 : List Nat) :
    lexLt s1 s2 ↔ lexLt (encode writeString s1) (encode writeString s2) := by
  have key : ∀ a b : List Nat, lexLt a b →
      lexLt (encode writeString a) (encode writeString b) := by
    intro a b h
    simp only [encode, writeString_eq, List.nil_append]
    exact diffLt_lexLt _ _ (escape_diffLt a b h)
  constructor
  · exact key s1 s2
  · intro h
    rcases lexLt_trichotomy s1 s2 with h1 | h1 | h1
    · exact h1
    · subst h1
      exact absurd h (lexLt_irrefl _)
    · exact absurd (key s2 s1 h1) (lexLt_asymm _ _ h)

/-- C9: for every string `s` of bytes (embedded `0x00` and `0xff` and the empty string
included), decoding the encoding of `s` followed by any bytes `rest` returns `s` and leaves
exactly `rest` unread. -/
theorem string_roundtrip (s rest : List Nat) (hs : ∀ b ∈ s, b < 256) :
    decode readString (encode writeString s ++ rest)
      = (Except.ok s, { rem := rest, dir := increasing }) := by
  simp only [decode, readString, encode, writeString_eq, List.nil_append, increasing]
  rw [readStringLoop_escape rest s hs []]
  simp

/-- C9 at the string `a 00 ff` followed by the byte `07`. -/
theorem string_roundtrip_witness :
    (∀ b ∈ [0x61, 0x00, 0xff], b < 256) ∧
    decode readString (encode writeString [0x61, 0x00, 0xff] ++ [0x07])
      = (Except.ok [0x61, 0x00, 0xff], { rem := [0x07], dir := increasing }) :=
  ⟨by decide, string_roundtrip [0x61, 0x00, 0xff] [0x07] (by decide)⟩

/-! ## Unsigned integers -/

theorem uint64Loop_pos (fuel v : Nat) (buf : List Nat) (i : Nat) (h : 0 < v) :
    uint64Loop (fuel + 1) v buf i = uint64Loop fuel (v / 256) (buf.set i (v % 256)) (i - 1) := by
  simp [uint64Loop, h, Nat.shiftRight_eq_div_pow]

theorem uint64Loop_zero (fuel v : Nat) (buf : List Nat) (i : Nat) (h : v = 0) :
    uint64Loop fuel v buf i = (buf, i) := by
  cases fuel <;> simp [uint64Loop, h]

/-- The uint64 writer emits the length byte `n` and the `n` big-endian bytes, `n` being the
number of bytes of `u`. -/
theorem writeUint64_eq (out : List Nat) (u n : Nat) (hn : n ≤ 8)
    (hlo : n = 0 ∨ 256 ^ (n - 1) ≤ u) (hhi : u < 256 ^ n) :
    writeUint64 out u = out ++ n :: bigEndian n u := by
  have hrep : List.replicate 9 0 = [0, 0, 0, 0, 0, 0, 0, 0, (0 : Nat)] := rfl
  unfold writeUint64
  rw [hrep]
  interval_cases n
  · have h0 : u = 0 := by omega
    simp [uint64Loop_zero, h0, bigEndian]
  all_goals
    simp only [Nat.reduceSub, Nat.reducePow, false_or, Nat.reduceEqDiff, OfNat.ofNat_ne_zero] at hlo hhi
  all_goals
    repeat rw [uint64Loop_pos _ _ _ _ (by omega)]
    rw [uint64Loop_zero _ _ _ _ (by omega)]
    simp [bigEndian]
    try omega

theorem shl8_or (v c : Nat) (hv : v < 2 ^ 56) (hc : c < 256) :
    ((v <<< 8) % 2 ^ 64) ||| c = v * 256 + c := by
  rw [Nat.shiftLeft_eq, Nat.mod_eq_of_lt (by omega)]
  have := Nat.mul_add_lt_is_or (i := 8) (b := c) (by omega) v
  rw [Nat.mul_comm] at this
  exact this.symm

theorem getc_cons (b d : Nat) (r : List Nat) :
    DS.getc { rem := b :: r, dir := d } = (Except.ok ((b ^^^ d) % 256), { rem := r, dir := d }) := rfl

theorem bigEndian_length (n u : Nat) : (bigEndian n u).length = n := by
  induction n with
  | zero => rfl
  | succ n ih => simp [bigEndian, ih]

theorem bigEndian_lt (n u : Nat) : ∀ b ∈ bigEndian n u, b < 256 := by
  induction n with
  | zero => simp [bigEndian]
  | succ n ih =>
    intro b hb
    simp only [bigEndian, List.mem_cons] at hb
    rcases hb with hb | hb
    · subst hb; exact Nat.mod_lt _ (by decide)
    · exact ih b hb

/-- Big-endian strings of one length are ordered like the numbers they hold. -/
theorem bigEndian_diffLt : ∀ (n a b : Nat), a % 256 ^ n < b % 256 ^ n →
    diffLt (bigEndian n a) (bigEndian n b)
  | 0, a, b => by simp [Nat.mod_one]
  | n + 1, a, b => by
    intro h
    rw [Nat.mod_pow_succ, Nat.mod_pow_succ] at h
    simp only [bigEndian, diffLt]
    have ha : a % 256 ^ n < 256 ^ n := Nat.mod_lt _ (by positivity)
    have hb : b % 256 ^ n < 256 ^ n := Nat.mod_lt _ (by positivity)
    rcases Nat.lt_trichotomy (a / 256 ^ n % 256) (b / 256 ^ n % 256) with h1 | h1 | h1
    · exact Or.inl h1
    · refine Or.inr ⟨h1, bigEndian_diffLt n a b ?_⟩
      rw [h1] at h
      omega
    · exfalso
      have : 256 ^ n * (b / 256 ^ n % 256 + 1) ≤ 256 ^ n * (a / 256 ^ n % 256) :=
        Nat.mul_le_mul_left _ h1
      rw [Nat.mul_add, Nat.mul_one] at this
      omega

/-- Reading `k` bytes that are the big-endian bytes of `X` shifts them into the value. -/
theorem readUint64Bytes_bigEndian (X : Nat) (rest : List Nat) : ∀ (k v : Nat), k ≤ 8 →
    v < 256 ^ (8 - k) →
    readUint64Bytes k v { rem := bigEndian k X ++ rest, dir := 0 }
      = (Except.ok (v * 256 ^ k + X % 256 ^ k), { rem := rest, dir := 0 })
  | 0, v, _, _ => by simp [readUint64Bytes, bigEndian, Nat.mod_one]
  | k + 1, v, hk, hv => by
    have hc : X / 256 ^ k % 256 < 256 := Nat.mod_lt _ (by decide)
    have hv2 : v * 256 + X / 256 ^ k % 256 < 256 ^ (8 - k) := by
      have : 256 ^ (8 - k) = 256 ^ (8 - (k + 1)) * 256 := by
        rw [← Nat.pow_succ]; congr 1; omega
      rw [this]
      have : (v + 1) * 256 ≤ 256 ^ (8 - (k + 1)) * 256 := Nat.mul_le_mul_right _ hv
      omega
    have hv3 : v < 2 ^ 56 := by
      have : 256 ^ (8 - (k + 1)) ≤ 256 ^ 7 := Nat.pow_le_pow_right (by decide) (by omega)
      have : (256 : Nat) ^ 7 = 2 ^ 56 := by norm_num
      omega
    simp only [bigEndian, List.cons_append, readUint64Bytes, getc_cons, Res.andThen,
      Nat.xor_zero, Nat.mod_eq_of_lt hc]
    rw [shl8_or v _ hv3 hc, readUint64Bytes_bigEndian X rest k _ (by omega) hv2]
    congr 2
    rw [Nat.mod_pow_succ (k := k), Nat.pow_succ]
    ring

theorem readUint64_bigEndian (u n : Nat) (rest : List Nat) (hn : n ≤ 8) (hu : u < 256 ^ n) :
    readUint64 { rem := (n :: bigEndian n u) ++ rest, dir := 0 }
      = (Except.ok u, { rem := rest, dir := 0 }) := by
  simp only [readUint64, List.cons_append, getc_cons, Res.andThen, Nat.xor_zero]
  rw [Nat.mod_eq_of_lt (by omega : n < 256)]
  rw [readUint64Bytes_bigEndian u rest n 0 hn (by positivity)]
  simp [Nat.mod_eq_of_lt hu]

theorem bytesNeeded_exists (u : Nat) (hu : u < 2 ^ 64) :
    ∃ n, n ≤ 8 ∧ (n = 0 ∨ 256 ^ (n - 1) ≤ u) ∧ u < 256 ^ n := by
  by_cases h0 : u < 256 ^ 0; · exact ⟨0, by omega, Or.inl rfl, h0⟩
  by_cases h1 : u < 256 ^ 1; · exact ⟨1, by omega, Or.inr (by omega), h1⟩
  by_cases h2 : u < 256 ^ 2; · exact ⟨2, by omega, Or.inr (by omega), h2⟩
  by_cases h3 : u < 256 ^ 3; · exact ⟨3, by omega, Or.inr (by omega), h3⟩
  by_cases h4 : u < 256 ^ 4; · exact ⟨4, by omega, Or.inr (by omega), h4⟩
  by_cases h5 : u < 256 ^ 5; · exact ⟨5, by omega, Or.inr (by omega), h5⟩
  by_cases h6 : u < 256 ^ 6; · exact ⟨6, by omega, Or.inr (by omega), h6⟩
  by_cases h7 : u < 256 ^ 7; · exact ⟨7, by omega, Or.inr (by omega), h7⟩
  exact ⟨8, by omega, Or.inr (by omega), by omega⟩

theorem bytesNeeded_minimal (u n m : Nat) (hlo : n = 0 ∨ 256 ^ (n - 1) ≤ u) (hm : u < 256 ^ m) :
    n ≤ m := by
  rcases hlo with h | h
  · omega
  · have : 256 ^ (n - 1) < 256 ^ m := Nat.lt_of_le_of_lt h hm
    have := (Nat.pow_lt_pow_iff_right (by decide : 1 < 256)).1 this
    omega

/-! ## Claims about unsigned integers -/

/-- C4: for all uint64 values `a` and `b`, `a < b` if and only if the encoding of `a` (one
length byte, then the minimal big-endian bytes; the single byte `0x00` for zero) is smaller
than the encoding of `b` in unsigned lexicographic byte order. -/
theorem uint64_order (a b : Nat) (ha : a < 2 ^ 64) (hb : b < 2 ^ 64) :
    a < b ↔ lexLt (encode writeUint64 a) (encode writeUint64 b) := by
  have key : ∀ x y : Nat, x < 2 ^ 64 → y < 2 ^ 64 → x < y →
      lexLt (encode writeUint64 x) (encode writeUint64 y) := by
    intro x y hx hy hxy
    obtain ⟨n, hn, hlo, hhi⟩ := bytesNeeded_exists x hx
    obtain ⟨m, hm, hlo2, hhi2⟩ := bytesNeeded_exists y hy
    have hnm : n ≤ m := bytesNeeded_minimal x n m hlo (by omega)
    simp only [encode, writeUint64_eq [] x n hn hlo hhi, writeUint64_eq [] y m hm hlo2 hhi2,
      List.nil_append, lexLt]
    rcases Nat.lt_or_eq_of_le hnm with h | h
    · exact Or.inl h
    · subst h
      refine Or.inr ⟨rfl, diffLt_lexLt _ _ (bigEndian_diffLt n x y ?_)⟩
      rw [Nat.mod_eq_of_lt hhi, Nat.mod_eq_of_lt hhi2]
      exact hxy
  constructor
  · exact key a b ha hb
  · intro h
    rcases Nat.lt_trichotomy a b with h1 | h1 | h1
    · exact h1
    · subst h1
      exact absurd h (lexLt_irrefl _)
    · exact absurd (key b a hb ha h1) (lexLt_asymm _ _ h)

/-- C4 at `a = 255`, `b = 256`. -/
theorem uint64_order_witness :
    (255 < 2 ^ 64 ∧ 256 < 2 ^ 64) ∧
    (255 < 256 ↔ lexLt (encode writeUint64 255) (encode writeUint64 256)) :=
  ⟨by norm_num, uint64_order 255 256 (by norm_num) (by norm_num)⟩

/-- C10: for every uint64 `u` the encoding is the byte `n` followed by the `n` big-endian
bytes of `u`, where `n` is the least number of bytes that hold `u` (`0` for `u = 0`); it is
`n + 1` bytes long, and decoding it, whatever follows it, returns `u` and leaves exactly what
follows unread. -/
theorem uint64_roundtrip (u : Nat) (hu : u < 2 ^ 64) :
    ∃ n, u < 256 ^ n ∧ (∀ m, u < 256 ^ m → n ≤ m) ∧
      encode writeUint64 u = n :: bigEndian n u ∧
      (encode writeUint64 u).length = n + 1 ∧
      ∀ rest, decode readUint64 (encode writeUint64 u ++ rest)
        = (Except.ok u, { rem := rest, dir := increasing }) := by
  obtain ⟨n, hn, hlo, hhi⟩ := bytesNeeded_exists u hu
  have henc : encode writeUint64 u = n :: bigEndian n u := by
    simp [encode, writeUint64_eq [] u n hn hlo hhi]
  refine ⟨n, hhi, fun m hm => bytesNeeded_minimal u n m hlo hm, henc, ?_, ?_⟩
  · simp [henc, bigEndian_length]
  · intro rest
    rw [henc]
    exact readUint64_bigEndian u n rest hn hhi

/-- C10 at `u = 2^64 - 1`. -/
theorem uint64_roundtrip_witness :
    2 ^ 64 - 1 < 2 ^ 64 ∧
    ∃ n, 2 ^ 64 - 1 < 256 ^ n ∧ (∀ m, 2 ^ 64 - 1 < 256 ^ m → n ≤ m) ∧
      encode writeUint64 (2 ^ 64 - 1) = n :: bigEndian n (2 ^ 64 - 1) ∧
      (encode writeUint64 (2 ^ 64 - 1)).length = n + 1 ∧
      ∀ rest, decode readUint64 (encode writeUint64 (2 ^ 64 - 1) ++ rest)
        = (Except.ok (2 ^ 64 - 1), { rem := rest, dir := increasing }) :=
  ⟨by norm_num, uint64_roundtrip (2 ^ 64 - 1) (by norm_num)⟩

/-! ## Signed integers: the writer -/

theorem int64Loop_pos (fuel v : Nat) (buf : List Nat) (i n : Nat) (h : 0 < v) :
    int64Loop (fuel + 1) v buf i n
      = int64Loop fuel (v / 256) (buf.set i (v % 256)) (i - 1) (n + 1) := by
  simp [int64Loop, h, Nat.shiftRight_eq_div_pow]

theorem int64Loop_zero (fuel v : Nat) (buf : List Nat) (i n : Nat) (h : v = 0) :
    int64Loop fuel v buf i n = (buf, i, n) := by
  cases fuel <;> simp [int64Loop, h]

theorem or_msb1 (t : Nat) (h : t < 64) : t ||| 128 = t + 128 := by
  interval_cases t <;> rfl
theorem or_msb2 (t : Nat) (h : t < 32) : t ||| 192 = t + 192 := by
  interval_cases t <;> rfl
theorem or_msb3 (t : Nat) (h : t < 16) : t ||| 224 = t + 224 := by
  interval_cases t <;> rfl
theorem or_msb4 (t : Nat) (h : t < 8) : t ||| 240 = t + 240 := by
  interval_cases t <;> rfl
theorem or_msb5 (t : Nat) (h : t < 4) : t ||| 248 = t + 248 := by
  interval_cases t <;> rfl
theorem or_msb6 (t : Nat) (h : t < 2) : t ||| 252 = t + 252 := by
  interval_cases t <;> rfl

theorem int64Long_6_8 (u : Nat) (h1 : 2 ^ 6 ≤ u) (h2 : u < 2 ^ 8) :
    int64Long u = bigEndian 2 (int64Hdr 2 + u) := by
  have hrep : List.replicate 10 0 = [0, 0, 0, 0, 0, 0, 0, 0, 0, (0 : Nat)] := rfl
  unfold int64Long
  rw [hrep]
  repeat rw [int64Loop_pos _ _ _ _ _ (by omega)]
  rw [int64Loop_zero _ _ _ _ _ (by omega)]
  simp only [bigEndian, int64Hdr, msb, Nat.reducePow, Nat.reduceMul, Nat.reduceSub, Nat.reduceAdd,
    Nat.reduceLT, Nat.reduceGT, decide_True, decide_False, if_true, if_false, Nat.reduceShiftLeft,
    List.set_cons_succ, List.set_cons_zero, List.getD_cons_succ, List.getD_cons_zero,
    Bool.false_eq_true, decide_eq_true_eq, gt_iff_lt]
  split_ifs <;> first
    | omega
    | (simp [*, or_msb1, or_msb2, or_msb3, or_msb4, or_msb5, or_msb6]; omega)

theorem int64Long_8_13 (u : Nat) (h1 : 2 ^ 8 ≤ u) (h2 : u < 2 ^ 13) :
    int64Long u = bigEndian 2 (int64Hdr 2 + u) := by
  have hrep : List.replicate 10 0 = [0, 0, 0, 0, 0, 0, 0, 0, 0, (0 : Nat)] := rfl
  unfold int64Long
  rw [hrep]
  repeat rw [int64Loop_pos _ _ _ _ _ (by omega)]
  rw [int64Loop_zero _ _ _ _ _ (by omega)]
  simp only [bigEndian, int64Hdr, msb, Nat.reducePow, Nat.reduceMul, Nat.reduceSub, Nat.reduceAdd,
    Nat.reduceLT, Nat.reduceGT, decide_True, decide_False, if_true, if_false, Nat.reduceShiftLeft,
    List.set_cons_succ, List.set_cons_zero, List.getD_cons_succ, List.getD_cons_zero,
    Bool.false_eq_true, decide_eq_true_eq, gt_iff_lt]
  split_ifs <;> first
    | omega
    | (simp [*, or_msb1, or_msb2, or_msb3, or_msb4, or_msb5, or_msb6]; omega)

theorem int64Long_13_16 (u : Nat) (h1 : 2 ^ 13 ≤ u) (h2 : u < 2 ^ 16) :
    int64Long u = bigEndian 3 (int64Hdr 3 + u) := by
  have hrep : List.replicate 10 0 = [0, 0, 0, 0, 0, 0, 0, 0, 0, (0 : Nat)] := rfl
  unfold int64Long
  rw [hrep]
  repeat rw [int64Loop_pos _ _ _ _ _ (by omega)]
  rw [int64Loop_zero _ _ _ _ _ (by omega)]
  simp only [bigEndian, int64Hdr, msb, Nat.reducePow, Nat.reduceMul, Nat.reduceSub, Nat.reduceAdd,
    Nat.reduceLT, Nat.reduceGT, decide_True, decide_False, if_true, if_false, Nat.reduceShiftLeft,
    List.set_cons_succ, List.set_cons_zero, List.getD_cons_succ, List.getD_cons_zero,
    Bool.false_eq_true, decide_eq_true_eq, gt_iff_lt]
  split_ifs <;> first
    | omega
    | (simp [*, or_msb1, or_msb2, or_msb3, or_msb4, or_msb5, or_msb6]; omega)

theorem int64Long_16_20 (u : Nat) (h1 : 2 ^ 16 ≤ u) (h2 : u < 2 ^ 20) :
    int64Long u = bigEndian 3 (int64Hdr 3 + u) := by
  have hrep : List.replicate 10 0 = [0, 0, 0, 0, 0, 0, 0, 0, 0, (0 : Nat)] := rfl
  unfold int64Long
  rw [hrep]
  repeat rw [int64Loop_pos _ _ _ _ _ (by omega)]
  rw [int64Loop_zero _ _ _ _ _ (by omega)]
  simp only [bigEndian, int64Hdr, msb, Nat.reducePow, Nat.reduceMul, Nat.reduceSub, Nat.reduceAdd,
    Nat.reduceLT, Nat.reduceGT, decide_True, decide_False, if_true, if_false, Nat.reduceShiftLeft,
    List.set_cons_succ, List.set_cons_zero, List.getD_cons_succ, List.getD_cons_zero,
    Bool.false_eq_true, decide_eq_true_eq, gt_iff_lt]
  split_ifs <;> first
    | omega
    | (simp [*, or_msb1, or_msb2, or_msb3, or_msb4, or_msb5, or_msb6]; omega)

theorem int64Long_20_24 (u : Nat) (h1 : 2 ^ 20 ≤ u) (h2 : u < 2 ^ 24) :
    int64Long u = bigEndian 4 (int64Hdr 4 + u) := by
  have hrep : List.replicate 10 0 = [0, 0, 0, 0, 0, 0, 0, 0, 0, (0 : Nat)] := rfl
  unfold int64Long
  rw [hrep]
  repeat rw [int64Loop_pos _ _ _ _ _ (by omega)]
  rw [int64Loop_zero _ _ _ _ _ (by omega)]
  simp only [bigEndian, int64Hdr, msb, Nat.reducePow, Nat.reduceMul, Nat.reduceSub, Nat.reduceAdd,
    Nat.reduceLT, Nat.reduceGT, decide_True, decide_False, if_true, if_false, Nat.reduceShiftLeft,
    List.set_cons_succ, List.set_cons_zero, List.getD_cons_succ, List.getD_cons_zero,
    Bool.false_eq_true, decide_eq_true_eq, gt_iff_lt]
  split_ifs <;> first
    | omega
    | (simp [*, or_msb1, or_msb2, or_msb3, or_msb4, or_msb5, or_msb6]; omega)

theorem int64Long_24_27 (u : Nat) (h1 : 2 ^ 24 ≤ u) (h2 : u < 2 ^ 27) :
    int64Long u = bigEndian 4 (int64Hdr 4 + u) := by
  have hrep : List.replicate 10 0 = [0, 0, 0, 0, 0, 0, 0, 0, 0, (0 : Nat)] := rfl
  unfold int64Long
  rw [hrep]
  repeat rw [int64Loop_pos _ _ _ _ _ (by omega)]
  rw [int64Loop_zero _ _ _ _ _ (by omega)]
  simp only [bigEndian, int64Hdr, msb, Nat.reducePow, Nat.reduceMul, Nat.reduceSub, Nat.reduceAdd,
    Nat.reduceLT, Nat.reduceGT, decide_True, decide_False, if_true, if_false, Nat.reduceShiftLeft,
    List.set_cons_succ, List.set_cons_zero, List.getD_cons_succ, List.getD_cons_zero,
    Bool.false_eq_true, decide_eq_true_eq, gt_iff_lt]
  split_ifs <;> first
    | omega
    | (simp [*, or_msb1, or_msb2, or_msb3, or_msb4, or_msb5, or_msb6]; omega)

theorem int64Long_27_32 (u : Nat) (h1 : 2 ^ 27 ≤ u) (h2 : u < 2 ^ 32) :
    int64Long u = bigEndian 5 (int64Hdr 5 + u) := by
  have hrep : List.replicate 10 0 = [0, 0, 0, 0, 0, 0, 0, 0, 0, (0 : Nat)] := rfl
  unfold int64Long
  rw [hrep]
  repeat rw [int64Loop_pos _ _ _ _ _ (by omega)]
  rw [int64Loop_zero _ _ _ _ _ (by omega)]
  simp only [bigEndian, int64Hdr, msb, Nat.reducePow, Nat.reduceMul, Nat.reduceSub, Nat.reduceAdd,
    Nat.reduceLT, Nat.reduceGT, decide_True, decide_False, if_true, if_false, Nat.reduceShiftLeft,
    List.set_cons_succ, List.set_cons_zero, List.getD_cons_succ, List.getD_cons_zero,
    Bool.false_eq_true, decide_eq_true_eq, gt_iff_lt]
  split_ifs <;> first
    | omega
    | (simp [*, or_msb1, or_msb2, or_msb3, or_msb4, or_msb5, or_msb6]; omega)

theorem int64Long_32_34 (u : Nat) (h1 : 2 ^ 32 ≤ u) (h2 : u < 2 ^ 34) :
    int64Long u = bigEndian 5 (int64Hdr 5 + u) := by
  have hrep : List.replicate 10 0 = [0, 0, 0, 0, 0, 0, 0, 0, 0, (0 : Nat)] := rfl
  unfold int64Long
  rw [hrep]
  repeat rw [int64Loop_pos _ _ _ _ _ (by omega)]
  rw [int64Loop_zero _ _ _ _ _ (by omega)]
  simp only [bigEndian, int64Hdr, msb, Nat.reducePow, Nat.reduceMul, Nat.reduceSub, Nat.reduceAdd,
    Nat.reduceLT, Nat.reduceGT, decide_True, decide_False, if_true, if_false, Nat.reduceShiftLeft,
    List.set_cons_succ, List.set_cons_zero, List.getD_cons_succ, List.getD_cons_zero,
    Bool.false_eq_true, decide_eq_true_eq, gt_iff_lt]
  split_ifs <;> first
    | omega
    | (simp [*, or_msb1, or_msb2, or_msb3, or_msb4, or_msb5, or_msb6]; omega)

theorem int64Long_34_40 (u : Nat) (h1 : 2 ^ 34 ≤ u) (h2 : u < 2 ^ 40) :
    int64Long u = bigEndian 6 (int64Hdr 6 + u) := by
  have hrep : List.replicate 10 0 = [0, 0, 0, 0, 0, 0, 0, 0, 0, (0 : Nat)] := rfl
  unfold int64Long
  rw [hrep]
  repeat rw [int64Loop_pos _ _ _ _ _ (by omega)]
  rw [int64Loop_zero _ _ _ _ _ (by omega)]
  simp only [bigEndian, int64Hdr, msb, Nat.reducePow, Nat.reduceMul, Nat.reduceSub, Nat.reduceAdd,
    Nat.reduceLT, Nat.reduceGT, decide_True, decide_False, if_true, if_false, Nat.reduceShiftLeft,
    List.set_cons_succ, List.set_cons_zero, List.getD_cons_succ, List.getD_cons_zero,
    Bool.false_eq_true, decide_eq_true_eq, gt_iff_lt]
  split_ifs <;> first
    | omega
    | (simp [*, or_msb1, or_msb2, or_msb3, or_msb4, or_msb5, or_msb6]; omega)

theorem int64Long_40_41 (u : Nat) (h1 : 2 ^ 40 ≤ u) (h2 : u < 2 ^ 41) :
    int64Long u = bigEndian 6 (int64Hdr 6 + u) := by
  have hrep : List.replicate 10 0 = [0, 0, 0, 0, 0, 0, 0, 0, 0, (0 : Nat)] := rfl
  unfold int64Long
  rw [hrep]
  repeat rw [int64Loop_pos _ _ _ _ _ (by omega)]
  rw [int64Loop_zero _ _ _ _ _ (by omega)]
  simp only [bigEndian, int64Hdr, msb, Nat.reducePow, Nat.reduceMul, Nat.reduceSub, Nat.reduceAdd,
    Nat.reduceLT, Nat.reduceGT, decide_True, decide_False, if_true, if_false, Nat.reduceShiftLeft,
    List.set_cons_succ, List.set_cons_zero, List.getD_cons_succ, List.getD_cons_zero,
    Bool.false_eq_true, decide_eq_true_eq, gt_iff_lt]
  split_ifs <;> first
    | omega
    | (simp [*, or_msb1, or_msb2, or_msb3, or_msb4, or_msb5, or_msb6]; omega)

theorem int64Long_41_48 (u : Nat) (h1 : 2 ^ 41 ≤ u) (h2 : u < 2 ^ 48) :
    int64Long u = bigEndian 7 (int64Hdr 7 + u) := by
  have hrep : List.replicate 10 0 = [0, 0, 0, 0, 0, 0, 0, 0, 0, (0 : Nat)] := rfl
  unfold int64Long
  rw [hrep]
  repeat rw [int64Loop_pos _ _ _ _ _ (by omega)]
  rw [int64Loop_zero _ _ _ _ _ (by omega)]
  simp only [bigEndian, int64Hdr, msb, Nat.reducePow, Nat.reduceMul, Nat.reduceSub, Nat.reduceAdd,
    Nat.reduceLT, Nat.reduceGT, decide_True, decide_False, if_true, if_false, Nat.reduceShiftLeft,
    List.set_cons_succ, List.set_cons_zero, List.getD_cons_succ, List.getD_cons_zero,
    Bool.false_eq_true, decide_eq_true_eq, gt_iff_lt]
  split_ifs <;> first
    | omega
    | (simp [*, or_msb1, or_msb2, or_msb3, or_msb4, or_msb5, or_msb6]; omega)

theorem int64Long_48_55 (u : Nat) (h1 : 2 ^ 48 ≤ u) (h2 : u < 2 ^ 55) :
    int64Long u = bigEndian 8 (int64Hdr 8 + u) := by
  have hrep : List.replicate 10 0 = [0, 0, 0, 0, 0, 0, 0, 0, 0, (0 : Nat)] := rfl
  unfold int64Long
  rw [hrep]
  repeat rw [int64Loop_pos _ _ _ _ _ (by omega)]
  rw [int64Loop_zero _ _ _ _ _ (by omega)]
  simp only [bigEndian, int64Hdr, msb, Nat.reducePow, Nat.reduceMul, Nat.reduceSub, Nat.reduceAdd,
    Nat.reduceLT, Nat.reduceGT, decide_True, decide_False, if_true, if_false, Nat.reduceShiftLeft,
    List.set_cons_succ, List.set_cons_zero, List.getD_cons_succ, List.getD_cons_zero,
    Bool.false_eq_true, decide_eq_true_eq, gt_iff_lt]
  split_ifs <;> first
    | omega
    | (simp [*, or_msb1, or_msb2, or_msb3, or_msb4, or_msb5, or_msb6]; omega)

theorem int64Long_55_56 (u : Nat) (h1 : 2 ^ 55 ≤ u) (h2 : u < 2 ^ 56) :
    int64Long u = bigEndian 9 (int64Hdr 9 + u) := by
  have hrep : List.replicate 10 0 = [0, 0, 0, 0, 0, 0, 0, 0, 0, (0 : Nat)] := rfl
  unfold int64Long
  rw [hrep]
  repeat rw [int64Loop_pos _ _ _ _ _ (by omega)]
  rw [int64Loop_zero _ _ _ _ _ (by omega)]
  simp only [bigEndian, int64Hdr, msb, Nat.reducePow, Nat.reduceMul, Nat.reduceSub, Nat.reduceAdd,
    Nat.reduceLT, Nat.reduceGT, decide_True, decide_False, if_true, if_false, Nat.reduceShiftLeft,
    List.set_cons_succ, List.set_cons_zero, List.getD_cons_succ, List.getD_cons_zero,
    Bool.false_eq_true, decide_eq_true_eq, gt_iff_lt]
  split_ifs <;> first
    | omega
    | (simp [*, or_msb1, or_msb2, or_msb3, or_msb4, or_msb5, or_msb6]; omega)

theorem int64Long_56_62 (u : Nat) (h1 : 2 ^ 56 ≤ u) (h2 : u < 2 ^ 62) :
    int64Long u = bigEndian 9 (int64Hdr 9 + u) := by
  have hrep : List.replicate 10 0 = [0, 0, 0, 0, 0, 0, 0, 0, 0, (0 : Nat)] := rfl
  unfold int64Long
  rw [hrep]
  repeat rw [int64Loop_pos _ _ _ _ _ (by omega)]
  rw [int64Loop_zero _ _ _ _ _ (by omega)]
  simp only [bigEndian, int64Hdr, msb, Nat.reducePow, Nat.reduceMul, Nat.reduceSub, Nat.reduceAdd,
    Nat.reduceLT, Nat.reduceGT, decide_True, decide_False, if_true, if_false, Nat.reduceShiftLeft,
    List.set_cons_succ, List.set_cons_zero, List.getD_cons_succ, List.getD_cons_zero,
    Bool.false_eq_true, decide_eq_true_eq, gt_iff_lt]
  split_ifs <;> first
    | omega
    | (simp [*, or_msb1, or_msb2, or_msb3, or_msb4, or_msb5, or_msb6]; omega)

theorem int64Long_62_63 (u : Nat) (h1 : 2 ^ 62 ≤ u) (h2 : u < 2 ^ 63) :
    int64Long u = bigEndian 10 (int64Hdr 10 + u) := by
  have hrep : List.replicate 10 0 = [0, 0, 0, 0, 0, 0, 0, 0, 0, (0 : Nat)] := rfl
  unfold int64Long
  rw [hrep]
  repeat rw [int64Loop_pos _ _ _ _ _ (by omega)]
  rw [int64Loop_zero _ _ _ _ _ (by omega)]
  simp only [bigEndian, int64Hdr, msb, Nat.reducePow, Nat.reduceMul, Nat.reduceSub, Nat.reduceAdd,
    Nat.reduceLT, Nat.reduceGT, decide_True, decide_False, if_true, if_false, Nat.reduceShiftLeft,
    List.set_cons_succ, List.set_cons_zero, List.getD_cons_succ, List.getD_cons_zero,
    Bool.false_eq_true, decide_eq_true_eq, gt_iff_lt]
  split_ifs <;> first
    | omega
    | (simp [*, or_msb1, or_msb2, or_msb3, or_msb4, or_msb5, or_msb6]; omega)

theorem int64Len_1 (u : Nat) (h2 : u < 2 ^ 6) : int64Len u = 1 := by
  unfold int64Len
  simp only [show u < 2 ^ 6 from h2, if_true, if_false]

theorem int64Len_2 (u : Nat) (h1 : 2 ^ 6 ≤ u) (h2 : u < 2 ^ 13) : int64Len u = 2 := by
  unfold int64Len
  simp only [show ¬ u < 2 ^ 6 from by omega, show u < 2 ^ 13 from h2, if_true, if_false]

theorem int64Len_3 (u : Nat) (h1 : 2 ^ 13 ≤ u) (h2 : u < 2 ^ 20) : int64Len u = 3 := by
  unfold int64Len
  simp only [show ¬ u < 2 ^ 6 from by omega, show ¬ u < 2 ^ 13 from by omega, show u < 2 ^ 20 from h2, if_true, if_false]

theorem int64Len_4 (u : Nat) (h1 : 2 ^ 20 ≤ u) (h2 : u < 2 ^ 27) : int64Len u = 4 := by
  unfold int64Len
  simp only [show ¬ u < 2 ^ 6 from by omega, show ¬ u < 2 ^ 13 from by omega, show ¬ u < 2 ^ 20 from by omega, show u < 2 ^ 27 from h2, if_true, if_false]

theorem int64Len_5 (u : Nat) (h1 : 2 ^ 27 ≤ u) (h2 : u < 2 ^ 34) : int64Len u = 5 := by
  unfold int64Len
  simp only [show ¬ u < 2 ^ 6 from by omega, show ¬ u < 2 ^ 13 from by omega, show ¬ u < 2 ^ 20 from by omega, show ¬ u < 2 ^ 27 from by omega, show u < 2 ^ 34 from h2, if_true, if_false]

theorem int64Len_6 (u : Nat) (h1 : 2 ^ 34 ≤ u) (h2 : u < 2 ^ 41) : int64Len u = 6 := by
  unfold int64Len
  simp only [show ¬ u < 2 ^ 6 from by omega, show ¬ u < 2 ^ 13 from by omega, show ¬ u < 2 ^ 20 from by omega, show ¬ u < 2 ^ 27 from by omega, show ¬ u < 2 ^ 34 from by omega, show u < 2 ^ 41 from h2, if_true, if_false]

theorem int64Len_7 (u : Nat) (h1 : 2 ^ 41 ≤ u) (h2 : u < 2 ^ 48) : int64Len u = 7 := by
  unfold int64Len
  simp only [show ¬ u < 2 ^ 6 from by omega, show ¬ u < 2 ^ 13 from by omega, show ¬ u < 2 ^ 20 from by omega, show ¬ u < 2 ^ 27 from by omega, show ¬ u < 2 ^ 34 from by omega, show ¬ u < 2 ^ 41 from by omega, show u < 2 ^ 48 from h2, if_true, if_false]

theorem int64Len_8 (u : Nat) (h1 : 2 ^ 48 ≤ u) (h2 : u < 2 ^ 55) : int64Len u = 8 := by
  unfold int64Len
  simp only [show ¬ u < 2 ^ 6 from by omega, show ¬ u < 2 ^ 13 from by omega, show ¬ u < 2 ^ 20 from by omega, show ¬ u < 2 ^ 27 from by omega, show ¬ u < 2 ^ 34 from by omega, show ¬ u < 2 ^ 41 from by omega, show ¬ u < 2 ^ 48 from by omega, show u < 2 ^ 55 from h2, if_true, if_false]

theorem int64Len_9 (u : Nat) (h1 : 2 ^ 55 ≤ u) (h2 : u < 2 ^ 62) : int64Len u = 9 := by
  unfold int64Len
  simp only [show ¬ u < 2 ^ 6 from by omega, show ¬ u < 2 ^ 13 from by omega, show ¬ u < 2 ^ 20 from by omega, show ¬ u < 2 ^ 27 from by omega, show ¬ u < 2 ^ 34 from by omega, show ¬ u < 2 ^ 41 from by omega, show ¬ u < 2 ^ 48 from by omega, show ¬ u < 2 ^ 55 from by omega, show u < 2 ^ 62 from h2, if_true, if_false]

theorem int64Len_10 (u : Nat) (h1 : 2 ^ 62 ≤ u) : int64Len u = 10 := by
  unfold int64Len
  simp only [show ¬ u < 2 ^ 6 from by omega, show ¬ u < 2 ^ 13 from by omega, show ¬ u < 2 ^ 20 from by omega, show ¬ u < 2 ^ 27 from by omega, show ¬ u < 2 ^ 34 from by omega, show ¬ u < 2 ^ 41 from by omega, show ¬ u < 2 ^ 48 from by omega, show ¬ u < 2 ^ 55 from by omega, show ¬ u < 2 ^ 62 from by omega, if_true, if_false]

/-- The long form the writer computes is the closed shape: header plus value, big-endian, at
the length of the value. -/
theorem int64Long_eq (u : Nat) (h1 : 2 ^ 6 ≤ u) (h2 : u < 2 ^ 63) :
    int64Long u = bigEndian (int64Len u) (int64Hdr (int64Len u) + u) := by
  rcases Nat.lt_or_ge u (2 ^ 8) with h | h8
  · rw [int64Len_2 u (by omega) (by omega)]
    exact int64Long_6_8 u h1 h
  rcases Nat.lt_or_ge u (2 ^ 13) with h | h13
  · rw [int64Len_2 u (by omega) (by omega)]
    exact int64Long_8_13 u h8 h
  rcases Nat.lt_or_ge u (2 ^ 16) with h | h16
  · rw [int64Len_3 u (by omega) (by omega)]
    exact int64Long_13_16 u h13 h
  rcases Nat.lt_or_ge u (2 ^ 20) with h | h20
  · rw [int64Len_3 u (by omega) (by omega)]
    exact int64Long_16_20 u h16 h
  rcases Nat.lt_or_ge u (2 ^ 24) with h | h24
  · rw [int64Len_4 u (by omega) (by omega)]
    exact int64Long_20_24 u h20 h
  rcases Nat.lt_or_ge u (2 ^ 27) with h | h27
  · rw [int64Len_4 u (by omega) (by omega)]
    exact int64Long_24_27 u h24 h
  rcases Nat.lt_or_ge u (2 ^ 32) with h | h32
  · rw [int64Len_5 u (by omega) (by omega)]
    exact int64Long_27_32 u h27 h
  rcases Nat.lt_or_ge u (2 ^ 34) with h | h34
  · rw [int64Len_5 u (by omega) (by omega)]
    exact int64Long_32_34 u h32 h
  rcases Nat.lt_or_ge u (2 ^ 40) with h | h40
  · rw [int64Len_6 u (by omega) (by omega)]
    exact int64Long_34_40 u h34 h
  rcases Nat.lt_or_ge u (2 ^ 41) with h | h41
  · rw [int64Len_6 u (by omega) (by omega)]
    exact int64Long_40_41 u h40 h
  rcases Nat.lt_or_ge u (2 ^ 48) with h | h48
  · rw [int64Len_7 u (by omega) (by omega)]
    exact int64Long_41_48 u h41 h
  rcases Nat.lt_or_ge u (2 ^ 55) with h | h55
  · rw [int64Len_8 u (by omega) (by omega)]
    exact int64Long_48_55 u h48 h
  rcases Nat.lt_or_ge u (2 ^ 56) with h | h56
  · rw [int64Len_9 u (by omega) (by omega)]
    exact int64Long_55_56 u h55 h
  rcases Nat.lt_or_ge u (2 ^ 62) with h | h62
  · rw [int64Len_9 u (by omega) (by omega)]
    exact int64Long_56_62 u h56 h
  rw [int64Len_10 u (by omega) ]
  exact int64Long_62_63 u h62 h2

theorem int_not_eq (v : Int) : ~~~v = -v - 1 := by
  cases v with
  | ofNat n => show Int.negSucc n = -(n : Int) - 1; rw [Int.negSucc_eq]; omega
  | negSucc n => show (n : Int) = -(Int.negSucc n) - 1; rw [Int.negSucc_eq]; omega

theorem writeInt64_short (v : Int) (h1 : -64 ≤ v) (h2 : v < 64) :
    writeInt64 [] v = int64Form v := by
  interval_cases v <;> rfl

/-- The int64 writer appends the closed shape `int64Form`. -/
theorem writeInt64_eq (out : List Nat) (v : Int) (h1 : -2 ^ 63 ≤ v) (h2 : v < 2 ^ 63) :
    writeInt64 out v = out ++ int64Form v := by
  by_cases hs : -64 ≤ v ∧ v < 64
  · have := writeInt64_short v hs.1 hs.2
    unfold writeInt64 at this ⊢
    rw [if_pos hs] at this ⊢
    rw [← this]; simp
  · unfold writeInt64
    rw [if_neg hs]
    by_cases hneg : v < 0
    · have hu1 : 2 ^ 6 ≤ (-v - 1).toNat := by omega
      have hu2 : (-v - 1).toNat < 2 ^ 63 := by omega
      simp only [hneg, decide_True, if_true, int_not_eq, int64Long_eq _ hu1 hu2, int64Form,
        show ¬ (0 ≤ v) from by omega, if_false]
    · have hu1 : 2 ^ 6 ≤ v.toNat := by omega
      have hu2 : v.toNat < 2 ^ 63 := by omega
      simp only [hneg, decide_False, if_false, int64Long_eq _ hu1 hu2, int64Form,
        show (0 ≤ v) from by omega, if_true, Bool.false_eq_true]

/-! ## Big-endian strings: complement and order -/

theorem bigEndian_mod : ∀ (n X : Nat), bigEndian n (X % 256 ^ n) = bigEndian n X
  | 0, X => rfl
  | n + 1, X => by
    have ih := bigEndian_mod n
    have e1 : X % 256 ^ (n + 1) / 256 ^ n % 256 = X / 256 ^ n % 256 := by
      rw [Nat.mod_pow_succ, Nat.add_mul_div_left _ _ (by positivity),
        Nat.div_eq_of_lt (Nat.mod_lt _ (by positivity)), Nat.zero_add, Nat.mod_mod]
    have e2 : X % 256 ^ (n + 1) % 256 ^ n = X % 256 ^ n :=
      Nat.mod_mod_of_dvd _ (pow_dvd_pow 256 (Nat.le_succ n))
    simp only [bigEndian, e1]
    rw [← ih (X % 256 ^ (n + 1)), e2, ih]

theorem xor_255 (b : Nat) (h : b < 256) : b ^^^ 255 = 255 - b := by
  interval_cases b <;> rfl

/-- The complement of a big-endian string holds the complement of the number. -/
theorem invert_bigEndian : ∀ (n X : Nat),
    invert (bigEndian n X) = bigEndian n (256 ^ n - 1 - X % 256 ^ n)
  | 0, X => rfl
  | n + 1, X => by
    have ih := invert_bigEndian n X
    have hP : 0 < 256 ^ n := by positivity
    have hr : X % 256 ^ n < 256 ^ n := Nat.mod_lt _ hP
    have hq : X / 256 ^ n % 256 < 256 := Nat.mod_lt _ (by decide)
    have hlow : 256 ^ n - 1 - X % 256 ^ n < 256 ^ n := by omega
    -- the number complemented, split at the top byte
    have hsplit : 256 ^ (n + 1) - 1 - X % 256 ^ (n + 1)
        = (256 ^ n - 1 - X % 256 ^ n) + 256 ^ n * (255 - X / 256 ^ n % 256) := by
      rw [Nat.mod_pow_succ, Nat.pow_succ, Nat.mul_sub]
      have : 256 ^ n * (X / 256 ^ n % 256) ≤ 256 ^ n * 255 :=
        Nat.mul_le_mul_left _ (by omega)
      omega
    have hhead : (256 ^ (n + 1) - 1 - X % 256 ^ (n + 1)) / 256 ^ n % 256
        = 255 - X / 256 ^ n % 256 := by
      rw [hsplit, Nat.add_mul_div_left _ _ hP, Nat.div_eq_of_lt hlow, Nat.zero_add]
      exact Nat.mod_eq_of_lt (by omega)
    have htail : bigEndian n (256 ^ (n + 1) - 1 - X % 256 ^ (n + 1))
        = bigEndian n (256 ^ n - 1 - X % 256 ^ n) := by
      rw [← bigEndian_mod n (256 ^ (n + 1) - 1 - X % 256 ^ (n + 1)), hsplit,
        Nat.add_mul_mod_self_left, Nat.mod_eq_of_lt hlow]
    simp only [invert, bigEndian, List.map_cons] at ih ⊢
    rw [ih, hhead, htail, xor_255 _ hq]

/-- Two big-endian strings, possibly of different lengths, are ordered like the numbers
obtained by padding both with zero bytes to a common width. -/
theorem bigEndian_pad_lexLt : ∀ (m n X Y W : Nat), m ≤ W → n ≤ W → X < 256 ^ m → Y < 256 ^ n →
    X * 256 ^ (W - m) < Y * 256 ^ (W - n) → lexLt (bigEndian m X) (bigEndian n Y)
  | 0, 0, X, Y, W => by
    intro _ _ hX hY h
    simp at hX hY
    subst hX hY
    simp at h
  | 0, n + 1, X, Y, W => by
    intro _ _ _ _ _
    simp [bigEndian, lexLt]
  | m + 1, 0, X, Y, W => by
    intro _ _ _ hY h
    simp at hY
    subst hY
    simp at h
  | m + 1, n + 1, X, Y, W => by
    intro hm hn hX hY h
    have ih := bigEndian_pad_lexLt m n (X % 256 ^ m) (Y % 256 ^ n) (W - 1) (by omega) (by omega)
      (Nat.mod_lt _ (by positivity)) (Nat.mod_lt _ (by positivity))
    rw [bigEndian_mod, bigEndian_mod] at ih
    have hPm : 256 ^ (W - 1) = 256 ^ m * 256 ^ (W - (m + 1)) := by
      rw [← Nat.pow_add]; congr 1; omega
    have hPn : 256 ^ (W - 1) = 256 ^ n * 256 ^ (W - (n + 1)) := by
      rw [← Nat.pow_add]; congr 1; omega
    have e1 : W - 1 - m = W - (m + 1) := by omega
    have e2 : W - 1 - n = W - (n + 1) := by omega
    rw [e1, e2] at ih
    have hXq : X / 256 ^ m < 256 := by
      rw [Nat.div_lt_iff_lt_mul (by positivity), Nat.mul_comm, ← Nat.pow_succ]; exact hX
    have hYq : Y / 256 ^ n < 256 := by
      rw [Nat.div_lt_iff_lt_mul (by positivity), Nat.mul_comm, ← Nat.pow_succ]; exact hY
    have hXs : X * 256 ^ (W - (m + 1))
        = X / 256 ^ m * 256 ^ (W - 1) + X % 256 ^ m * 256 ^ (W - (m + 1)) := by
      conv_lhs => rw [← Nat.div_add_mod X (256 ^ m)]
      rw [hPm]; ring
    have hYs : Y * 256 ^ (W - (n + 1))
        = Y / 256 ^ n * 256 ^ (W - 1) + Y % 256 ^ n * 256 ^ (W - (n + 1)) := by
      conv_lhs => rw [← Nat.div_add_mod Y (256 ^ n)]
      rw [hPn]; ring
    have hXr : X % 256 ^ m * 256 ^ (W - (m + 1)) < 256 ^ (W - 1) := by
      rw [hPm]; exact Nat.mul_lt_mul_of_pos_right (Nat.mod_lt _ (by positivity)) (by positivity)
    have hYr : Y % 256 ^ n * 256 ^ (W - (n + 1)) < 256 ^ (W - 1) := by
      rw [hPn]; exact Nat.mul_lt_mul_of_pos_right (Nat.mod_lt _ (by positivity)) (by positivity)
    rw [hXs, hYs] at h
    simp only [bigEndian, lexLt, Nat.mod_eq_of_lt hXq, Nat.mod_eq_of_lt hYq]
    rcases Nat.lt_trichotomy (X / 256 ^ m) (Y / 256 ^ n) with h1 | h1 | h1
    · exact Or.inl h1
    · refine Or.inr ⟨h1, ih ?_⟩
      rw [h1] at h
      omega
    · exfalso
      have : (Y / 256 ^ n + 1) * 256 ^ (W - 1) ≤ X / 256 ^ m * 256 ^ (W - 1) :=
        Nat.mul_le_mul_right _ h1
      rw [Nat.add_mul, Nat.one_mul] at this
      omega

/-! ## Signed integers: order of the forms -/

/-- The length of the form of `u` and the range of values of that length. -/
theorem int64Len_spec (u : Nat) (hu : u < 2 ^ 63) :
    (int64Len u = 1 ∧ 0 ≤ u ∧ u < 2 ^ 6) ∨
    (int64Len u = 2 ∧ 2 ^ 6 ≤ u ∧ u < 2 ^ 13) ∨
    (int64Len u = 3 ∧ 2 ^ 13 ≤ u ∧ u < 2 ^ 20) ∨
    (int64Len u = 4 ∧ 2 ^ 20 ≤ u ∧ u < 2 ^ 27) ∨
    (int64Len u = 5 ∧ 2 ^ 27 ≤ u ∧ u < 2 ^ 34) ∨
    (int64Len u = 6 ∧ 2 ^ 34 ≤ u ∧ u < 2 ^ 41) ∨
    (int64Len u = 7 ∧ 2 ^ 41 ≤ u ∧ u < 2 ^ 48) ∨
    (int64Len u = 8 ∧ 2 ^ 48 ≤ u ∧ u < 2 ^ 55) ∨
    (int64Len u = 9 ∧ 2 ^ 55 ≤ u ∧ u < 2 ^ 62) ∨
    (int64Len u = 10 ∧ 2 ^ 62 ≤ u ∧ u < 2 ^ 69) := by
  rcases Nat.lt_or_ge u (2 ^ 6) with h | h1
  · exact Or.inl ⟨int64Len_1 u h, by omega, h⟩
  rcases Nat.lt_or_ge u (2 ^ 13) with h | h2
  · exact Or.inr (Or.inl ⟨int64Len_2 u (by omega) h, by omega, h⟩)
  rcases Nat.lt_or_ge u (2 ^ 20) with h | h3
  · exact Or.inr (Or.inr (Or.inl ⟨int64Len_3 u (by omega) h, by omega, h⟩))
  rcases Nat.lt_or_ge u (2 ^ 27) with h | h4
  · exact Or.inr (Or.inr (Or.inr (Or.inl ⟨int64Len_4 u (by omega) h, by omega, h⟩)))
  rcases Nat.lt_or_ge u (2 ^ 34) with h | h5
  · exact Or.inr (Or.inr (Or.inr (Or.inr (Or.inl ⟨int64Len_5 u (by omega) h, by omega, h⟩))))
  rcases Nat.lt_or_ge u (2 ^ 41) with h | h6
  · exact Or.inr (Or.inr (Or.inr (Or.inr (Or.inr (Or.inl ⟨int64Len_6 u (by omega) h, by omega, h⟩)))))
  rcases Nat.lt_or_ge u (2 ^ 48) with h | h7
  · exact Or.inr (Or.inr (Or.inr (Or.inr (Or.inr (Or.inr (Or.inl ⟨int64Len_7 u (by omega) h, by omega, h⟩))))))
  rcases Nat.lt_or_ge u (2 ^ 55) with h | h8
  · exact Or.inr (Or.inr (Or.inr (Or.inr (Or.inr (Or.inr (Or.inr (Or.inl ⟨int64Len_8 u (by omega) h, by omega, h⟩)))))))
  rcases Nat.lt_or_ge u (2 ^ 62) with h | h9
  · exact Or.inr (Or.inr (Or.inr (Or.inr (Or.inr (Or.inr (Or.inr (Or.inr (Or.inl ⟨int64Len_9 u (by omega) h, by omega, h⟩))))))))
  exact Or.inr (Or.inr (Or.inr (Or.inr (Or.inr (Or.inr (Or.inr (Or.inr (Or.inr (⟨int64Len_10 u (by omega), by omega, by omega⟩)))))))))

/-- Header plus value fits the length of the form. -/
theorem int64Hdr_add_lt (u : Nat) (hu : u < 2 ^ 63) :
    int64Len u ≤ 10 ∧ int64Hdr (int64Len u) + u < 256 ^ int64Len u := by
  rcases int64Len_spec u hu with ⟨ea, la1, la2⟩ | ⟨ea, la1, la2⟩ | ⟨ea, la1, la2⟩ | ⟨ea, la1, la2⟩ | ⟨ea, la1, la2⟩ | ⟨ea, la1, la2⟩ | ⟨ea, la1, la2⟩ | ⟨ea, la1, la2⟩ | ⟨ea, la1, la2⟩ | ⟨ea, la1, la2⟩ <;>
    (rw [ea]; simp only [int64Hdr, Nat.reducePow, Nat.reduceMul, Nat.reduceSub] at *; omega)

set_option maxHeartbeats 1000000 in
/-- The padded value of the form of a non-negative number grows with the number. -/
theorem posKey_mono (a b : Nat) (hab : a < b) (hb : b < 2 ^ 63) :
    (int64Hdr (int64Len a) + a) * 256 ^ (10 - int64Len a)
      < (int64Hdr (int64Len b) + b) * 256 ^ (10 - int64Len b) := by
  rcases int64Len_spec a (by omega) with ⟨ea, la1, la2⟩ | ⟨ea, la1, la2⟩ | ⟨ea, la1, la2⟩ | ⟨ea, la1, la2⟩ | ⟨ea, la1, la2⟩ | ⟨ea, la1, la2⟩ | ⟨ea, la1, la2⟩ | ⟨ea, la1, la2⟩ | ⟨ea, la1, la2⟩ | ⟨ea, la1, la2⟩ <;>
  rcases int64Len_spec b hb with ⟨eb, lb1, lb2⟩ | ⟨eb, lb1, lb2⟩ | ⟨eb, lb1, lb2⟩ | ⟨eb, lb1, lb2⟩ | ⟨eb, lb1, lb2⟩ | ⟨eb, lb1, lb2⟩ | ⟨eb, lb1, lb2⟩ | ⟨eb, lb1, lb2⟩ | ⟨eb, lb1, lb2⟩ | ⟨eb, lb1, lb2⟩ <;>
    (rw [ea, eb]; simp only [int64Hdr, Nat.reducePow, Nat.reduceMul, Nat.reduceSub] at *; omega)

set_option maxHeartbeats 1000000 in
/-- The padded value of the complemented form falls as the number grows. -/
theorem negKey_anti (a b : Nat) (hab : a < b) (hb : b < 2 ^ 63) :
    (256 ^ int64Len b - 1 - (int64Hdr (int64Len b) + b)) * 256 ^ (10 - int64Len b)
      < (256 ^ int64Len a - 1 - (int64Hdr (int64Len a) + a)) * 256 ^ (10 - int64Len a) := by
  rcases int64Len_spec a (by omega) with ⟨ea, la1, la2⟩ | ⟨ea, la1, la2⟩ | ⟨ea, la1, la2⟩ | ⟨ea, la1, la2⟩ | ⟨ea, la1, la2⟩ | ⟨ea, la1, la2⟩ | ⟨ea, la1, la2⟩ | ⟨ea, la1, la2⟩ | ⟨ea, la1, la2⟩ | ⟨ea, la1, la2⟩ <;>
  rcases int64Len_spec b hb with ⟨eb, lb1, lb2⟩ | ⟨eb, lb1, lb2⟩ | ⟨eb, lb1, lb2⟩ | ⟨eb, lb1, lb2⟩ | ⟨eb, lb1, lb2⟩ | ⟨eb, lb1, lb2⟩ | ⟨eb, lb1, lb2⟩ | ⟨eb, lb1, lb2⟩ | ⟨eb, lb1, lb2⟩ | ⟨eb, lb1, lb2⟩ <;>
    (rw [ea, eb]; simp only [int64Hdr, Nat.reducePow, Nat.reduceMul, Nat.reduceSub] at *; omega)

/-- Every complemented form lies below every plain form. -/
theorem negKey_lt_posKey (a b : Nat) (ha : a < 2 ^ 63) (hb : b < 2 ^ 63) :
    (256 ^ int64Len a - 1 - (int64Hdr (int64Len a) + a)) * 256 ^ (10 - int64Len a)
      < (int64Hdr (int64Len b) + b) * 256 ^ (10 - int64Len b) := by
  have h1 : (256 ^ int64Len a - 1 - (int64Hdr (int64Len a) + a)) * 256 ^ (10 - int64Len a)
      < 2 ^ 79 := by
    rcases int64Len_spec a ha with ⟨ea, la1, la2⟩ | ⟨ea, la1, la2⟩ | ⟨ea, la1, la2⟩ | ⟨ea, la1, la2⟩ | ⟨ea, la1, la2⟩ | ⟨ea, la1, la2⟩ | ⟨ea, la1, la2⟩ | ⟨ea, la1, la2⟩ | ⟨ea, la1, la2⟩ | ⟨ea, la1, la2⟩ <;>
      (rw [ea]; simp only [int64Hdr, Nat.reducePow, Nat.reduceMul, Nat.reduceSub] at *; omega)
  have h2 : 2 ^ 79 ≤ (int64Hdr (int64Len b) + b) * 256 ^ (10 - int64Len b) := by
    rcases int64Len_spec b hb with ⟨eb, lb1, lb2⟩ | ⟨eb, lb1, lb2⟩ | ⟨eb, lb1, lb2⟩ | ⟨eb, lb1, lb2⟩ | ⟨eb, lb1, lb2⟩ | ⟨eb, lb1, lb2⟩ | ⟨eb, lb1, lb2⟩ | ⟨eb, lb1, lb2⟩ | ⟨eb, lb1, lb2⟩ | ⟨eb, lb1, lb2⟩ <;>
      (rw [eb]; simp only [int64Hdr, Nat.reducePow, Nat.reduceMul, Nat.reduceSub] at *; omega)
  omega

/-! ## Claims about signed integers: order -/

/-- The form of a negative number as a big-endian string. -/
theorem invert_form (u : Nat) (hu : u < 2 ^ 63) :
    invert (bigEndian (int64Len u) (int64Hdr (int64Len u) + u))
      = bigEndian (int64Len u) (256 ^ int64Len u - 1 - (int64Hdr (int64Len u) + u)) := by
  rw [invert_bigEndian, Nat.mod_eq_of_lt (int64Hdr_add_lt u hu).2]

theorem int64Form_lexLt (a b : Int) (ha : -2 ^ 63 ≤ a) (hab : a < b) (hb : b < 2 ^ 63) :
    lexLt (int64Form a) (int64Form b) := by
  unfold int64Form
  by_cases h0a : 0 ≤ a
  · have h0b : 0 ≤ b := by omega
    rw [if_pos h0a, if_pos h0b]
    have hu : a.toNat < b.toNat := by omega
    have hub : b.toNat < 2 ^ 63 := by omega
    exact bigEndian_pad_lexLt _ _ _ _ 10 (int64Hdr_add_lt _ (by omega)).1
      (int64Hdr_add_lt _ hub).1 (int64Hdr_add_lt _ (by omega)).2 (int64Hdr_add_lt _ hub).2
      (posKey_mono _ _ hu hub)
  · have hua : (-a - 1).toNat < 2 ^ 63 := by omega
    rw [if_neg h0a, invert_form _ hua]
    have hpos : 0 < 256 ^ int64Len (-a - 1).toNat := by positivity
    by_cases h0b : 0 ≤ b
    · have hub : b.toNat < 2 ^ 63 := by omega
      rw [if_pos h0b]
      exact bigEndian_pad_lexLt _ _ _ _ 10 (int64Hdr_add_lt _ hua).1
        (int64Hdr_add_lt _ hub).1 (by omega) (int64Hdr_add_lt _ hub).2
        (negKey_lt_posKey _ _ hua hub)
    · have hub : (-b - 1).toNat < 2 ^ 63 := by omega
      have hu : (-b - 1).toNat < (-a - 1).toNat := by omega
      have hpos2 : 0 < 256 ^ int64Len (-b - 1).toNat := by positivity
      rw [if_neg h0b, invert_form _ hub]
      exact bigEndian_pad_lexLt _ _ _ _ 10 (int64Hdr_add_lt _ hua).1
        (int64Hdr_add_lt _ hub).1 (by omega) (by omega) (negKey_anti _ _ hu hua)

/-- C2: for all int64 values `a` and `b`, `a < b` if and only if the encoding of `a` is
smaller than the encoding of `b` in unsigned lexicographic byte order (short form, long form,
negative values and both extremes included). -/
theorem int64_order (a b : Int) (ha1 : -2 ^ 63 ≤ a) (ha2 : a < 2 ^ 63) (hb1 : -2 ^ 63 ≤ b)
    (hb2 : b < 2 ^ 63) :
    a < b ↔ lexLt (encode writeInt64 a) (encode writeInt64 b) := by
  simp only [encode, writeInt64_eq [] a ha1 ha2, writeInt64_eq [] b hb1 hb2, List.nil_append]
  constructor
  · intro h
    exact int64Form_lexLt a b ha1 h hb2
  · intro h
    rcases Int.lt_trichotomy a b with h1 | h1 | h1
    · exact h1
    · subst h1
      exact absurd h (lexLt_irrefl _)
    · exact absurd (int64Form_lexLt b a hb1 h1 ha2) (lexLt_asymm _ _ h)

/-- C2 at the two extremes `INT64_MIN` and `INT64_MAX`. -/
theorem int64_order_witness :
    ((-2 ^ 63 : Int) ≤ -2 ^ 63 ∧ (-2 ^ 63 : Int) < 2 ^ 63 ∧ (-2 ^ 63 : Int) ≤ 2 ^ 63 - 1 ∧
      (2 ^ 63 - 1 : Int) < 2 ^ 63) ∧
    ((-2 ^ 63 : Int) < 2 ^ 63 - 1 ↔
      lexLt (encode writeInt64 (-2 ^ 63)) (encode writeInt64 (2 ^ 63 - 1))) :=
  ⟨by norm_num, int64_order (-2 ^ 63) (2 ^ 63 - 1) (by norm_num) (by norm_num) (by norm_num)
    (by norm_num)⟩

/-! ## Signed integers: the reader -/

theorem xor_xor_cancel (b d : Nat) : (b ^^^ d) ^^^ d = b := Nat.xor_cancel_right d b

theorem getc_xor (b d : Nat) (r : List Nat) (hb : b < 256) :
    DS.getc { rem := (b ^^^ d) :: r, dir := d } = (Except.ok b, { rem := r, dir := d }) := by
  rw [getc_cons, xor_xor_cancel, Nat.mod_eq_of_lt hb]

/-- Reading `k` bytes that are the big-endian bytes of `X`, written in direction `d` and read
in direction `d`, shifts them into the value. -/
theorem readInt64Bytes_bigEndian (X d : Nat) (rest : List Nat) : ∀ (k x : Nat), k ≤ 8 →
    x < 256 ^ (8 - k) →
    readInt64Bytes k x { rem := (bigEndian k X).map (fun c => c ^^^ d) ++ rest, dir := d }
      = (Except.ok (x * 256 ^ k + X % 256 ^ k), { rem := rest, dir := d })
  | 0, x, _, _ => by simp [readInt64Bytes, bigEndian, Nat.mod_one]
  | k + 1, x, hk, hx => by
    have hc : X / 256 ^ k % 256 < 256 := Nat.mod_lt _ (by decide)
    have hx2 : x * 256 + X / 256 ^ k % 256 < 256 ^ (8 - k) := by
      have : 256 ^ (8 - k) = 256 ^ (8 - (k + 1)) * 256 := by
        rw [← Nat.pow_succ]; congr 1; omega
      rw [this]
      have : (x + 1) * 256 ≤ 256 ^ (8 - (k + 1)) * 256 := Nat.mul_le_mul_right _ hx
      omega
    have hx3 : x < 2 ^ 56 := by
      have : 256 ^ (8 - (k + 1)) ≤ 256 ^ 7 := Nat.pow_le_pow_right (by decide) (by omega)
      have : (256 : Nat) ^ 7 = 2 ^ 56 := by norm_num
      omega
    simp only [bigEndian, List.map_cons, List.cons_append, readInt64Bytes, getc_xor _ _ _ hc,
      Res.andThen]
    rw [shl8_or x _ hx3 hc, readInt64Bytes_bigEndian X d rest k _ (by omega) hx2]
    congr 2
    rw [Nat.mod_pow_succ (k := k), Nat.pow_succ]
    ring

theorem xor_mask64 (x : Nat) (h : x < 2 ^ 64) : x ^^^ (2 ^ 64 - 1) = 2 ^ 64 - 1 - x := by
  have := BitVec.toNat_not (x := BitVec.ofNat 64 x)
  rw [BitVec.not_def, BitVec.toNat_xor, BitVec.toNat_allOnes, BitVec.toNat_ofNat,
    Nat.mod_eq_of_lt h, Nat.xor_comm] at this
  exact this

theorem toInt64_pos (u : Nat) (h : u < 2 ^ 63) : toInt64 u = (u : Int) := by
  unfold toInt64
  rw [Nat.mod_eq_of_lt (by omega), if_pos h]

theorem toInt64_neg (u : Nat) (h : u < 2 ^ 63) : toInt64 (u ^^^ (2 ^ 64 - 1)) = -(u : Int) - 1 := by
  rw [xor_mask64 u (by omega)]
  unfold toInt64
  rw [Nat.mod_eq_of_lt (by omega), if_neg (by omega)]
  omega

theorem maskLoop_0 (t n0 : Nat) (h : t < 128) : maskLoop 9 0x80 t n0 = (t, n0) := by
  interval_cases t <;> rfl
theorem maskLoop_1 (t n0 : Nat) (h : t < 64) : maskLoop 9 0x80 (128 + t) n0 = (t, n0 + 1) := by
  interval_cases t <;> rfl
theorem maskLoop_2 (t n0 : Nat) (h : t < 32) : maskLoop 9 0x80 (192 + t) n0 = (t, n0 + 2) := by
  interval_cases t <;> rfl
theorem maskLoop_3 (t n0 : Nat) (h : t < 16) : maskLoop 9 0x80 (224 + t) n0 = (t, n0 + 3) := by
  interval_cases t <;> rfl
theorem maskLoop_4 (t n0 : Nat) (h : t < 8) : maskLoop 9 0x80 (240 + t) n0 = (t, n0 + 4) := by
  interval_cases t <;> rfl
theorem maskLoop_5 (t n0 : Nat) (h : t < 4) : maskLoop 9 0x80 (248 + t) n0 = (t, n0 + 5) := by
  interval_cases t <;> rfl
theorem maskLoop_6 (t n0 : Nat) (h : t < 2) : maskLoop 9 0x80 (252 + t) n0 = (t, n0 + 6) := by
  interval_cases t <;> rfl
theorem maskLoop_7 (n0 : Nat) : maskLoop 9 0x80 254 n0 = (0, n0 + 7) := rfl

theorem and_128_eq_zero (t : Nat) (h : t < 128) : t &&& 128 = 0 := by
  interval_cases t <;> rfl
theorem and_128_ne_zero (t : Nat) (h1 : 128 ≤ t) (h2 : t < 256) : t &&& 128 ≠ 0 := by
  interval_cases t <;> decide

/-- The reader on a first byte `c0 ≥ 0xc0` written in direction `d`: the non-negative long
form. -/
theorem readInt64_pos (c0 d : Nat) (r : List Nat) (h1 : 0xc0 ≤ c0) (h2 : c0 < 256) :
    readInt64 { rem := (c0 ^^^ d) :: r, dir := d } = readInt64Long false c0 { rem := r, dir := d } := by
  unfold readInt64
  rw [getc_xor _ _ _ h2]
  simp only [Res.andThen]
  rw [if_neg (by omega)]
  simp [and_128_ne_zero c0 (by omega) h2]

/-- The reader on the complement of a first byte `c0 ≥ 0xc0`: the negative long form, read
on with the direction flipped. -/
theorem readInt64_neg (c0 d : Nat) (r : List Nat) (h1 : 0xc0 ≤ c0) (h2 : c0 < 256) :
    readInt64 { rem := ((c0 ^^^ 0xff) ^^^ d) :: r, dir := d }
      = readInt64Long true c0 { rem := r, dir := d ^^^ 0xff } := by
  unfold readInt64
  have hc : c0 ^^^ 0xff < 256 := by rw [xor_255 _ h2]; omega
  rw [getc_xor _ _ _ hc]
  simp only [Res.andThen]
  have h3 : c0 ^^^ 0xff = 255 - c0 := xor_255 _ h2
  rw [if_neg (by omega)]
  have h4 : (c0 ^^^ 0xff) &&& 0x80 = 0 := and_128_eq_zero _ (by omega)
  simp [h4, xor_xor_cancel]

theorem readInt64Long_2 (neg : Bool) (u d : Nat) (rest : List Nat) (h1 : 2 ^ 6 ≤ u)
    (h2 : u < 2 ^ 13) :
    ∃ c0 tl, bigEndian 2 (int64Hdr 2 + u) = c0 :: tl ∧ 0xc0 ≤ c0 ∧ c0 < 256 ∧
      readInt64Long neg c0 { rem := tl.map (fun c => c ^^^ d) ++ rest, dir := d }
        = (Except.ok (toInt64 (if neg then u ^^^ (2 ^ 64 - 1) else u)),
            { rem := rest, dir := d }) := by
  have hc0 : (int64Hdr 2 + u) / 256 ^ 1 % 256 = 192 + u / 256 ^ 1 := by
    simp only [int64Hdr]; norm_num; omega
  refine ⟨_, bigEndian 1 (int64Hdr 2 + u), rfl, by rw [hc0]; omega, Nat.mod_lt _ (by decide), ?_⟩
  unfold readInt64Long
  rw [hc0, if_neg (by omega)]
  simp only [Res.andThen, maskLoop_2 _ _ (show u / 256 ^ 1 < 32 from by omega)]
  rw [readInt64Bytes_bigEndian _ _ _ _ _ (by omega) (by norm_num; omega)]
  have : u / 256 ^ 1 * 256 ^ (0 + 2 - 1) + (int64Hdr 2 + u) % 256 ^ (0 + 2 - 1) = u := by
    simp only [int64Hdr]; norm_num; omega
  rw [this]

theorem readInt64Long_3 (neg : Bool) (u d : Nat) (rest : List Nat) (h1 : 2 ^ 13 ≤ u)
    (h2 : u < 2 ^ 20) :
    ∃ c0 tl, bigEndian 3 (int64Hdr 3 + u) = c0 :: tl ∧ 0xc0 ≤ c0 ∧ c0 < 256 ∧
      readInt64Long neg c0 { rem := tl.map (fun c => c ^^^ d) ++ rest, dir := d }
        = (Except.ok (toInt64 (if neg then u ^^^ (2 ^ 64 - 1) else u)),
            { rem := rest, dir := d }) := by
  have hc0 : (int64Hdr 3 + u) / 256 ^ 2 % 256 = 224 + u / 256 ^ 2 := by
    simp only [int64Hdr]; norm_num; omega
  refine ⟨_, bigEndian 2 (int64Hdr 3 + u), rfl, by rw [hc0]; omega, Nat.mod_lt _ (by decide), ?_⟩
  unfold readInt64Long
  rw [hc0, if_neg (by omega)]
  simp only [Res.andThen, maskLoop_3 _ _ (show u / 256 ^ 2 < 16 from by omega)]
  rw [readInt64Bytes_bigEndian _ _ _ _ _ (by omega) (by norm_num; omega)]
  have : u / 256 ^ 2 * 256 ^ (0 + 3 - 1) + (int64Hdr 3 + u) % 256 ^ (0 + 3 - 1) = u := by
    simp only [int64Hdr]; norm_num; omega
  rw [this]

theorem readInt64Long_4 (neg : Bool) (u d : Nat) (rest : List Nat) (h1 : 2 ^ 20 ≤ u)
    (h2 : u < 2 ^ 27) :
    ∃ c0 tl, bigEndian 4 (int64Hdr 4 + u) = c0 :: tl ∧ 0xc0 ≤ c0 ∧ c0 < 256 ∧
      readInt64Long neg c0 { rem := tl.map (fun c => c ^^^ d) ++ rest, dir := d }
        = (Except.ok (toInt64 (if neg then u ^^^ (2 ^ 64 - 1) else u)),
            { rem := rest, dir := d }) := by
  have hc0 : (int64Hdr 4 + u) / 256 ^ 3 % 256 = 240 + u / 256 ^ 3 := by
    simp only [int64Hdr]; norm_num; omega
  refine ⟨_, bigEndian 3 (int64Hdr 4 + u), rfl, by rw [hc0]; omega, Nat.mod_lt _ (by decide), ?_⟩
  unfold readInt64Long
  rw [hc0, if_neg (by omega)]
  simp only [Res.andThen, maskLoop_4 _ _ (show u / 256 ^ 3 < 8 from by omega)]
  rw [readInt64Bytes_bigEndian _ _ _ _ _ (by omega) (by norm_num; omega)]
  have : u / 256 ^ 3 * 256 ^ (0 + 4 - 1) + (int64Hdr 4 + u) % 256 ^ (0 + 4 - 1) = u := by
    simp only [int64Hdr]; norm_num; omega
  rw [this]

theorem readInt64Long_5 (neg : Bool) (u d : Nat) (rest : List Nat) (h1 : 2 ^ 27 ≤ u)
    (h2 : u < 2 ^ 34) :
    ∃ c0 tl, bigEndian 5 (int64Hdr 5 + u) = c0 :: tl ∧ 0xc0 ≤ c0 ∧ c0 < 256 ∧
      readInt64Long neg c0 { rem := tl.map (fun c => c ^^^ d) ++ rest, dir := d }
        = (Except.ok (toInt64 (if neg then u ^^^ (2 ^ 64 - 1) else u)),
            { rem := rest, dir := d }) := by
  have hc0 : (int64Hdr 5 + u) / 256 ^ 4 % 256 = 248 + u / 256 ^ 4 := by
    simp only [int64Hdr]; norm_num; omega
  refine ⟨_, bigEndian 4 (int64Hdr 5 + u), rfl, by rw [hc0]; omega, Nat.mod_lt _ (by decide), ?_⟩
  unfold readInt64Long
  rw [hc0, if_neg (by omega)]
  simp only [Res.andThen, maskLoop_5 _ _ (show u / 256 ^ 4 < 4 from by omega)]
  rw [readInt64Bytes_bigEndian _ _ _ _ _ (by omega) (by norm_num; omega)]
  have : u / 256 ^ 4 * 256 ^ (0 + 5 - 1) + (int64Hdr 5 + u) % 256 ^ (0 + 5 - 1) = u := by
    simp only [int64Hdr]; norm_num; omega
  rw [this]

theorem readInt64Long_6 (neg : Bool) (u d : Nat) (rest : List Nat) (h1 : 2 ^ 34 ≤ u)
    (h2 : u < 2 ^ 41) :
    ∃ c0 tl, bigEndian 6 (int64Hdr 6 + u) = c0 :: tl ∧ 0xc0 ≤ c0 ∧ c0 < 256 ∧
      readInt64Long neg c0 { rem := tl.map (fun c => c ^^^ d) ++ rest, dir := d }
        = (Except.ok (toInt64 (if neg then u ^^^ (2 ^ 64 - 1) else u)),
            { rem := rest, dir := d }) := by
  have hc0 : (int64Hdr 6 + u) / 256 ^ 5 % 256 = 252 + u / 256 ^ 5 := by
    simp only [int64Hdr]; norm_num; omega
  refine ⟨_, bigEndian 5 (int64Hdr 6 + u), rfl, by rw [hc0]; omega, Nat.mod_lt _ (by decide), ?_⟩
  unfold readInt64Long
  rw [hc0, if_neg (by omega)]
  simp only [Res.andThen, maskLoop_6 _ _ (show u / 256 ^ 5 < 2 from by omega)]
  rw [readInt64Bytes_bigEndian _ _ _ _ _ (by omega) (by norm_num; omega)]
  have : u / 256 ^ 5 * 256 ^ (0 + 6 - 1) + (int64Hdr 6 + u) % 256 ^ (0 + 6 - 1) = u := by
    simp only [int64Hdr]; norm_num; omega
  rw [this]

theorem readInt64Long_7 (neg : Bool) (u d : Nat) (rest : List Nat) (h1 : 2 ^ 41 ≤ u)
    (h2 : u < 2 ^ 48) :
    ∃ c0 tl, bigEndian 7 (int64Hdr 7 + u) = c0 :: tl ∧ 0xc0 ≤ c0 ∧ c0 < 256 ∧
      readInt64Long neg c0 { rem := tl.map (fun c => c ^^^ d) ++ rest, dir := d }
        = (Except.ok (toInt64 (if neg then u ^^^ (2 ^ 64 - 1) else u)),
            { rem := rest, dir := d }) := by
  have hc0 : (int64Hdr 7 + u) / 256 ^ 6 % 256 = 254 := by
    simp only [int64Hdr]; norm_num; omega
  refine ⟨_, bigEndian 6 (int64Hdr 7 + u), rfl, by rw [hc0]; omega, Nat.mod_lt _ (by decide), ?_⟩
  unfold readInt64Long
  rw [hc0, if_neg (by omega)]
  simp only [Res.andThen, maskLoop_7]
  rw [readInt64Bytes_bigEndian _ _ _ _ _ (by omega) (by norm_num)]
  have : 0 * 256 ^ (0 + 7 - 1) + (int64Hdr 7 + u) % 256 ^ (0 + 7 - 1) = u := by
    simp only [int64Hdr]; norm_num; omega
  rw [this]

theorem readInt64Long_8 (neg : Bool) (u d : Nat) (rest : List Nat) (h1 : 2 ^ 48 ≤ u)
    (h2 : u < 2 ^ 55) :
    ∃ c0 tl, bigEndian 8 (int64Hdr 8 + u) = c0 :: tl ∧ 0xc0 ≤ c0 ∧ c0 < 256 ∧
      readInt64Long neg c0 { rem := tl.map (fun c => c ^^^ d) ++ rest, dir := d }
        = (Except.ok (toInt64 (if neg then u ^^^ (2 ^ 64 - 1) else u)),
            { rem := rest, dir := d }) := by
  have hc0 : (int64Hdr 8 + u) / 256 ^ 7 % 256 = 255 := by
    simp only [int64Hdr]; norm_num; omega
  have hc1 : (int64Hdr 8 + u) / 256 ^ 6 % 256 = u / 256 ^ 6 := by
    simp only [int64Hdr]; norm_num; omega
  have hc1lt : u / 256 ^ 6 < 256 := by omega
  refine ⟨_, bigEndian 7 (int64Hdr 8 + u), rfl, by rw [hc0]; omega, Nat.mod_lt _ (by decide), ?_⟩
  unfold readInt64Long
  rw [hc0, if_pos rfl, show bigEndian 7 (int64Hdr 8 + u)
    = (int64Hdr 8 + u) / 256 ^ 6 % 256 :: bigEndian 6 (int64Hdr 8 + u) from rfl, hc1]
  simp only [List.map_cons, List.cons_append, getc_xor _ _ _ hc1lt, Res.andThen]
  rw [if_neg (by omega)]
  simp only [Res.andThen, maskLoop_0 _ _ (show u / 256 ^ 6 < 128 from by omega)]
  rw [readInt64Bytes_bigEndian _ _ _ _ _ (by omega) (by norm_num; omega)]
  have : u / 256 ^ 6 * 256 ^ (7 - 1) + (int64Hdr 8 + u) % 256 ^ (7 - 1) = u := by
    simp only [int64Hdr]; norm_num; omega
  rw [this]

theorem readInt64Long_9 (neg : Bool) (u d : Nat) (rest : List Nat) (h1 : 2 ^ 55 ≤ u)
    (h2 : u < 2 ^ 62) :
    ∃ c0 tl, bigEndian 9 (int64Hdr 9 + u) = c0 :: tl ∧ 0xc0 ≤ c0 ∧ c0 < 256 ∧
      readInt64Long neg c0 { rem := tl.map (fun c => c ^^^ d) ++ rest, dir := d }
        = (Except.ok (toInt64 (if neg then u ^^^ (2 ^ 64 - 1) else u)),
            { rem := rest, dir := d }) := by
  have hc0 : (int64Hdr 9 + u) / 256 ^ 8 % 256 = 255 := by
    simp only [int64Hdr]; norm_num; omega
  have hc1 : (int64Hdr 9 + u) / 256 ^ 7 % 256 = 128 + u / 256 ^ 7 := by
    simp only [int64Hdr]; norm_num; omega
  have hc1lt : 128 + u / 256 ^ 7 < 256 := by omega
  refine ⟨_, bigEndian 8 (int64Hdr 9 + u), rfl, by rw [hc0]; omega, Nat.mod_lt _ (by decide), ?_⟩
  unfold readInt64Long
  rw [hc0, if_pos rfl, show bigEndian 8 (int64Hdr 9 + u)
    = (int64Hdr 9 + u) / 256 ^ 7 % 256 :: bigEndian 7 (int64Hdr 9 + u) from rfl, hc1]
  simp only [List.map_cons, List.cons_append, getc_xor _ _ _ hc1lt, Res.andThen]
  rw [if_neg (by omega)]
  simp only [Res.andThen, maskLoop_1 _ _ (show u / 256 ^ 7 < 64 from by omega)]
  rw [readInt64Bytes_bigEndian _ _ _ _ _ (by omega) (by norm_num; omega)]
  have : u / 256 ^ 7 * 256 ^ (7 + 1 - 1) + (int64Hdr 9 + u) % 256 ^ (7 + 1 - 1) = u := by
    simp only [int64Hdr]; norm_num; omega
  rw [this]

theorem readInt64Long_10 (neg : Bool) (u d : Nat) (rest : List Nat) (h1 : 2 ^ 62 ≤ u)
    (h2 : u < 2 ^ 63) :
    ∃ c0 tl, bigEndian 10 (int64Hdr 10 + u) = c0 :: tl ∧ 0xc0 ≤ c0 ∧ c0 < 256 ∧
      readInt64Long neg c0 { rem := tl.map (fun c => c ^^^ d) ++ rest, dir := d }
        = (Except.ok (toInt64 (if neg then u ^^^ (2 ^ 64 - 1) else u)),
            { rem := rest, dir := d }) := by
  have hc0 : (int64Hdr 10 + u) / 256 ^ 9 % 256 = 255 := by
    simp only [int64Hdr]; norm_num; omega
  have hc1 : (int64Hdr 10 + u) / 256 ^ 8 % 256 = 192 + 0 := by
    simp only [int64Hdr]; norm_num; omega
  have hc1lt : 192 + 0 < 256 := by omega
  refine ⟨_, bigEndian 9 (int64Hdr 10 + u), rfl, by rw [hc0]; omega, Nat.mod_lt _ (by decide), ?_⟩
  unfold readInt64Long
  rw [hc0, if_pos rfl, show bigEndian 9 (int64Hdr 10 + u)
    = (int64Hdr 10 + u) / 256 ^ 8 % 256 :: bigEndian 8 (int64Hdr 10 + u) from rfl, hc1]
  simp only [List.map_cons, List.cons_append, getc_xor _ _ _ hc1lt, Res.andThen]
  rw [if_neg (by omega)]
  simp only [Res.andThen, maskLoop_2 0 _ (by decide)]
  rw [readInt64Bytes_bigEndian _ _ _ _ _ (by omega) (by norm_num)]
  have : 0 * 256 ^ (7 + 2 - 1) + (int64Hdr 10 + u) % 256 ^ (7 + 2 - 1) = u := by
    simp only [int64Hdr]; norm_num; omega
  rw [this]

/-- The long form of the reader on the form of `u`, written in direction `d` and read in
direction `d`: it returns `u` (complemented when `neg`) and consumes exactly the form. -/
theorem readInt64Long_form (neg : Bool) (u d : Nat) (rest : List Nat) (h1 : 2 ^ 6 ≤ u)
    (h2 : u < 2 ^ 63) :
    ∃ c0 tl, bigEndian (int64Len u) (int64Hdr (int64Len u) + u) = c0 :: tl ∧ 0xc0 ≤ c0 ∧
      c0 < 256 ∧
      readInt64Long neg c0 { rem := tl.map (fun c => c ^^^ d) ++ rest, dir := d }
        = (Except.ok (toInt64 (if neg then u ^^^ (2 ^ 64 - 1) else u)),
            { rem := rest, dir := d }) := by
  rcases int64Len_spec u h2 with ⟨e, l1, l2⟩ | ⟨e, l1, l2⟩ | ⟨e, l1, l2⟩ | ⟨e, l1, l2⟩ | ⟨e, l1, l2⟩ | ⟨e, l1, l2⟩ | ⟨e, l1, l2⟩ | ⟨e, l1, l2⟩ | ⟨e, l1, l2⟩ | ⟨e, l1, l2⟩
  · omega
  · rw [e]; exact readInt64Long_2 neg u d rest l1 l2
  · rw [e]; exact readInt64Long_3 neg u d rest l1 l2
  · rw [e]; exact readInt64Long_4 neg u d rest l1 l2
  · rw [e]; exact readInt64Long_5 neg u d rest l1 l2
  · rw [e]; exact readInt64Long_6 neg u d rest l1 l2
  · rw [e]; exact readInt64Long_7 neg u d rest l1 l2
  · rw [e]; exact readInt64Long_8 neg u d rest l1 l2
  · rw [e]; exact readInt64Long_9 neg u d rest l1 l2
  · rw [e]; exact readInt64Long_10 neg u d rest l1 h2

theorem xor_128 (c : Nat) (h : c < 256) :
    c ^^^ 128 = if c < 128 then c + 128 else c - 128 := by
  interval_cases c <;> rfl

theorem int64Form_short (v : Int) (h1 : -64 ≤ v) (h2 : v < 64) :
    int64Form v = [(v + 128).toNat] := by
  interval_cases v <;> rfl

theorem map_xor_xor (l : List Nat) (d : Nat) :
    (invert l).map (fun c => c ^^^ d) = l.map (fun c => c ^^^ (d ^^^ 0xff)) := by
  simp only [invert, List.map_map]
  apply List.map_congr_left
  intro c _
  simp only [Function.comp]
  rw [Nat.xor_assoc, Nat.xor_comm 255 d]

/-- The int64 reader on the form of `v`, written in direction `d` and read in direction `d`,
returns `v` and consumes exactly the form; the direction is left flipped after a negative long
form. -/
theorem readInt64_form (v : Int) (d : Nat) (rest : List Nat) (h1 : -2 ^ 63 ≤ v)
    (h2 : v < 2 ^ 63) :
    readInt64 { rem := (int64Form v).map (fun c => c ^^^ d) ++ rest, dir := d }
      = (Except.ok v, { rem := rest, dir := if v < -64 then d ^^^ 0xff else d }) := by
  by_cases hs : -64 ≤ v ∧ v < 64
  · have hc : (v + 128).toNat < 256 := by omega
    rw [int64Form_short v hs.1 hs.2]
    simp only [List.map_cons, List.map_nil, List.cons_append, List.nil_append]
    unfold readInt64
    rw [getc_xor _ _ _ hc]
    simp only [Res.andThen]
    rw [if_pos (by omega), if_neg (by omega), xor_128 _ hc]
    congr 2
    unfold int8
    split_ifs <;> omega
  · by_cases hneg : v < 0
    · have hu1 : 2 ^ 6 ≤ (-v - 1).toNat := by omega
      have hu2 : (-v - 1).toNat < 2 ^ 63 := by omega
      obtain ⟨c0, tl, hform, hc1, hc2, hread⟩ :=
        readInt64Long_form true (-v - 1).toNat (d ^^^ 0xff) rest hu1 hu2
      unfold int64Form
      rw [if_neg (by omega), map_xor_xor, hform]
      simp only [List.map_cons, List.cons_append]
      rw [show c0 ^^^ (d ^^^ 0xff) = (c0 ^^^ 0xff) ^^^ d from by
        rw [Nat.xor_assoc, Nat.xor_comm 255 d]]
      rw [readInt64_neg c0 d _ hc1 hc2, hread, if_pos (show v < -64 from by omega)]
      simp only [if_true]
      rw [toInt64_neg _ hu2]
      congr 2
      omega
    · have hu1 : 2 ^ 6 ≤ v.toNat := by omega
      have hu2 : v.toNat < 2 ^ 63 := by omega
      obtain ⟨c0, tl, hform, hc1, hc2, hread⟩ :=
        readInt64Long_form false v.toNat d rest hu1 hu2
      unfold int64Form
      rw [if_pos (by omega), hform]
      simp only [List.map_cons, List.cons_append]
      rw [readInt64_pos c0 d _ hc1 hc2, hread, if_neg (show ¬ v < -64 from by omega)]
      simp only [Bool.false_eq_true, if_false]
      rw [toInt64_pos _ hu2]
      congr 2
      omega

theorem map_xor_zero (l : List Nat) : l.map (fun c => c ^^^ 0) = l := by
  simp

/-- C8: for every int64 `v` (both extremes included), decoding the encoding of `v` as a single
ascending int64 returns `v` and consumes every byte of the encoding (exactly what follows it,
`rest`, is left unread), and decoding the descending encoding of `v` as `decr<int64>` does the
same. -/
theorem int64_roundtrip (v : Int) (rest : List Nat) (h1 : -2 ^ 63 ≤ v) (h2 : v < 2 ^ 63) :
    (decode readInt64 (encode writeInt64 v ++ rest)).1 = Except.ok v ∧
    (decode readInt64 (encode writeInt64 v ++ rest)).2.rem = rest ∧
    (decodeDecr readInt64 (encode (writeDecr writeInt64) v ++ rest)).1 = Except.ok v ∧
    (decodeDecr readInt64 (encode (writeDecr writeInt64) v ++ rest)).2.rem = rest := by
  have ha := readInt64_form v 0 rest h1 h2
  have hd := readInt64_form v 0xff rest h1 h2
  simp only [map_xor_zero] at ha
  simp only [decode, decodeDecr, encode, writeDecr, writeInt64_eq [] v h1 h2, List.nil_append,
    increasing, decreasing, invert, ha, hd]
  simp

/-- C8 at `INT64_MIN`, nothing following the encoding. -/
theorem int64_roundtrip_witness :
    ((-2 ^ 63 : Int) ≤ -2 ^ 63 ∧ (-2 ^ 63 : Int) < 2 ^ 63) ∧
    (decode readInt64 (encode writeInt64 (-2 ^ 63) ++ [])).1 = Except.ok (-2 ^ 63) ∧
    (decode readInt64 (encode writeInt64 (-2 ^ 63) ++ [])).2.rem = [] ∧
    (decodeDecr readInt64 (encode (writeDecr writeInt64) (-2 ^ 63) ++ [])).1
      = Except.ok (-2 ^ 63) ∧
    (decodeDecr readInt64 (encode (writeDecr writeInt64) (-2 ^ 63) ++ [])).2.rem = [] :=
  ⟨by norm_num, int64_roundtrip (-2 ^ 63) [] (by norm_num) (by norm_num)⟩

/-! ## Pairs and tuples -/

/-- What the three-field decode does get right: for an int64 `v ≥ -64` (short form or
non-negative) and every string `s`, decoding `encode(v, s, infinity)` as
`(int64, string, infinity)` returns `v` and `s` and consumes the input. -/
theorem decode3_roundtrip_of_ge (v : Int) (s : List Nat) (h1 : -64 ≤ v) (h2 : v < 2 ^ 63)
    (hs : ∀ b ∈ s, b < 256) :
    decode3 readInt64 readString readInfinity (encode3 writeInt64 writeString writeInfinity v s {})
      = (Except.ok (v, s, {}), { rem := [], dir := increasing }) := by
  have hv := readInt64_form v 0 (escape s ++ [0x00, 0x01, 0xff, 0xff]) (by omega) h2
  simp only [map_xor_zero] at hv
  rw [if_neg (by omega)] at hv
  have hstr := readStringLoop_escape [0xff, 0xff] s hs []
  simp only [List.append_assoc, List.cons_append, List.nil_append] at hstr
  have henc : encode3 writeInt64 writeString writeInfinity v s {}
      = int64Form v ++ (escape s ++ [0x00, 0x01, 0xff, 0xff]) := by
    simp [encode3, writeInfinity, writeString_eq, writeInt64_eq [] v (by omega) h2, inf]
  rw [henc]
  unfold decode3
  rw [show increasing = 0 from rfl, hv]
  simp only [Res.andThen, readString, hstr]
  rfl

/-- C1: for all pairs `(s1, v1)` and `(s2, v2)` of a string and an int64, the first pair is
smaller than the second in lexicographic value order (the strings compared as unsigned bytes,
then the integers) if and only if `encode(s1, v1)` is smaller than `encode(s2, v2)` in unsigned
lexicographic byte order. -/
theorem string_int64_order (s1 s2 : List Nat) (v1 v2 : Int) (h11 : -2 ^ 63 ≤ v1)
    (h12 : v1 < 2 ^ 63) (h21 : -2 ^ 63 ≤ v2) (h22 : v2 < 2 ^ 63) :
    (lexLt s1 s2 ∨ (s1 = s2 ∧ v1 < v2)) ↔
      lexLt (encode2 writeString writeInt64 s1 v1) (encode2 writeString writeInt64 s2 v2) := by
  have key : ∀ (a b : List Nat) (x y : Int), -2 ^ 63 ≤ x → x < 2 ^ 63 → -2 ^ 63 ≤ y →
      y < 2 ^ 63 → (lexLt a b ∨ (a = b ∧ x < y)) →
      lexLt (encode2 writeString writeInt64 a x) (encode2 writeString writeInt64 b y) := by
    intro a b x y hx1 hx2 hy1 hy2 h
    simp only [encode2, writeString_eq, List.nil_append, writeInt64_eq _ x hx1 hx2,
      writeInt64_eq _ y hy1 hy2]
    rcases h with h | ⟨h, h2⟩
    · exact diffLt_lexLt_append _ _ _ _ (escape_diffLt a b h)
    · subst h
      exact (lexLt_append_left _ _ _).2 (int64Form_lexLt x y hx1 h2 hy2)
  constructor
  · exact key s1 s2 v1 v2 h11 h12 h21 h22
  · intro h
    rcases lexLt_trichotomy s1 s2 with hs | hs | hs
    · exact Or.inl hs
    · rcases Int.lt_trichotomy v1 v2 with hv | hv | hv
      · exact Or.inr ⟨hs, hv⟩
      · subst hs hv
        exact absurd h (lexLt_irrefl _)
      · exact absurd (key s2 s1 v2 v1 h21 h22 h11 h12 (Or.inr ⟨hs.symm, hv⟩)) (lexLt_asymm _ _ h)
    · exact absurd (key s2 s1 v2 v1 h21 h22 h11 h12 (Or.inl hs)) (lexLt_asymm _ _ h)

/-- C1 at the pairs `("a", -65)` and `("a", 64)`. -/
theorem string_int64_order_witness :
    ((-2 ^ 63 : Int) ≤ -65 ∧ (-65 : Int) < 2 ^ 63 ∧ (-2 ^ 63 : Int) ≤ 64 ∧ (64 : Int) < 2 ^ 63) ∧
    ((lexLt [0x61] [0x61] ∨ ([0x61] = [0x61] ∧ (-65 : Int) < 64)) ↔
      lexLt (encode2 writeString writeInt64 [0x61] (-65))
        (encode2 writeString writeInt64 [0x61] 64)) :=
  ⟨by norm_num, string_int64_order [0x61] [0x61] (-65) 64 (by norm_num) (by norm_num)
    (by norm_num) (by norm_num)⟩

/-! ## Multi-value decoding and `string_or_infinity`: what the code does -/

/-- C5 at `v = -65`, `s = ""`: the tuple `(-65, "", infinity)` is encoded as
`3f bf 00 01 ff ff`; the int64 reader returns `-65` and leaves `dir` flipped, the string reader
then sees `ff fe` and throws corrupt input. -/
theorem decode3_negative_long_corrupt :
    encode3 writeInt64 writeString writeInfinity (-65) [] {} = [0x3f, 0xbf, 0x00, 0x01, 0xff, 0xff] ∧
    decode3 readInt64 readString readInfinity
        (encode3 writeInt64 writeString writeInfinity (-65) [] {})
      = (Except.error Err.corrupt, { rem := [0xff, 0xff], dir := 0xff }) :=
  ⟨rfl, rfl⟩

/-- C6 at `a = ""`, `b = 0`: `encode(decr{""}, 0)` is `ff fe 80`; the variadic overload reads
the int64 field while `dir` is still `decreasing` and returns `-1` for it. -/
theorem decodeDecr2_second_field_wrong :
    encode2 (writeDecr writeString) writeInt64 [] 0 = [0xff, 0xfe, 0x80] ∧
    decodeDecr2 readString readInt64 (encode2 (writeDecr writeString) writeInt64 [] 0)
      = (Except.ok ([], -1), { rem := [], dir := increasing }) :=
  ⟨rfl, rfl⟩

/-- The infinity alternative of `string_or_infinity` is decoded: `inf` is set and both bytes
are consumed. -/
theorem readStringOrInfinity_infinity (v : string_or_infinity) (rest : List Nat) :
    decode (fun ds => readStringOrInfinity ds v) (encode writeInfinity {} ++ rest)
      = (Except.ok { v with inf := true }, { rem := rest, dir := increasing }) := by
  have h : readInfinity { rem := 0xff :: 0xff :: rest, dir := 0 }
      = (Except.ok {}, { rem := rest, dir := 0 }) := by
    unfold readInfinity
    rw [if_neg (by simp [DS.remaining])]
    simp [getc_cons, Res.andThen, inf]
  simp only [decode, encode, writeInfinity, readStringOrInfinity, inf, increasing,
    List.nil_append, List.getD_cons_zero, List.getD_cons_succ, List.cons_append, h]

/-- C7 at `s = "a"`: the failed read of `infinity` has consumed the byte `61`, and the string
read that follows returns the empty string. -/
theorem readStringOrInfinity_drops_byte :
    decode (fun ds => readStringOrInfinity ds { s := [], inf := false }) (encode writeString [0x61])
      = (Except.ok { s := [], inf := false }, { rem := [], dir := increasing }) :=
  rfl

/-! ## The bounds of the unrolled loops -/

/-- The bound of `int64Loop` is never what stops it: for a value below `256 ^ fuel` any
larger bound gives the same run.  With `fuel = 8` this covers every 64-bit value. -/
theorem int64Loop_fuel : ∀ (fuel extra v : Nat) (buf : List Nat) (i n : Nat), v < 256 ^ fuel →
    int64Loop (fuel + extra) v buf i n = int64Loop fuel v buf i n
  | 0, extra, v, buf, i, n => by
    intro h
    have hv : v = 0 := by simpa using h
    rw [int64Loop_zero _ _ _ _ _ hv, int64Loop_zero _ _ _ _ _ hv]
  | fuel + 1, extra, v, buf, i, n => by
    intro h
    rw [show fuel + 1 + extra = (fuel + extra) + 1 from by omega]
    by_cases hv : 0 < v
    · rw [int64Loop_pos _ _ _ _ _ hv, int64Loop_pos _ _ _ _ _ hv]
      apply int64Loop_fuel
      rw [Nat.pow_succ] at h
      omega
    · have hv0 : v = 0 := by omega
      rw [int64Loop_zero _ _ _ _ _ hv0, int64Loop_zero _ _ _ _ _ hv0]

/-- The bound of `uint64Loop` is never what stops it. -/
theorem uint64Loop_fuel : ∀ (fuel extra v : Nat) (buf : List Nat) (i : Nat), v < 256 ^ fuel →
    uint64Loop (fuel + extra) v buf i = uint64Loop fuel v buf i
  | 0, extra, v, buf, i => by
    intro h
    have hv : v = 0 := by simpa using h
    rw [uint64Loop_zero _ _ _ _ hv, uint64Loop_zero _ _ _ _ hv]
  | fuel + 1, extra, v, buf, i => by
    intro h
    rw [show fuel + 1 + extra = (fuel + extra) + 1 from by omega]
    by_cases hv : 0 < v
    · rw [uint64Loop_pos _ _ _ _ hv, uint64Loop_pos _ _ _ _ hv]
      apply uint64Loop_fuel
      rw [Nat.pow_succ] at h
      omega
    · have hv0 : v = 0 := by omega
      rw [uint64Loop_zero _ _ _ _ hv0, uint64Loop_zero _ _ _ _ hv0]

/-- The bound of `maskLoop` is never what stops it: a mask below `2 ^ fuel` is zero after
`fuel` shifts, and the test fails on a zero mask.  With `fuel = 9` this covers the
`unsigned char` mask starting at `0x80`. -/
theorem maskLoop_fuel : ∀ (fuel extra mask c n : Nat), mask < 2 ^ fuel →
    maskLoop (fuel + extra) mask c n = maskLoop fuel mask c n
  | 0, extra, mask, c, n => by
    intro h
    have hm : mask = 0 := by simpa using h
    subst hm
    cases extra <;> simp [maskLoop]
  | fuel + 1, extra, mask, c, n => by
    intro h
    rw [show fuel + 1 + extra = (fuel + extra) + 1 from by omega]
    simp only [maskLoop]
    split_ifs with hc
    · apply maskLoop_fuel
      rw [Nat.shiftRight_eq_div_pow]
      rw [Nat.pow_succ] at h
      omega
    · rfl

/-! ## Infinity, and the uint64 reader on a bad length -/

/-- The encoding of a string of bytes lies below the two bytes `ff ff`. -/
theorem escape_lt_inf : ∀ s : List Nat, (∀ b ∈ s, b < 256) →
    lexLt (escape s ++ [0x00, 0x01]) [0xff, 0xff]
  | [], _ => by simp [escape, lexLt]
  | b :: s, hs => by
    have hb : b < 256 := hs b (by simp)
    by_cases h0 : b = 0
    · simp [escape, h0, lexLt]
    · by_cases h1 : b = 255
      · simp [escape, h1, lexLt]
      · simp only [escape, h0, h1, if_false, List.cons_append, List.nil_append, lexLt]
        exact Or.inl (by omega)

theorem writeInfinity_eq (out : List Nat) (v : infinity) : writeInfinity out v = out ++ [0xff, 0xff] := by
  simp [writeInfinity, inf]

/-- C12: for every string `s` of bytes, the encoding of `s` is smaller, in unsigned
lexicographic byte order, than the two-byte encoding `ff ff` of infinity. -/
theorem string_lt_infinity (s : List Nat) (hs : ∀ b ∈ s, b < 256) :
    encode writeInfinity {} = [0xff, 0xff] ∧
    lexLt (encode writeString s) (encode writeInfinity {}) := by
  refine ⟨rfl, ?_⟩
  simp only [encode, writeString_eq, writeInfinity_eq, List.nil_append]
  exact escape_lt_inf s hs

/-- C12 at the string `ff ff fe`. -/
theorem string_lt_infinity_witness :
    (∀ b ∈ [0xff, 0xff, 0xfe], b < 256) ∧
    encode writeInfinity {} = [0xff, 0xff] ∧
    lexLt (encode writeString [0xff, 0xff, 0xfe]) (encode writeInfinity {}) :=
  ⟨by decide, string_lt_infinity [0xff, 0xff, 0xfe] (by decide)⟩

/-- C13 as stated fails at `s = ""`: the tuple `(-1, "a\\x00b", infinity)` is encoded as
`7f 61 00 ff 62 00 01 ff ff`, the tuple `(-1, "a\\x00b", "")` as `7f 61 00 ff 62 00 01 00 01`,
and the first is not smaller than the second: it is greater. -/
theorem infinity_tuple_not_before :
    ¬ lexLt (encode3 writeInt64 writeString writeInfinity (-1) [0x61, 0x00, 0x62] {})
        (encode3 writeInt64 writeString writeString (-1) [0x61, 0x00, 0x62] []) ∧
    lexLt (encode3 writeInt64 writeString writeString (-1) [0x61, 0x00, 0x62] [])
        (encode3 writeInt64 writeString writeInfinity (-1) [0x61, 0x00, 0x62] {}) := by
  decide

/-- C13, amended: the encoding of the tuple `(int64 -1, string "a\\x00b", infinity)` sorts
strictly after, in unsigned lexicographic byte order, the encoding of the tuple
`(int64 -1, string "a\\x00b", s)` for every finite string `s` of bytes. -/
theorem infinity_tuple_after (s : List Nat) (hs : ∀ b ∈ s, b < 256) :
    lexLt (encode3 writeInt64 writeString writeString (-1) [0x61, 0x00, 0x62] s)
      (encode3 writeInt64 writeString writeInfinity (-1) [0x61, 0x00, 0x62] {}) := by
  simp only [encode3, writeString_eq, writeInfinity_eq, List.append_assoc]
  rw [lexLt_append_left, lexLt_append_left, lexLt_append_left]
  exact escape_lt_inf s hs

/-- C13, amended, at `s = "zzz"`. -/
theorem infinity_tuple_after_witness :
    (∀ b ∈ [0x7a, 0x7a, 0x7a], b < 256) ∧
    lexLt (encode3 writeInt64 writeString writeString (-1) [0x61, 0x00, 0x62] [0x7a, 0x7a, 0x7a])
      (encode3 writeInt64 writeString writeInfinity (-1) [0x61, 0x00, 0x62] {}) :=
  ⟨by decide, infinity_tuple_after [0x7a, 0x7a, 0x7a] (by decide)⟩

/-- The uint64 reader has no corrupt-input path: whatever the length byte, the only way it
fails is by running out of bytes. -/
theorem readUint64Bytes_not_corrupt : ∀ (k v : Nat) (ds : DS),
    (readUint64Bytes k v ds).1 ≠ Except.error Err.corrupt
  | 0, v, ds => by simp [readUint64Bytes]
  | k + 1, v, ds => by
    cases hr : ds.rem with
    | nil => simp [readUint64Bytes, DS.getc, DS.get, hr, Res.andThen]
    | cons b r =>
      have := readUint64Bytes_not_corrupt k (((v <<< 8) % 2 ^ 64) ||| ((b ^^^ ds.dir) % 256))
        { ds with rem := r }
      simpa [readUint64Bytes, DS.getc, DS.get, hr, Res.andThen] using this

theorem readUint64_not_corrupt (ds : DS) : (readUint64 ds).1 ≠ Except.error Err.corrupt := by
  cases hr : ds.rem with
  | nil => simp [readUint64, DS.getc, DS.get, hr, Res.andThen]
  | cons b r =>
    have := readUint64Bytes_not_corrupt ((b ^^^ ds.dir) % 256) 0 { ds with rem := r }
    simpa [readUint64, DS.getc, DS.get, hr, Res.andThen] using this

/-- C14 at the input `09 01 02 03 04 05 06 07 08 09`: the length byte is 9, the reader does
not test it, shifts nine bytes into the 64-bit value (the first one is shifted out) and
returns `0x0203040506070809`. -/
theorem readUint64_length_nine :
    decode readUint64 [0x09, 0x01, 0x02, 0x03, 0x04, 0x05, 0x06, 0x07, 0x08, 0x09]
      = (Except.ok 0x0203040506070809, { rem := [], dir := increasing }) :=
  rfl

/-! ## What the string reader accepts -/

/-- The string reader over an escaped prefix: the prefix is consumed and the string it
stands for is appended to what was read so far. -/
theorem readStringLoop_escape_append (l : List Nat) : ∀ (t : List Nat), (∀ b ∈ t, b < 256) →
    ∀ acc : List Nat, readStringLoop 0 (escape t ++ l) acc = readStringLoop 0 l (acc ++ t)
  | [], _, acc => by simp [escape]
  | b :: t, ht, acc => by
    have hb : b < 256 := ht b (by simp)
    have ih := readStringLoop_escape_append l t (fun c hc => ht c (by simp [hc]))
    by_cases h0 : b = 0
    · subst h0
      have := ih (acc ++ [0])
      simp only [List.append_assoc, List.cons_append, List.nil_append] at this
      simp [escape, readStringLoop, this]
    · by_cases h1 : b = 255
      · subst h1
        have := ih (acc ++ [255])
        simp only [List.append_assoc, List.cons_append, List.nil_append] at this
        simp [escape, readStringLoop, this]
      · have ih2 := ih (acc ++ [b])
        simp only [List.append_assoc, List.cons_append, List.nil_append] at ih2
        simp only [escape, h0, h1, if_false, List.cons_append, List.nil_append]
        cases hrest : escape t ++ l with
        | nil =>
          rw [hrest] at ih2
          rw [← ih2]
          simp [readStringLoop, Nat.mod_eq_of_lt hb, h0, h1]
        | cons c r =>
          rw [hrest] at ih2
          simp [readStringLoop, Nat.mod_eq_of_lt hb, h0, h1, ih2]

/-- What the string reader accepts: a successful read has consumed an escaped string and the
terminator, and returns that string after what was read before. -/
theorem readStringLoop_ok : ∀ (n : Nat) (l acc s rest : List Nat), l.length ≤ n →
    (∀ b ∈ l, b < 256) → readStringLoop 0 l acc = (Except.ok s, rest) →
    ∃ t, s = acc ++ t ∧ l = escape t ++ [0x00, 0x01] ++ rest
  | _, [], acc, s, rest, _, _, h => by simp [readStringLoop] at h
  | _, [b], acc, s, rest, _, _, h => by
    simp only [readStringLoop] at h
    split_ifs at h <;> simp at h
  | 0, _ :: _ :: _, _, _, _, hn, _, _ => by simp at hn
  | n + 1, b :: b2 :: r, acc, s, rest, hn, hl, h => by
    have hb : b < 256 := hl b (by simp)
    have hb2 : b2 < 256 := hl b2 (by simp)
    have hr : ∀ c ∈ r, c < 256 := fun c hc => hl c (by simp [hc])
    simp only [readStringLoop, Nat.xor_zero, Nat.mod_eq_of_lt hb, Nat.mod_eq_of_lt hb2] at h
    by_cases h0 : b = 0
    · rw [if_pos h0] at h
      by_cases h01 : b2 = 1
      · rw [if_pos h01] at h
        obtain ⟨h1, h2⟩ := Prod.mk.inj h
        refine ⟨[], ?_, ?_⟩
        · simpa using (Except.ok.inj h1).symm
        · simp [escape, h0, h01, h2]
      · rw [if_neg h01] at h
        by_cases h0f : b2 = 255
        · rw [if_pos h0f] at h
          obtain ⟨t, ht1, ht2⟩ := readStringLoop_ok n r (acc ++ [0]) s rest
            (by simp at hn; omega) hr h
          refine ⟨0 :: t, by simp [ht1], ?_⟩
          simp [escape, h0, h0f, ht2]
        · rw [if_neg h0f] at h
          simp at h
    · rw [if_neg h0] at h
      by_cases h1 : b = 255
      · rw [if_pos h1] at h
        by_cases h10 : b2 = 0
        · simp only [h10, ne_eq, not_true_eq_false, if_false] at h
          obtain ⟨t, ht1, ht2⟩ := readStringLoop_ok n r (acc ++ [255]) s rest
            (by simp at hn; omega) hr h
          refine ⟨255 :: t, by simp [ht1], ?_⟩
          simp [escape, h1, h10, ht2]
        · simp [h10] at h
      · rw [if_neg h1] at h
        obtain ⟨t, ht1, ht2⟩ := readStringLoop_ok n (b2 :: r) (acc ++ [b]) s rest
          (by simp at hn ⊢; omega) (fun c hc => hl c (by simp at hc ⊢; tauto)) h
        refine ⟨b :: t, by simp [ht1], ?_⟩
        simp [escape, h0, h1, ht2]

/-- The only exception of the string reader is corrupt input. -/
theorem readStringLoop_error : ∀ (n : Nat) (d : Nat) (l acc : List Nat) (e : Err), l.length ≤ n →
    (readStringLoop d l acc).1 = Except.error e → e = Err.corrupt
  | _, d, [], acc, e, _, h => by
    simp only [readStringLoop] at h
    exact (Except.error.inj h).symm
  | _, d, [b], acc, e, _, h => by
    simp only [readStringLoop] at h
    split_ifs at h <;> exact (Except.error.inj h).symm
  | 0, _, _ :: _ :: _, _, _, hn, _ => by simp at hn
  | n + 1, d, b :: b2 :: r, acc, e, hn, h => by
    have hlen : r.length ≤ n := by simp at hn; omega
    have hlen2 : (b2 :: r).length ≤ n := by simp at hn ⊢; omega
    simp only [readStringLoop] at h
    split_ifs at h <;> first
      | exact (Except.error.inj h).symm
      | exact readStringLoop_error n d r _ e hlen h
      | exact readStringLoop_error n d (b2 :: r) _ e hlen2 h

theorem escape_mem (c : Nat) : ∀ s : List Nat, c ∈ s → c ≠ 0 → c ≠ 255 → c ∈ escape s
  | [], h, _, _ => by simp at h
  | b :: s, h, h0, h1 => by
    simp only [List.mem_cons] at h
    rcases h with h | h
    · subst h
      simp [escape, h0, h1]
    · simp only [escape, List.mem_append]
      exact Or.inr (escape_mem c s h h0 h1)

/-- C15: for every byte sequence `b`, decoding `b` as an ascending string succeeds with value
`s` if and only if `b` begins with `encode(s)`, and when `b` begins with no encoding the
decode raises corrupt input; in particular it raises corrupt input when the input ends
without the terminator `00 01`, when a `00` is followed by a byte other than `01` or `ff`, and
when an `ff` is followed by a byte other than `00`. -/
theorem string_decode_iff (b : List Nat) (hb : ∀ c ∈ b, c < 256) :
    (∀ s, (decode readString b).1 = Except.ok s ↔ ∃ rest, b = encode writeString s ++ rest) ∧
    ((¬ ∃ s rest, b = encode writeString s ++ rest) →
      (decode readString b).1 = Except.error Err.corrupt) ∧
    (∀ t, (∀ c ∈ t, c < 256) → (decode readString (escape t)).1 = Except.error Err.corrupt) ∧
    (∀ t c rest, (∀ x ∈ t, x < 256) → c < 256 → c ≠ 0x01 → c ≠ 0xff →
      (decode readString (escape t ++ 0x00 :: c :: rest)).1 = Except.error Err.corrupt) ∧
    (∀ t c rest, (∀ x ∈ t, x < 256) → c < 256 → c ≠ 0x00 →
      (decode readString (escape t ++ 0xff :: c :: rest)).1 = Except.error Err.corrupt) := by
  have hiff : ∀ s, (decode readString b).1 = Except.ok s ↔
      ∃ rest, b = encode writeString s ++ rest := by
    intro s
    simp only [decode, readString, increasing, encode, writeString_eq, List.nil_append]
    constructor
    · intro h
      obtain ⟨t, ht1, ht2⟩ := readStringLoop_ok b.length b [] s (readStringLoop 0 b []).2
        (Nat.le_refl _) hb (Prod.ext h rfl)
      refine ⟨(readStringLoop 0 b []).2, ?_⟩
      rw [ht1, List.nil_append]
      exact ht2
    · rintro ⟨rest, hrest⟩
      have hs : ∀ c ∈ s, c < 256 := by
        intro c hc
        by_cases h0 : c = 0
        · omega
        · by_cases h1 : c = 255
          · omega
          · exact hb c (by rw [hrest]; simp [escape_mem c s hc h0 h1])
      rw [hrest, readStringLoop_escape rest s hs []]
      simp
  refine ⟨hiff, ?_, ?_, ?_, ?_⟩
  · intro hno
    cases hres : (decode readString b).1 with
    | ok s => exact absurd ⟨s, (hiff s).1 hres⟩ hno
    | error e =>
      simp only [decode, readString, increasing] at hres
      rw [readStringLoop_error b.length 0 b [] e (Nat.le_refl _) hres]
  · intro t ht
    have := readStringLoop_escape_append [] t ht []
    simp only [List.append_nil] at this
    simp [decode, readString, increasing, this, readStringLoop]
  · intro t c rest ht hc h1 hf
    simp [decode, readString, increasing, readStringLoop_escape_append _ t ht, readStringLoop,
      Nat.mod_eq_of_lt hc, h1, hf]
  · intro t c rest ht hc h0
    simp [decode, readString, increasing, readStringLoop_escape_append _ t ht, readStringLoop,
      Nat.mod_eq_of_lt hc, h0]

/-- C15 at the input `61 00 ff 00 01 07`, the encoding of `a 00` followed by `07`. -/
theorem string_decode_iff_witness :
    (∀ c ∈ [0x61, 0x00, 0xff, 0x00, 0x01, 0x07], c < 256) ∧
    ((∀ s, (decode readString [0x61, 0x00, 0xff, 0x00, 0x01, 0x07]).1 = Except.ok s ↔
      ∃ rest, [0x61, 0x00, 0xff, 0x00, 0x01, 0x07] = encode writeString s ++ rest) ∧
    ((¬ ∃ s rest, [0x61, 0x00, 0xff, 0x00, 0x01, 0x07] = encode writeString s ++ rest) →
      (decode readString [0x61, 0x00, 0xff, 0x00, 0x01, 0x07]).1 = Except.error Err.corrupt) ∧
    (∀ t, (∀ c ∈ t, c < 256) → (decode readString (escape t)).1 = Except.error Err.corrupt) ∧
    (∀ t c rest, (∀ x ∈ t, x < 256) → c < 256 → c ≠ 0x01 → c ≠ 0xff →
      (decode readString (escape t ++ 0x00 :: c :: rest)).1 = Except.error Err.corrupt) ∧
    (∀ t c rest, (∀ x ∈ t, x < 256) → c < 256 → c ≠ 0x00 →
      (decode readString (escape t ++ 0xff :: c :: rest)).1 = Except.error Err.corrupt)) :=
  ⟨by decide, string_decode_iff [0x61, 0x00, 0xff, 0x00, 0x01, 0x07] (by decide)⟩

/-! ## The descending direction -/

/-- Complementing the bytes reverses a decisive difference. -/
theorem invert_diffLt : ∀ x y : List Nat, (∀ b ∈ x, b < 256) → (∀ b ∈ y, b < 256) →
    diffLt x y → diffLt (invert y) (invert x)
  | [], _, _, _, h => by simp [diffLt] at h
  | _ :: _, [], _, _, h => by simp [diffLt] at h
  | a :: x, b :: y, hx, hy, h => by
    have ha : a < 256 := hx a (by simp)
    have hb : b < 256 := hy b (by simp)
    simp only [diffLt] at h
    simp only [invert, List.map_cons, diffLt, xor_255 a ha, xor_255 b hb]
    rcases h with h | ⟨h, h2⟩
    · exact Or.inl (by omega)
    · refine Or.inr ⟨by omega, ?_⟩
      exact invert_diffLt x y (fun c hc => hx c (by simp [hc])) (fun c hc => hy c (by simp [hc])) h2

/-- A smaller string that is not a prefix of the larger one differs from it decisively. -/
theorem lexLt_diffLt : ∀ x y : List Nat, lexLt x y → (¬ ∃ r, y = x ++ r) → diffLt x y
  | [], [], h, _ => by simp [lexLt] at h
  | [], b :: y, _, hp => absurd ⟨b :: y, rfl⟩ hp
  | _ :: _, [], h, _ => by simp [lexLt] at h
  | a :: x, b :: y, h, hp => by
    simp only [lexLt] at h
    simp only [diffLt]
    rcases h with h | ⟨h, h2⟩
    · exact Or.inl h
    · refine Or.inr ⟨h, lexLt_diffLt x y h2 ?_⟩
      rintro ⟨r, hr⟩
      exact hp ⟨r, by simp [h, hr]⟩

theorem invert_lt (x : List Nat) (hx : ∀ b ∈ x, b < 256) : ∀ b ∈ invert x, b < 256 := by
  intro b hb
  simp only [invert, List.mem_map] at hb
  obtain ⟨c, hc, rfl⟩ := hb
  rw [xor_255 c (hx c hc)]
  omega

theorem int64Form_lt (v : Int) : ∀ b ∈ int64Form v, b < 256 := by
  unfold int64Form
  split_ifs
  · exact bigEndian_lt _ _
  · exact invert_lt _ (bigEndian_lt _ _)

/-- The forms of two distinct int64 values are not prefixes of one another: the reader tells
them apart. -/
theorem int64Form_not_initial (a b : Int) (ha1 : -2 ^ 63 ≤ a) (ha2 : a < 2 ^ 63)
    (hb1 : -2 ^ 63 ≤ b) (hb2 : b < 2 ^ 63) (hab : a ≠ b) :
    ¬ ∃ r, int64Form b = int64Form a ++ r := by
  rintro ⟨r, hr⟩
  have h1 := readInt64_form a 0 r ha1 ha2
  have h2 := readInt64_form b 0 [] hb1 hb2
  simp only [map_xor_zero, List.append_nil] at h1 h2
  rw [← hr, h2] at h1
  exact hab (Except.ok.inj (Prod.mk.inj h1).1).symm

theorem int64Form_diffLt (a b : Int) (ha : -2 ^ 63 ≤ a) (hab : a < b) (hb : b < 2 ^ 63) :
    diffLt (int64Form a) (int64Form b) :=
  lexLt_diffLt _ _ (int64Form_lexLt a b ha hab hb)
    (int64Form_not_initial a b ha (by omega) (by omega) hb (by omega))

theorem uint64_diffLt (a b : Nat) (hab : a < b) (hb : b < 2 ^ 64) :
    diffLt (writeUint64 [] a) (writeUint64 [] b) ∧ (∀ c ∈ writeUint64 [] a, c < 256) ∧
      (∀ c ∈ writeUint64 [] b, c < 256) := by
  obtain ⟨n, hn, hlo, hhi⟩ := bytesNeeded_exists a (by omega)
  obtain ⟨m, hm, hlo2, hhi2⟩ := bytesNeeded_exists b hb
  have hnm : n ≤ m := bytesNeeded_minimal a n m hlo (by omega)
  rw [writeUint64_eq [] a n hn hlo hhi, writeUint64_eq [] b m hm hlo2 hhi2]
  refine ⟨?_, ?_, ?_⟩
  · simp only [List.nil_append, diffLt]
    rcases Nat.lt_or_eq_of_le hnm with h | h
    · exact Or.inl h
    · subst h
      refine Or.inr ⟨rfl, bigEndian_diffLt n a b ?_⟩
      rw [Nat.mod_eq_of_lt hhi, Nat.mod_eq_of_lt hhi2]
      exact hab
  · intro c hc
    simp only [List.nil_append, List.mem_cons] at hc
    rcases hc with hc | hc
    · omega
    · exact bigEndian_lt _ _ c hc
  · intro c hc
    simp only [List.nil_append, List.mem_cons] at hc
    rcases hc with hc | hc
    · omega
    · exact bigEndian_lt _ _ c hc

theorem escape_lt (s : List Nat) (hs : ∀ b ∈ s, b < 256) :
    ∀ b ∈ escape s ++ [0x00, 0x01], b < 256 := by
  induction s with
  | nil => intro b hb; simp [escape] at hb; omega
  | cons a s ih =>
    intro b hb
    have ha : a < 256 := hs a (by simp)
    have ih2 := ih (fun c hc => hs c (by simp [hc]))
    simp only [escape, List.append_assoc, List.mem_append] at hb
    rcases hb with hb | hb
    · split_ifs at hb <;> simp at hb <;> omega
    · exact ih2 b (by simpa using hb)

/-- C11: the descending direction reverses the order.  For uint64 values `a`, `b`, int64
values `x`, `y` and strings `s`, `t` of bytes: the smaller value has the greater descending
encoding in unsigned lexicographic byte order, and conversely; the descending encoding is the
bytewise complement (XOR `0xff`) of the ascending one. -/
theorem decr_order (a b : Nat) (x y : Int) (s t : List Nat) (ha : a < 2 ^ 64)
    (hb : b < 2 ^ 64) (hx1 : -2 ^ 63 ≤ x) (hx2 : x < 2 ^ 63) (hy1 : -2 ^ 63 ≤ y)
    (hy2 : y < 2 ^ 63) (hs : ∀ c ∈ s, c < 256) (ht : ∀ c ∈ t, c < 256) :
    (a < b ↔ lexLt (encode (writeDecr writeUint64) b) (encode (writeDecr writeUint64) a)) ∧
    (x < y ↔ lexLt (encode (writeDecr writeInt64) y) (encode (writeDecr writeInt64) x)) ∧
    (lexLt s t ↔ lexLt (encode (writeDecr writeString) t) (encode (writeDecr writeString) s)) ∧
    encode (writeDecr writeUint64) a = (encode writeUint64 a).map (fun c => c ^^^ 0xff) ∧
    encode (writeDecr writeInt64) x = (encode writeInt64 x).map (fun c => c ^^^ 0xff) ∧
    encode (writeDecr writeString) s = (encode writeString s).map (fun c => c ^^^ 0xff) := by
  have ku : ∀ p q : Nat, p < 2 ^ 64 → q < 2 ^ 64 → p < q →
      lexLt (encode (writeDecr writeUint64) q) (encode (writeDecr writeUint64) p) := by
    intro p q _ hq hpq
    obtain ⟨h1, h2, h3⟩ := uint64_diffLt p q hpq hq
    simp only [encode, writeDecr, List.nil_append]
    exact diffLt_lexLt _ _ (invert_diffLt _ _ h2 h3 h1)
  have ki : ∀ p q : Int, -2 ^ 63 ≤ p → p < 2 ^ 63 → -2 ^ 63 ≤ q → q < 2 ^ 63 → p < q →
      lexLt (encode (writeDecr writeInt64) q) (encode (writeDecr writeInt64) p) := by
    intro p q hp1 hp2 hq1 hq2 hpq
    simp only [encode, writeDecr, List.nil_append, writeInt64_eq [] p hp1 hp2,
      writeInt64_eq [] q hq1 hq2]
    exact diffLt_lexLt _ _ (invert_diffLt _ _ (int64Form_lt p) (int64Form_lt q)
      (int64Form_diffLt p q hp1 hpq hq2))
  have ks : ∀ p q : List Nat, (∀ c ∈ p, c < 256) → (∀ c ∈ q, c < 256) → lexLt p q →
      lexLt (encode (writeDecr writeString) q) (encode (writeDecr writeString) p) := by
    intro p q hp hq hpq
    simp only [encode, writeDecr, List.nil_append, writeString_eq]
    exact diffLt_lexLt _ _ (invert_diffLt _ _ (escape_lt p hp) (escape_lt q hq)
      (escape_diffLt p q hpq))
  refine ⟨⟨ku a b ha hb, ?_⟩, ⟨ki x y hx1 hx2 hy1 hy2, ?_⟩, ⟨ks s t hs ht, ?_⟩, ?_, ?_, ?_⟩
  · intro h
    rcases Nat.lt_trichotomy a b with h1 | h1 | h1
    · exact h1
    · subst h1; exact absurd h (lexLt_irrefl _)
    · exact absurd (ku b a hb ha h1) (lexLt_asymm _ _ h)
  · intro h
    rcases Int.lt_trichotomy x y with h1 | h1 | h1
    · exact h1
    · subst h1; exact absurd h (lexLt_irrefl _)
    · exact absurd (ki y x hy1 hy2 hx1 hx2 h1) (lexLt_asymm _ _ h)
  · intro h
    rcases lexLt_trichotomy s t with h1 | h1 | h1
    · exact h1
    · subst h1; exact absurd h (lexLt_irrefl _)
    · exact absurd (ks t s ht hs h1) (lexLt_asymm _ _ h)
  · simp [encode, writeDecr, invert]
  · simp [encode, writeDecr, invert]
  · simp [encode, writeDecr, invert]

/-- C11 at the uint64 values 255 and 256, the int64 values -65 and 64 and the strings `a`
and `a 00`. -/
theorem decr_order_witness :
    ((255 : Nat) < 2 ^ 64 ∧ (256 : Nat) < 2 ^ 64 ∧ (-2 ^ 63 : Int) ≤ -65 ∧ (-65 : Int) < 2 ^ 63 ∧
      (-2 ^ 63 : Int) ≤ 64 ∧ (64 : Int) < 2 ^ 63 ∧ (∀ c ∈ [0x61], c < 256) ∧
      (∀ c ∈ [0x61, 0x00], c < 256)) ∧
    ((255 < 256 ↔
      lexLt (encode (writeDecr writeUint64) 256) (encode (writeDecr writeUint64) 255)) ∧
    ((-65 : Int) < 64 ↔
      lexLt (encode (writeDecr writeInt64) 64) (encode (writeDecr writeInt64) (-65))) ∧
    (lexLt [0x61] [0x61, 0x00] ↔
      lexLt (encode (writeDecr writeString) [0x61, 0x00]) (encode (writeDecr writeString) [0x61])) ∧
    encode (writeDecr writeUint64) 255 = (encode writeUint64 255).map (fun c => c ^^^ 0xff) ∧
    encode (writeDecr writeInt64) (-65) = (encode writeInt64 (-65)).map (fun c => c ^^^ 0xff) ∧
    encode (writeDecr writeString) [0x61] = (encode writeString [0x61]).map (fun c => c ^^^ 0xff)) :=
  ⟨⟨by norm_num, by norm_num, by norm_num, by norm_num, by norm_num, by norm_num, by decide,
    by decide⟩,
   decr_order 255 256 (-65) 64 [0x61] [0x61, 0x00] (by norm_num) (by norm_num) (by norm_num)
    (by norm_num) (by norm_num) (by norm_num) (by decide) (by decide)⟩

/-! ## Doubles -/

theorem toInt64_range (b : Nat) : -2 ^ 63 ≤ toInt64 b ∧ toInt64 b < 2 ^ 63 := by
  unfold toInt64
  split_ifs <;> omega

theorem ofInt64_toInt64 (b : Nat) (hb : b < 2 ^ 64) : ofInt64 (toInt64 b) = b := by
  unfold ofInt64 toInt64
  rw [Nat.mod_eq_of_lt hb]
  split_ifs <;> omega

theorem readInt64_writeInt64 (v : Int) (h1 : -2 ^ 63 ≤ v) (h2 : v < 2 ^ 63) :
    (readInt64 { rem := writeInt64 [] v, dir := 0 }).1 = Except.ok v ∧
    (readInt64 { rem := writeInt64 [] v, dir := 0 }).2.rem = [] := by
  have h := readInt64_form v 0 [] h1 h2
  simp only [map_xor_zero, List.append_nil] at h
  rw [writeInt64_eq [] v h1 h2, List.nil_append, h]
  simp

/-- C16 as stated fails at the pattern `0x8000000000000000` of `-0.0`: it is not a NaN, the
writer maps its `int64` value `INT64_MIN` to `INT64_MIN - INT64_MIN = 0` and emits the byte
`80`, and the reader returns the pattern `0` of `+0.0`. -/
theorem double_negative_zero :
    isnan (2 ^ 63) = false ∧
    writeDouble [] (2 ^ 63) = Except.ok [0x80] ∧
    decode readDouble [0x80] = (Except.ok 0, { rem := [], dir := increasing }) ∧
    (0 : Nat) ≠ 2 ^ 63 := by
  refine ⟨by decide, rfl, rfl, by norm_num⟩

/-- C16, amended: for every 64-bit pattern `b`: if `b` is a NaN the writer raises an error;
otherwise the writer reinterprets `b` as an int64 `i`, remaps a negative `i` to
`INT64_MIN - i` and emits the int64 encoding of the result, and decoding that encoding
returns the pattern `b` itself, except for the pattern `0x8000000000000000` of `-0.0`, which
comes back as the pattern `0` of `+0.0`. -/
theorem double_roundtrip (b : Nat) (hb : b < 2 ^ 64) :
    (isnan b = true → writeDouble [] b = Except.error Err.nan) ∧
    (isnan b = false →
      writeDouble [] b = Except.ok (encode writeInt64
        (if toInt64 b < 0 then -2 ^ 63 - toInt64 b else toInt64 b)) ∧
      ∀ enc, writeDouble [] b = Except.ok enc →
        (decode readDouble enc).1 = Except.ok (if b = 2 ^ 63 then 0 else b)) := by
  constructor
  · intro h
    simp [writeDouble, h]
  · intro h
    have hw : writeDouble [] b = Except.ok (encode writeInt64
        (if toInt64 b < 0 then -2 ^ 63 - toInt64 b else toInt64 b)) := by
      simp [writeDouble, h, encode]
    refine ⟨hw, ?_⟩
    intro enc henc
    rw [hw] at henc
    have henc2 := (Except.ok.inj henc).symm
    subst henc2
    obtain ⟨hr1, hr2⟩ := toInt64_range b
    have hrt := ofInt64_toInt64 b hb
    by_cases hneg : toInt64 b < 0
    · have hi1 : -2 ^ 63 ≤ -2 ^ 63 - toInt64 b := by omega
      have hi2 : -2 ^ 63 - toInt64 b < 2 ^ 63 := by omega
      obtain ⟨hd, _⟩ := readInt64_writeInt64 _ hi1 hi2
      by_cases hz : b = 2 ^ 63
      · subst hz
        rfl
      · have hne : toInt64 b ≠ -2 ^ 63 := by
          intro he
          rw [he] at hrt
          exact hz (by rw [← hrt]; rfl)
        simp only [decode, readDouble, increasing, encode, if_pos hneg, if_neg hz]
        cases hres : readInt64 { rem := writeInt64 [] (-2 ^ 63 - toInt64 b), dir := 0 } with
        | mk r ds =>
          rw [hres] at hd
          simp only at hd
          subst hd
          have e1 : (if -2 ^ 63 - toInt64 b < 0 then -2 ^ 63 - (-2 ^ 63 - toInt64 b)
              else -2 ^ 63 - toInt64 b) = toInt64 b := by
            rw [if_pos (by omega)]; omega
          simp only [Res.andThen, e1, hrt, h]
          simp
    · obtain ⟨hd, _⟩ := readInt64_writeInt64 _ hr1 hr2
      have hz : b ≠ 2 ^ 63 := by
        intro he
        subst he
        exact hneg (by decide)
      simp only [decode, readDouble, increasing, encode, if_neg hneg, if_neg hz]
      cases hres : readInt64 { rem := writeInt64 [] (toInt64 b), dir := 0 } with
      | mk r ds =>
        rw [hres] at hd
        simp only at hd
        subst hd
        simp only [Res.andThen, if_neg hneg, hrt, h]
        simp

/-- C16, amended, at the pattern `0xbff0000000000000` of `-1.0`. -/
theorem double_roundtrip_witness :
    (0xbff0000000000000 : Nat) < 2 ^ 64 ∧
    ((isnan 0xbff0000000000000 = true → writeDouble [] 0xbff0000000000000 = Except.error Err.nan) ∧
    (isnan 0xbff0000000000000 = false →
      writeDouble [] 0xbff0000000000000 = Except.ok (encode writeInt64
        (if toInt64 0xbff0000000000000 < 0 then -2 ^ 63 - toInt64 0xbff0000000000000
          else toInt64 0xbff0000000000000)) ∧
      ∀ enc, writeDouble [] 0xbff0000000000000 = Except.ok enc →
        (decode readDouble enc).1
          = Except.ok (if 0xbff0000000000000 = 2 ^ 63 then 0 else 0xbff0000000000000))) :=
  ⟨by norm_num, double_roundtrip 0xbff0000000000000 (by norm_num)⟩

end noir.codec.orderedcode

namespace noir.tx_pool

/-! ## The unapplied-tx queue: add_tx -/

theorem find_none_iff (q : unapplied_tx_queue) (id : Nat) :
    q.find id = none ↔ ∀ e ∈ q.queue_, e.id ≠ id := by
  simp [unapplied_tx_queue.find, List.find?_eq_none]

theorem find_some (q : unapplied_tx_queue) (id : Nat) (e : tx) (h : q.find id = some e) :
    e ∈ q.queue_ ∧ e.id = id := by
  unfold unapplied_tx_queue.find at h
  exact ⟨List.mem_of_find?_eq_some h, by simpa using List.find?_some h⟩

theorem has_eq_false_iff (q : unapplied_tx_queue) (id : Nat) :
    q.has id = false ↔ q.find id = none := by
  unfold unapplied_tx_queue.has
  cases q.find id <;> simp

theorem has_eq_true_iff (q : unapplied_tx_queue) (id : Nat) :
    q.has id = true ↔ ∃ e, q.find id = some e := by
  unfold unapplied_tx_queue.has
  cases q.find id <;> simp

theorem insert_ok_iff (c : List tx) (t : tx) :
    (insert c t).2 = true ↔
      ∀ e ∈ c, e.id ≠ t.id ∧ ¬ (e.sender = t.sender ∧ e.nonce = t.nonce) := by
  unfold insert
  split_ifs with h
  · simp only [Bool.false_eq_true, false_iff]
    simp only [List.any_eq_true, Bool.or_eq_true, decide_eq_true_eq] at h
    obtain ⟨e, he, hc⟩ := h
    intro hall
    rcases hc with hc | hc
    · exact (hall e he).1 hc
    · exact (hall e he).2 hc
  · simp only [true_iff]
    simp only [List.any_eq_true, Bool.or_eq_true, decide_eq_true_eq, not_exists, not_and,
      not_or] at h
    intro e he
    exact ⟨(h e he).1, fun hc => (h e he).2 hc.1 hc.2⟩

theorem insert_ok (c : List tx) (t : tx) (h : (insert c t).2 = true) : (insert c t).1 = t :: c := by
  unfold insert at h ⊢
  split_ifs at h ⊢ with hc
  rfl

theorem insert_fail (c : List tx) (t : tx) (h : (insert c t).2 = false) : (insert c t).1 = c := by
  unfold insert at h ⊢
  split_ifs at h ⊢ with hc
  rfl

/-- What `add_tx` does when it accepts: the three conditions hold and the new state is the
old one with the tx in front and the counters advanced. -/
theorem add_tx_true (sz : Nat) (q : unapplied_tx_queue) (t : tx) (h : (q.add_tx sz t).1 = true) :
    q.find t.id = none ∧
    (q.size_in_bytes_ + bytes_size sz t) % 2 ^ 64 ≤ q.max_tx_queue_bytes_size_ ∧
    (∀ e ∈ q.queue_, e.id ≠ t.id ∧ ¬ (e.sender = t.sender ∧ e.nonce = t.nonce)) ∧
    (q.add_tx sz t).2 = { q with queue_ := t :: q.queue_,
                                 size_in_bytes_ := (q.size_in_bytes_ + bytes_size sz t) % 2 ^ 64,
                                 incoming_count_ := (q.incoming_count_ + 1) % 2 ^ 64 } := by
  unfold unapplied_tx_queue.add_tx at h ⊢
  cases hf : q.find t.id with
  | some e => simp [hf] at h
  | none =>
    simp only [hf] at h ⊢
    by_cases hb : (q.size_in_bytes_ + bytes_size sz t) % 2 ^ 64 > q.max_tx_queue_bytes_size_
    · rw [if_pos hb] at h
      simp at h
    · rw [if_neg hb] at h ⊢
      by_cases hi : (insert q.queue_ t).2 = true
      · rw [if_pos hi]
        refine ⟨trivial, by omega, (insert_ok_iff _ _).1 hi, ?_⟩
        rw [insert_ok _ _ hi]
      · rw [if_neg hi] at h
        simp at h

/-- What `add_tx` does when it refuses: the state is unchanged. -/
theorem add_tx_false (sz : Nat) (q : unapplied_tx_queue) (t : tx) (h : (q.add_tx sz t).1 = false) :
    (q.add_tx sz t).2 = q := by
  unfold unapplied_tx_queue.add_tx at h ⊢
  cases hf : q.find t.id with
  | some e => rfl
  | none =>
    simp only [hf] at h ⊢
    by_cases hb : (q.size_in_bytes_ + bytes_size sz t) % 2 ^ 64 > q.max_tx_queue_bytes_size_
    · rw [if_pos hb]
    · rw [if_neg hb] at h ⊢
      by_cases hi : (insert q.queue_ t).2 = true
      · rw [if_pos hi] at h
        simp at h
      · have hi2 : (insert q.queue_ t).2 = false := by simpa using hi
        rw [if_neg hi, insert_fail _ _ hi2]

theorem add_tx_accepts (sz : Nat) (q : unapplied_tx_queue) (t : tx) (h1 : q.find t.id = none)
    (h2 : (q.size_in_bytes_ + bytes_size sz t) % 2 ^ 64 ≤ q.max_tx_queue_bytes_size_)
    (h3 : ∀ e ∈ q.queue_, ¬ (e.sender = t.sender ∧ e.nonce = t.nonce)) :
    (q.add_tx sz t).1 = true := by
  have hi : (insert q.queue_ t).2 = true :=
    (insert_ok_iff _ _).2 fun e he => ⟨(find_none_iff q t.id).1 h1 e he, h3 e he⟩
  unfold unapplied_tx_queue.add_tx
  simp only [h1]
  rw [if_neg (show ¬ (q.size_in_bytes_ + bytes_size sz t) % 2 ^ 64 > q.max_tx_queue_bytes_size_
    from by omega), if_pos hi]

/-- C17 as stated fails: on the queue holding the tx `(id 1, sender 7, nonce 0)`, the tx
`(id 2, sender 7, nonce 0)` has an id that is not in the queue and fits the budget, yet
`add_tx` returns false: the unique index on `(sender, nonce)` refuses it. -/
theorem add_tx_rejects_same_nonce :
    (((unapplied_tx_queue.new 1024).add_tx 16
        { id := 1, sender := 7, nonce := 0, gas := 0, height := 0, size := 10 }).2.has 2 = false ∧
      ((unapplied_tx_queue.new 1024).add_tx 16
        { id := 1, sender := 7, nonce := 0, gas := 0, height := 0, size := 10 }).2.size_in_bytes_
        + bytes_size 16 { id := 2, sender := 7, nonce := 0, gas := 0, height := 0, size := 10 }
        ≤ 1024) ∧
    (((unapplied_tx_queue.new 1024).add_tx 16
        { id := 1, sender := 7, nonce := 0, gas := 0, height := 0, size := 10 }).2.add_tx 16
        { id := 2, sender := 7, nonce := 0, gas := 0, height := 0, size := 10 }).1 = false := by
  decide

/-- C17, amended: for every queue state and every tx (whose byte size added to the byte
counter stays below `2^64`), `add_tx` returns true if and only if the tx id is not already in
the queue, `size_in_bytes` plus the tx's byte size does not exceed the byte budget, and no
entry of the queue has the same `(sender, nonce)` pair; when it returns true the tx is present
afterwards (`has(id)` holds and `get_tx(id)` returns it), and when it returns false the
entries, `size_in_bytes` and `incoming_count` are all unchanged. -/
theorem add_tx_iff (sz : Nat) (q : unapplied_tx_queue) (t : tx)
    (hfit : q.size_in_bytes_ + sz + t.size < 2 ^ 64) :
    ((q.add_tx sz t).1 = true ↔
      (q.has t.id = false ∧
        q.size_in_bytes_ + bytes_size sz t ≤ q.max_tx_queue_bytes_size_ ∧
        ∀ e ∈ q.queue_, ¬ (e.sender = t.sender ∧ e.nonce = t.nonce))) ∧
    ((q.add_tx sz t).1 = true →
      (q.add_tx sz t).2.has t.id = true ∧ (q.add_tx sz t).2.get_tx t.id = some t) ∧
    ((q.add_tx sz t).1 = false → (q.add_tx sz t).2 = q) := by
  have hb : bytes_size sz t = sz + t.size := by
    unfold bytes_size; exact Nat.mod_eq_of_lt (by omega)
  have hmod : (q.size_in_bytes_ + bytes_size sz t) % 2 ^ 64 = q.size_in_bytes_ + bytes_size sz t :=
    Nat.mod_eq_of_lt (by omega)
  refine ⟨⟨?_, ?_⟩, ?_, add_tx_false sz q t⟩
  · intro h
    obtain ⟨h1, h2, h3, _⟩ := add_tx_true sz q t h
    exact ⟨(has_eq_false_iff q t.id).2 h1, by omega, fun e he => (h3 e he).2⟩
  · rintro ⟨h1, h2, h3⟩
    exact add_tx_accepts sz q t ((has_eq_false_iff q t.id).1 h1) (by omega) h3
  · intro h
    obtain ⟨_, _, _, h4⟩ := add_tx_true sz q t h
    rw [h4]
    simp [unapplied_tx_queue.has, unapplied_tx_queue.get_tx, unapplied_tx_queue.find]

/-- C17, amended, at the empty queue of budget 1024 and a tx of 10 bytes, with
`sizeof(unapplied_tx) = 16`. -/
theorem add_tx_iff_witness :
    (unapplied_tx_queue.new 1024).size_in_bytes_ + 16
      + (tx.mk 1 7 0 0 0 10).size < 2 ^ 64 ∧
    ((((unapplied_tx_queue.new 1024).add_tx 16 (tx.mk 1 7 0 0 0 10)).1 = true ↔
      ((unapplied_tx_queue.new 1024).has (tx.mk 1 7 0 0 0 10).id = false ∧
        (unapplied_tx_queue.new 1024).size_in_bytes_ + bytes_size 16 (tx.mk 1 7 0 0 0 10)
          ≤ (unapplied_tx_queue.new 1024).max_tx_queue_bytes_size_ ∧
        ∀ e ∈ (unapplied_tx_queue.new 1024).queue_,
          ¬ (e.sender = (tx.mk 1 7 0 0 0 10).sender ∧ e.nonce = (tx.mk 1 7 0 0 0 10).nonce))) ∧
    (((unapplied_tx_queue.new 1024).add_tx 16 (tx.mk 1 7 0 0 0 10)).1 = true →
      ((unapplied_tx_queue.new 1024).add_tx 16 (tx.mk 1 7 0 0 0 10)).2.has
          (tx.mk 1 7 0 0 0 10).id = true ∧
        ((unapplied_tx_queue.new 1024).add_tx 16 (tx.mk 1 7 0 0 0 10)).2.get_tx
          (tx.mk 1 7 0 0 0 10).id = some (tx.mk 1 7 0 0 0 10)) ∧
    (((unapplied_tx_queue.new 1024).add_tx 16 (tx.mk 1 7 0 0 0 10)).1 = false →
      ((unapplied_tx_queue.new 1024).add_tx 16 (tx.mk 1 7 0 0 0 10)).2
        = unapplied_tx_queue.new 1024)) :=
  ⟨by decide, add_tx_iff 16 (unapplied_tx_queue.new 1024) (tx.mk 1 7 0 0 0 10) (by decide)⟩

/-! ## The unapplied-tx queue: the accounting -/

/-- Removing the element a lookup found: it was in the list, and the sum of any measure and
the length fall by that element's share. -/
theorem find_eraseP (f : tx → Nat) (p : tx → Bool) : ∀ (l : List tx) (e : tx),
    l.find? p = some e →
    (l.map f).sum = f e + ((l.eraseP p).map f).sum ∧ l.length = (l.eraseP p).length + 1
  | [], e, h => by simp at h
  | a :: l, e, h => by
    by_cases hp : p a = true
    · simp only [List.find?_cons, hp] at h
      have := Option.some.inj h
      subst this
      simp [List.eraseP_cons, hp]
    · have hp2 : p a = false := by simpa using hp
      simp only [List.find?_cons, hp2] at h
      obtain ⟨h1, h2⟩ := find_eraseP f p l e h
      simp only [List.eraseP_cons, hp2, List.map_cons, List.sum_cons, List.length_cons, h1, h2]
      constructor
      · simp; omega
      · simp

theorem length_le_sum (f : tx → Nat) : ∀ l : List tx, (∀ e ∈ l, 0 < f e) →
    l.length ≤ (l.map f).sum
  | [], _ => by simp
  | a :: l, h => by
    have h1 := h a (by simp)
    have h2 := length_le_sum f l (fun e he => h e (by simp [he]))
    simp only [List.length_cons, List.map_cons, List.sum_cons]
    omega

/-- What `erase` does when the id is in the queue. -/
theorem erase_some (sz : Nat) (q : unapplied_tx_queue) (id : Nat) (e : tx)
    (h : q.find id = some e) :
    q.erase sz id = (true,
      { q with incoming_count_ := (q.incoming_count_ + 2 ^ 64 - 1) % 2 ^ 64,
               size_in_bytes_ := (q.size_in_bytes_ + 2 ^ 64 - bytes_size sz e) % 2 ^ 64,
               queue_ := q.queue_.eraseP fun x => decide (x.id = id) }) := by
  unfold unapplied_tx_queue.erase
  simp only [h]

theorem erase_none (sz : Nat) (q : unapplied_tx_queue) (id : Nat) (h : q.find id = none) :
    q.erase sz id = (false, q) := by
  unfold unapplied_tx_queue.erase
  simp only [h]

theorem bytes_size_lt (sz : Nat) (t : tx) : bytes_size sz t < 2 ^ 64 :=
  Nat.mod_lt _ (by norm_num)

theorem Inv.count_lt {sz : Nat} {q : unapplied_tx_queue} (h : Inv sz q) :
    q.incoming_count_ ≤ q.size_in_bytes_ ∧ q.size_in_bytes_ < 2 ^ 64 := by
  obtain ⟨h1, h2, h3, h4, h5, _, _⟩ := h
  have := length_le_sum (bytes_size sz) q.queue_ h5
  omega

/-- The accounting survives `add_tx` of a tx whose byte size added to the budget stays below
`2^64`. -/
theorem Inv.add_tx {sz : Nat} {q : unapplied_tx_queue} (h : Inv sz q) (t : tx) (hsz : 0 < sz)
    (hfit : q.max_tx_queue_bytes_size_ + sz + t.size < 2 ^ 64) : Inv sz (q.add_tx sz t).2 := by
  cases hr : (q.add_tx sz t).1 with
  | false => rw [add_tx_false sz q t hr]; exact h
  | true =>
    obtain ⟨a1, a2, a3, a4⟩ := add_tx_true sz q t hr
    have hc := h.count_lt
    obtain ⟨h1, h2, h3, h4, h5, h6, h7⟩ := h
    have hb : bytes_size sz t = sz + t.size := by
      unfold bytes_size; exact Nat.mod_eq_of_lt (by omega)
    have hmod : (q.size_in_bytes_ + bytes_size sz t) % 2 ^ 64
        = q.size_in_bytes_ + bytes_size sz t := Nat.mod_eq_of_lt (by omega)
    rw [a4]
    refine ⟨?_, ?_, ?_, h4, ?_, ?_, ?_⟩
    · simp only [List.map_cons, List.sum_cons, hmod]
      omega
    · simp only [List.length_cons]
      rw [Nat.mod_eq_of_lt (by omega)]
      omega
    · simp only [hmod] at a2 ⊢
      exact a2
    · intro e he
      simp only [List.mem_cons] at he
      rcases he with he | he
      · subst he; omega
      · exact h5 e he
    · simp only [List.map_cons, List.nodup_cons]
      refine ⟨?_, h6⟩
      simp only [List.mem_map, not_exists, not_and]
      intro e he
      exact (a3 e he).1
    · simp only [List.map_cons, List.nodup_cons]
      refine ⟨?_, h7⟩
      simp only [List.mem_map, not_exists, not_and, Prod.mk.injEq]
      intro e he hc2 hc3
      exact (a3 e he).2 ⟨hc2, hc3⟩

/-- The accounting survives `erase`. -/
theorem Inv.erase {sz : Nat} {q : unapplied_tx_queue} (h : Inv sz q) (id : Nat) :
    Inv sz (q.erase sz id).2 := by
  cases hf : q.find id with
  | none => rw [erase_none sz q id hf]; exact h
  | some e =>
    have hc := h.count_lt
    obtain ⟨h1, h2, h3, h4, h5, h6, h7⟩ := h
    obtain ⟨s1, s2⟩ := find_eraseP (bytes_size sz) (fun x => decide (x.id = id)) q.queue_ e hf
    have hsub : (q.queue_.eraseP fun x => decide (x.id = id)).Sublist q.queue_ :=
      List.eraseP_sublist _
    have hbl := bytes_size_lt sz e
    rw [erase_some sz q id e hf]
    refine ⟨?_, ?_, ?_, h4, ?_, ?_, ?_⟩
    · dsimp only
      omega
    · dsimp only
      omega
    · dsimp only
      omega
    · intro x hx
      exact h5 x (hsub.subset hx)
    · exact h6.sublist (hsub.map _)
    · exact h7.sublist (hsub.map _)

theorem Inv.init (sz max : Nat) (hmax : max < 2 ^ 64) : Inv sz (unapplied_tx_queue.new max) := by
  refine ⟨rfl, rfl, Nat.zero_le _, hmax, ?_, ?_, ?_⟩ <;> simp [unapplied_tx_queue.new]

theorem Inv.clear {sz : Nat} {q : unapplied_tx_queue} (h : Inv sz q) : Inv sz q.clear := by
  obtain ⟨_, _, _, h4, _, _, _⟩ := h
  refine ⟨rfl, rfl, Nat.zero_le _, h4, ?_, ?_, ?_⟩ <;> simp [unapplied_tx_queue.clear]

theorem add_tx_max (sz : Nat) (q : unapplied_tx_queue) (t : tx) :
    (q.add_tx sz t).2.max_tx_queue_bytes_size_ = q.max_tx_queue_bytes_size_ := by
  cases hr : (q.add_tx sz t).1 with
  | false => rw [add_tx_false sz q t hr]
  | true => rw [(add_tx_true sz q t hr).2.2.2]

theorem erase_max (sz : Nat) (q : unapplied_tx_queue) (id : Nat) :
    (q.erase sz id).2.max_tx_queue_bytes_size_ = q.max_tx_queue_bytes_size_ := by
  cases hf : q.find id with
  | none => rw [erase_none sz q id hf]
  | some e => rw [erase_some sz q id e hf]

/-- Every reachable state keeps the accounting and the budget it was built with. -/
theorem Reachable.inv {sz max : Nat} {q : unapplied_tx_queue} (h : Reachable sz max q)
    (hsz : 0 < sz) (hmax : max < 2 ^ 64) : Inv sz q ∧ q.max_tx_queue_bytes_size_ = max := by
  induction h with
  | init => exact ⟨Inv.init sz max hmax, rfl⟩
  | add q t _ hfit ih =>
    exact ⟨ih.1.add_tx t hsz (by rw [ih.2]; exact hfit), by rw [add_tx_max, ih.2]⟩
  | erase q id _ ih => exact ⟨ih.1.erase id, by rw [erase_max, ih.2]⟩
  | clear q _ ih => exact ⟨ih.1.clear, ih.2⟩

/-- C18: in every state reachable from an empty queue of budget `max` by `add_tx`, `erase`
and `clear` (the txs added being such that budget plus byte size stays below `2^64`),
`size_in_bytes` is the sum of `bytes_size` over the entries in the queue, `incoming_count` is
the number of entries, and `size_in_bytes` does not exceed the budget. -/
theorem reachable_counters (sz max : Nat) (q : unapplied_tx_queue) (h : Reachable sz max q)
    (hsz : 0 < sz) (hmax : max < 2 ^ 64) :
    q.size_in_bytes_ = (q.queue_.map (bytes_size sz)).sum ∧
    q.incoming_count_ = q.queue_.length ∧
    q.size_in_bytes_ ≤ max := by
  obtain ⟨⟨h1, h2, h3, _⟩, hm⟩ := h.inv hsz hmax
  exact ⟨h1, h2, by rw [← hm]; exact h3⟩

/-- C18 at the state reached by adding a 10-byte tx to an empty queue of budget 1024, with
`sizeof(unapplied_tx) = 16`. -/
theorem reachable_counters_witness :
    (Reachable 16 1024 ((unapplied_tx_queue.new 1024).add_tx 16 (tx.mk 1 7 0 0 0 10)).2 ∧
      0 < 16 ∧ 1024 < 2 ^ 64) ∧
    (((unapplied_tx_queue.new 1024).add_tx 16 (tx.mk 1 7 0 0 0 10)).2.size_in_bytes_
      = ((((unapplied_tx_queue.new 1024).add_tx 16 (tx.mk 1 7 0 0 0 10)).2.queue_).map
          (bytes_size 16)).sum ∧
    ((unapplied_tx_queue.new 1024).add_tx 16 (tx.mk 1 7 0 0 0 10)).2.incoming_count_
      = (((unapplied_tx_queue.new 1024).add_tx 16 (tx.mk 1 7 0 0 0 10)).2.queue_).length ∧
    ((unapplied_tx_queue.new 1024).add_tx 16 (tx.mk 1 7 0 0 0 10)).2.size_in_bytes_ ≤ 1024) :=
  ⟨⟨Reachable.add _ _ Reachable.init (by decide), by decide, by decide⟩,
   reachable_counters 16 1024 _ (Reachable.add _ _ Reachable.init (by decide)) (by decide)
    (by decide)⟩

/-! ## The unapplied-tx queue: erase and the overflow scenario -/

theorem mem_eraseP_of_ne (id : Nat) : ∀ (l : List tx) (e : tx), e ∈ l → e.id ≠ id →
    e ∈ l.eraseP fun x => decide (x.id = id)
  | [], e, h, _ => by simp at h
  | a :: l, e, h, hne => by
    by_cases ha : a.id = id
    · simp only [List.eraseP_cons, ha, decide_True, cond_true]
      simp only [List.mem_cons] at h
      rcases h with h | h
      · subst h; exact absurd ha hne
      · exact h
    · simp only [List.eraseP_cons, ha, decide_False, cond_false, List.mem_cons]
      simp only [List.mem_cons] at h
      rcases h with h | h
      · exact Or.inl h
      · exact Or.inr (mem_eraseP_of_ne id l e h hne)

theorem not_mem_eraseP_ids (id : Nat) : ∀ (l : List tx), (l.map fun e => e.id).Nodup →
    id ∈ (l.map fun e => e.id) → ∀ e ∈ l.eraseP fun x => decide (x.id = id), e.id ≠ id
  | [], _, h, _, _ => by simp at h
  | a :: l, hnd, hmem, e, he => by
    simp only [List.map_cons, List.nodup_cons] at hnd
    by_cases ha : a.id = id
    · simp only [List.eraseP_cons, ha, decide_True, cond_true] at he
      intro heq
      apply hnd.1
      rw [ha, ← heq]
      exact List.mem_map_of_mem _ he
    · simp only [List.eraseP_cons, ha, decide_False, cond_false, List.mem_cons] at he
      simp only [List.map_cons, List.mem_cons] at hmem
      rcases he with he | he
      · subst he; exact ha
      · rcases hmem with hmem | hmem
        · exact absurd hmem.symm ha
        · exact not_mem_eraseP_ids id l hnd.2 hmem e he

/-- C20: for every queue state that keeps the accounting, and every id, `erase(id)` returns
true if and only if `has(id)` held before the call; after a true result `has(id)` is false,
every other entry is still present and no entry is new, `size_in_bytes` has fallen by exactly
the byte size of the entry with that id and `incoming_count` by one; after a false result the
state is unchanged; and a successful `add_tx(tx)` followed by `erase(tx.id)` gives back the
state before the `add_tx`, entries and counters. -/
theorem erase_spec (sz : Nat) (q : unapplied_tx_queue) (id : Nat) (hinv : Inv sz q) :
    ((q.erase sz id).1 = true ↔ q.has id = true) ∧
    ((q.erase sz id).1 = true →
      (q.erase sz id).2.has id = false ∧
      (∀ e ∈ q.queue_, e.id ≠ id → e ∈ (q.erase sz id).2.queue_) ∧
      (∀ e ∈ (q.erase sz id).2.queue_, e ∈ q.queue_) ∧
      ∃ e, q.get_tx id = some e ∧
        (q.erase sz id).2.size_in_bytes_ + bytes_size sz e = q.size_in_bytes_ ∧
        (q.erase sz id).2.incoming_count_ + 1 = q.incoming_count_) ∧
    ((q.erase sz id).1 = false → (q.erase sz id).2 = q) ∧
    (∀ t, (q.add_tx sz t).1 = true → ((q.add_tx sz t).2.erase sz t.id).2 = q) := by
  have hc := hinv.count_lt
  obtain ⟨h1, h2, h3, h4, h5, h6, h7⟩ := hinv
  refine ⟨?_, ?_, ?_, ?_⟩
  · cases hf : q.find id with
    | none => simp [erase_none sz q id hf, unapplied_tx_queue.has, hf]
    | some e => simp [erase_some sz q id e hf, unapplied_tx_queue.has, hf]
  · intro hr
    cases hf : q.find id with
    | none => simp [erase_none sz q id hf] at hr
    | some e =>
      obtain ⟨hmem, hid⟩ := find_some q id e hf
      obtain ⟨s1, s2⟩ := find_eraseP (bytes_size sz) (fun x => decide (x.id = id)) q.queue_ e hf
      have hbl := bytes_size_lt sz e
      rw [erase_some sz q id e hf]
      refine ⟨?_, ?_, ?_, e, ?_, ?_, ?_⟩
      · rw [has_eq_false_iff, find_none_iff]
        exact not_mem_eraseP_ids id q.queue_ h6
          (List.mem_map.2 ⟨e, hmem, hid⟩)
      · intro x hx hne
        exact mem_eraseP_of_ne id q.queue_ x hx hne
      · intro x hx
        exact (List.eraseP_sublist _).subset hx
      · simp [unapplied_tx_queue.get_tx, hf]
      · dsimp only
        omega
      · dsimp only
        omega
  · intro hr
    cases hf : q.find id with
    | none => rw [erase_none sz q id hf]
    | some e => simp [erase_some sz q id e hf] at hr
  · intro t hr
    obtain ⟨_, _, _, a4⟩ := add_tx_true sz q t hr
    have hbl := bytes_size_lt sz t
    have hfind : (q.add_tx sz t).2.find t.id = some t := by
      rw [a4]; simp [unapplied_tx_queue.find]
    rw [erase_some sz _ t.id t hfind, a4]
    have e1 : ((q.incoming_count_ + 1) % 2 ^ 64 + 2 ^ 64 - 1) % 2 ^ 64 = q.incoming_count_ := by
      omega
    have e2 : ((q.size_in_bytes_ + bytes_size sz t) % 2 ^ 64 + 2 ^ 64 - bytes_size sz t) % 2 ^ 64
        = q.size_in_bytes_ := by omega
    dsimp only
    rw [e1, e2]
    simp [List.eraseP_cons]

/-- C20 at the queue holding one 10-byte tx with id 1, and the id 1. -/
theorem erase_spec_witness :
    Inv 16 ((unapplied_tx_queue.new 1024).add_tx 16 (tx.mk 1 7 0 0 0 10)).2 ∧
    (((unapplied_tx_queue.new 1024).add_tx 16 (tx.mk 1 7 0 0 0 10)).2.erase 16 1).1 = true ∧
    (((unapplied_tx_queue.new 1024).add_tx 16 (tx.mk 1 7 0 0 0 10)).2.erase 16 1).2.has 1
      = false :=
  have hinv : Inv 16 ((unapplied_tx_queue.new 1024).add_tx 16 (tx.mk 1 7 0 0 0 10)).2 :=
    (Inv.init 16 1024 (by decide)).add_tx _ (by decide) (by decide)
  have hs := erase_spec 16 ((unapplied_tx_queue.new 1024).add_tx 16 (tx.mk 1 7 0 0 0 10)).2 1 hinv
  ⟨hinv, hs.1.2 (by decide), (hs.2.1 (hs.1.2 (by decide))).1⟩

/-- C19 as stated fails: with `sizeof(unapplied_tx) = 16` (one `shared_ptr` on a 64-bit
platform), after the first 700-byte tx is accepted and the second one rejected,
`size_in_bytes` is 716, not 700: `bytes_size` counts the entry's own size as well. -/
theorem overflow_scenario_size_716 :
    ((unapplied_tx_queue.new 1024).add_tx 16 (tx.mk 1 7 0 0 0 700)).1 = true ∧
    (((unapplied_tx_queue.new 1024).add_tx 16 (tx.mk 1 7 0 0 0 700)).2.add_tx 16
      (tx.mk 2 8 0 0 0 700)).1 = false ∧
    (((unapplied_tx_queue.new 1024).add_tx 16 (tx.mk 1 7 0 0 0 700)).2.add_tx 16
      (tx.mk 2 8 0 0 0 700)).2.size_in_bytes_ = 716 ∧
    (((unapplied_tx_queue.new 1024).add_tx 16 (tx.mk 1 7 0 0 0 700)).2.add_tx 16
      (tx.mk 2 8 0 0 0 700)).2.size_in_bytes_ ≠ 700 := by
  decide

/-- C19, amended: on a queue built with a byte budget of 1024, with
`sizeof(unapplied_tx) = sz` between 1 and 324, adding a first 700-byte tx succeeds, adding a
second 700-byte tx with another id is rejected, `size_in_bytes` then equals `700 + sz`, the
byte size of the first tx, and after `erase(first.id)` adding a new 700-byte tx succeeds. -/
theorem overflow_scenario (sz : Nat) (t1 t2 t3 : tx) (hsz1 : 0 < sz) (hsz2 : sz ≤ 324)
    (h1 : t1.size = 700) (h2 : t2.size = 700) (h3 : t3.size = 700) (h12 : t2.id ≠ t1.id) :
    ((unapplied_tx_queue.new 1024).add_tx sz t1).1 = true ∧
    (((unapplied_tx_queue.new 1024).add_tx sz t1).2.add_tx sz t2).1 = false ∧
    (((unapplied_tx_queue.new 1024).add_tx sz t1).2.add_tx sz t2).2.size_in_bytes_ = 700 + sz ∧
    ((((unapplied_tx_queue.new 1024).add_tx sz t1).2.add_tx sz t2).2.erase sz t1.id).1 = true ∧
    (((((unapplied_tx_queue.new 1024).add_tx sz t1).2.add_tx sz t2).2.erase sz t1.id).2.add_tx
      sz t3).1 = true := by
  have b1 : bytes_size sz t1 = sz + 700 := by
    unfold bytes_size; rw [h1]; exact Nat.mod_eq_of_lt (by omega)
  have b2 : bytes_size sz t2 = sz + 700 := by
    unfold bytes_size; rw [h2]; exact Nat.mod_eq_of_lt (by omega)
  have b3 : bytes_size sz t3 = sz + 700 := by
    unfold bytes_size; rw [h3]; exact Nat.mod_eq_of_lt (by omega)
  have r1 : ((unapplied_tx_queue.new 1024).add_tx sz t1).1 = true :=
    add_tx_accepts sz _ t1 rfl (by simp only [unapplied_tx_queue.new, b1]; omega)
      (by simp [unapplied_tx_queue.new])
  obtain ⟨_, _, _, q1⟩ := add_tx_true sz _ t1 r1
  have hq1 : ((unapplied_tx_queue.new 1024).add_tx sz t1).2
      = unapplied_tx_queue.mk [t1] 1024 (sz + 700) 1 := by
    rw [q1]
    simp only [unapplied_tx_queue.new, b1, Nat.zero_add]
    rw [Nat.mod_eq_of_lt (by omega), Nat.mod_eq_of_lt (by norm_num)]
  have r2 : ((unapplied_tx_queue.mk [t1] 1024 (sz + 700) 1).add_tx sz t2).1 = false := by
    unfold unapplied_tx_queue.add_tx
    have hf : (unapplied_tx_queue.mk [t1] 1024 (sz + 700) 1).find t2.id = none := by
      simp [unapplied_tx_queue.find, Ne.symm h12]
    simp only [hf, b2]
    rw [if_pos (by omega)]
  have q2 := add_tx_false sz _ t2 r2
  have hf1 : (unapplied_tx_queue.mk [t1] 1024 (sz + 700) 1).find t1.id = some t1 := by
    simp [unapplied_tx_queue.find]
  have q3 := erase_some sz _ t1.id t1 hf1
  have hq3 : ((unapplied_tx_queue.mk [t1] 1024 (sz + 700) 1).erase sz t1.id).2
      = unapplied_tx_queue.mk [] 1024 0 0 := by
    rw [q3]
    simp only [b1, List.eraseP_cons, decide_True, cond_true]
    rw [show sz + 700 + 2 ^ 64 - (sz + 700) = 2 ^ 64 from by omega]
    simp
  have r4 : ((unapplied_tx_queue.mk [] 1024 0 0).add_tx sz t3).1 = true :=
    add_tx_accepts sz _ t3 rfl (by simp only [b3]; omega) (by simp)
  rw [hq1, q2]
  refine ⟨r1, r2, Nat.add_comm _ _, ?_, ?_⟩
  · rw [q3]
  · rw [hq3]; exact r4

/-- C19, amended, at `sizeof(unapplied_tx) = 16` and three txs of 700 bytes with the ids 1, 2
and 3. -/
theorem overflow_scenario_witness :
    (0 < 16 ∧ 16 ≤ 324 ∧ (tx.mk 1 7 0 0 0 700).size = 700 ∧ (tx.mk 2 8 0 0 0 700).size = 700 ∧
      (tx.mk 3 9 0 0 0 700).size = 700 ∧ (tx.mk 2 8 0 0 0 700).id ≠ (tx.mk 1 7 0 0 0 700).id) ∧
    (((unapplied_tx_queue.new 1024).add_tx 16 (tx.mk 1 7 0 0 0 700)).1 = true ∧
    (((unapplied_tx_queue.new 1024).add_tx 16 (tx.mk 1 7 0 0 0 700)).2.add_tx 16
      (tx.mk 2 8 0 0 0 700)).1 = false ∧
    (((unapplied_tx_queue.new 1024).add_tx 16 (tx.mk 1 7 0 0 0 700)).2.add_tx 16
      (tx.mk 2 8 0 0 0 700)).2.size_in_bytes_ = 700 + 16 ∧
    ((((unapplied_tx_queue.new 1024).add_tx 16 (tx.mk 1 7 0 0 0 700)).2.add_tx 16
      (tx.mk 2 8 0 0 0 700)).2.erase 16 (tx.mk 1 7 0 0 0 700).id).1 = true ∧
    (((((unapplied_tx_queue.new 1024).add_tx 16 (tx.mk 1 7 0 0 0 700)).2.add_tx 16
      (tx.mk 2 8 0 0 0 700)).2.erase 16 (tx.mk 1 7 0 0 0 700).id).2.add_tx 16
      (tx.mk 3 9 0 0 0 700)).1 = true) :=
  ⟨by decide, overflow_scenario 16 (tx.mk 1 7 0 0 0 700) (tx.mk 2 8 0 0 0 700)
    (tx.mk 3 9 0 0 0 700) (by decide) (by decide) rfl rfl rfl (by decide)⟩

/-! ## The unapplied-tx queue: the unique indices -/

/-- The two unique indices hold in every state reached from an empty queue. -/
theorem FromEmpty.unique {sz : Nat} {q : unapplied_tx_queue} (h : FromEmpty sz q) :
    (q.queue_.map fun e => e.id).Nodup ∧ (q.queue_.map fun e => (e.sender, e.nonce)).Nodup := by
  induction h with
  | init max => exact ⟨List.nodup_nil, List.nodup_nil⟩
  | add q t _ ih =>
    cases hr : (q.add_tx sz t).1 with
    | false => rw [add_tx_false sz q t hr]; exact ih
    | true =>
      obtain ⟨_, _, h3, h4⟩ := add_tx_true sz q t hr
      rw [h4]
      refine ⟨?_, ?_⟩
      · simp only [List.map_cons, List.nodup_cons, List.mem_map, not_exists, not_and]
        exact ⟨fun e he => (h3 e he).1, ih.1⟩
      · simp only [List.map_cons, List.nodup_cons, List.mem_map, not_exists, not_and,
          Prod.mk.injEq]
        exact ⟨fun e he hs hn => (h3 e he).2 ⟨hs, hn⟩, ih.2⟩
  | erase q id _ ih =>
    cases hf : q.find id with
    | none => rw [erase_none sz q id hf]; exact ih
    | some e =>
      have hsub : ((q.erase sz id).2.queue_).Sublist q.queue_ := by
        simp only [unapplied_tx_queue.erase, hf]
        exact List.eraseP_sublist _
      exact ⟨ih.1.sublist (hsub.map _), ih.2.sublist (hsub.map _)⟩

/-- A tx whose `(sender, nonce)` is that of an entry with another id is refused, in every
state, and the state is unchanged. -/
theorem add_tx_same_key (sz : Nat) (q : unapplied_tx_queue) (t e : tx) (he : e ∈ q.queue_)
    (hs : e.sender = t.sender) (hn : e.nonce = t.nonce) :
    q.add_tx sz t = (false, q) := by
  have hr : (q.add_tx sz t).1 = false := by
    cases hr : (q.add_tx sz t).1 with
    | false => rfl
    | true =>
      obtain ⟨_, _, h3, _⟩ := add_tx_true sz q t hr
      exact absurd ⟨hs, hn⟩ (h3 e he).2
  exact Prod.ext hr (add_tx_false sz q t hr)

/-- C21: in every state reached from an empty `unapplied_tx_queue` by `add_tx` and `erase`,
no two entries have the same id and no two entries have the same `(sender, nonce)` pair; an
`add_tx` whose `(sender, nonce)` equals that of an existing entry with a different id returns
false and leaves the queue, `size_in_bytes` and `incoming_count` unchanged. -/
theorem unique_keys (sz : Nat) (q : unapplied_tx_queue) (h : FromEmpty sz q) :
    (∀ i j : Fin q.queue_.length, (q.queue_.get i).id = (q.queue_.get j).id → i = j) ∧
    (∀ i j : Fin q.queue_.length,
      (q.queue_.get i).sender = (q.queue_.get j).sender →
      (q.queue_.get i).nonce = (q.queue_.get j).nonce → i = j) ∧
    (∀ t e : tx, e ∈ q.queue_ → e.sender = t.sender → e.nonce = t.nonce → e.id ≠ t.id →
      (q.add_tx sz t).1 = false ∧
      (q.add_tx sz t).2.size_in_bytes_ = q.size_in_bytes_ ∧
      (q.add_tx sz t).2.incoming_count_ = q.incoming_count_ ∧
      (q.add_tx sz t).2.queue_ = q.queue_) := by
  obtain ⟨h1, h2⟩ := h.unique
  refine ⟨?_, ?_, ?_⟩
  · intro i j hij
    have hinj := List.nodup_iff_injective_get.1 h1
    have := @hinj ⟨i.1, by simp⟩ ⟨j.1, by simp⟩ (by simpa using hij)
    exact Fin.ext (by simpa using this)
  · intro i j hs hn
    have hinj := List.nodup_iff_injective_get.1 h2
    have := @hinj ⟨i.1, by simp⟩ ⟨j.1, by simp⟩ (by simpa using ⟨hs, hn⟩)
    exact Fin.ext (by simpa using this)
  · intro t e he hs hn _
    rw [add_tx_same_key sz q t e he hs hn]
    exact ⟨rfl, rfl, rfl, rfl⟩

/-- C21 at the queue holding the tx `(id 1, sender 7, nonce 0)`, with
`sizeof(unapplied_tx) = 16`. -/
theorem unique_keys_witness :
    FromEmpty 16 ((unapplied_tx_queue.new 1024).add_tx 16 (tx.mk 1 7 0 0 0 10)).2 ∧
    ((unapplied_tx_queue.new 1024).add_tx 16 (tx.mk 1 7 0 0 0 10)).2.queue_
      = [tx.mk 1 7 0 0 0 10] ∧
    ((((unapplied_tx_queue.new 1024).add_tx 16 (tx.mk 1 7 0 0 0 10)).2.add_tx 16
        (tx.mk 2 7 0 0 0 10)).1 = false ∧
      (((unapplied_tx_queue.new 1024).add_tx 16 (tx.mk 1 7 0 0 0 10)).2.add_tx 16
        (tx.mk 2 7 0 0 0 10)).2.size_in_bytes_ = 26 ∧
      (((unapplied_tx_queue.new 1024).add_tx 16 (tx.mk 1 7 0 0 0 10)).2.add_tx 16
        (tx.mk 2 7 0 0 0 10)).2.incoming_count_ = 1) := by
  have h := unique_keys 16 ((unapplied_tx_queue.new 1024).add_tx 16 (tx.mk 1 7 0 0 0 10)).2
    (FromEmpty.add _ _ (FromEmpty.init 1024))
  have h3 := h.2.2 (tx.mk 2 7 0 0 0 10) (tx.mk 1 7 0 0 0 10) (by decide) rfl rfl (by decide)
  exact ⟨FromEmpty.add _ _ (FromEmpty.init 1024), by decide, h3.1, h3.2.1, h3.2.2.1⟩

/-! ## The unapplied-tx queue: the `by_nonce` range -/

theorem key_less_iff (a b : Nat × Nat) :
    key_less a b = true ↔ a.1 < b.1 ∨ (a.1 = b.1 ∧ a.2 < b.2) := by
  simp [key_less]

theorem key_less_false_iff (a b : Nat × Nat) :
    key_less a b = false ↔ b.1 < a.1 ∨ (b.1 = a.1 ∧ b.2 ≤ a.2) := by
  rw [← Bool.not_eq_true, key_less_iff]
  omega

instance key_order_total :
    IsTotal tx fun a b => key_less (nonce_key b) (nonce_key a) = false :=
  ⟨fun a b => by
    simp only [key_less_false_iff, nonce_key]
    omega⟩

instance key_order_trans :
    IsTrans tx fun a b => key_less (nonce_key b) (nonce_key a) = false :=
  ⟨fun a b c => by
    simp only [key_less_false_iff, nonce_key]
    omega⟩

/-- The `by_nonce` sequence is in ascending key order. -/
theorem by_nonce_sorted (c : List tx) :
    (by_nonce c).Pairwise fun a b => key_less (nonce_key b) (nonce_key a) = false :=
  List.sorted_insertionSort _ c

/-- The `by_nonce` sequence holds the elements of the container. -/
theorem by_nonce_perm (c : List tx) : (by_nonce c).Perm c :=
  List.perm_insertionSort _ c

/-- The loop from a position to the `upper_bound` of `(s, hi)`, over elements in key order
that are not below `(s, lo)`: it visits the elements of sender `s` with a nonce from `lo` to
`hi`. -/
theorem walk_upper (s lo hi : Nat) : ∀ (l : List tx) (o : Nat),
    l.Pairwise (fun a b => key_less (nonce_key b) (nonce_key a) = false) →
    (∀ e ∈ l, key_less (nonce_key e) (s, lo) = false) →
    walk l o (o + upper_bound l (s, hi))
      = some (l.filter fun e => decide (e.sender = s ∧ lo ≤ e.nonce ∧ e.nonce ≤ hi))
  | [], o, _, _ => by simp [walk, upper_bound]
  | a :: l, o, hs, hlo => by
    have ha := hlo a (List.mem_cons_self _ _)
    rw [key_less_false_iff] at ha
    simp only [nonce_key] at ha
    cases hup : key_less (s, hi) (nonce_key a) with
    | true =>
      have h0 : upper_bound (a :: l) (s, hi) = 0 := by
        simp [upper_bound, List.findIdx_cons, hup]
      rw [h0, Nat.add_zero, walk, if_pos rfl]
      rw [key_less_iff] at hup
      simp only [nonce_key] at hup
      have hnil : (a :: l).filter (fun e => decide (e.sender = s ∧ lo ≤ e.nonce ∧ e.nonce ≤ hi))
          = [] := by
        rw [List.filter_eq_nil_iff]
        intro e he
        rcases List.mem_cons.1 he with rfl | he
        · simp only [decide_eq_true_eq]; omega
        · have hr := (List.pairwise_cons.1 hs).1 e he
          rw [key_less_false_iff] at hr
          simp only [nonce_key] at hr
          simp only [decide_eq_true_eq]
          omega
      rw [hnil]
    | false =>
      have h1 : upper_bound (a :: l) (s, hi) = upper_bound l (s, hi) + 1 := by
        simp [upper_bound, List.findIdx_cons, hup]
      rw [h1, walk, if_neg (by omega)]
      have ih := walk_upper s lo hi l (o + 1) (List.pairwise_cons.1 hs).2
        (fun e he => hlo e (List.mem_cons_of_mem _ he))
      rw [show o + (upper_bound l (s, hi) + 1) = o + 1 + upper_bound l (s, hi) by omega, ih]
      rw [key_less_false_iff] at hup
      simp only [nonce_key] at hup
      have hsel : decide (a.sender = s ∧ lo ≤ a.nonce ∧ a.nonce ≤ hi) = true := by
        simp only [decide_eq_true_eq]; omega
      rw [List.filter_cons_of_pos
        (p := fun e : tx => decide (e.sender = s ∧ lo ≤ e.nonce ∧ e.nonce ≤ hi)) hsel]
      rfl

/-- The loop from the `lower_bound` of `(s, lo)` to the `upper_bound` of `(s, hi)`, over
elements in key order: it visits the elements of sender `s` with a nonce from `lo` to `hi`. -/
theorem walk_range (s lo hi : Nat) (hlh : lo ≤ hi) : ∀ (l : List tx) (o : Nat),
    l.Pairwise (fun a b => key_less (nonce_key b) (nonce_key a) = false) →
    walk (l.drop (lower_bound l (s, lo))) (o + lower_bound l (s, lo))
        (o + upper_bound l (s, hi))
      = some (l.filter fun e => decide (e.sender = s ∧ lo ≤ e.nonce ∧ e.nonce ≤ hi))
  | [], o, _ => by simp [walk, upper_bound, lower_bound]
  | a :: l, o, hs => by
    cases hlo : key_less (nonce_key a) (s, lo) with
    | true =>
      have h1 : lower_bound (a :: l) (s, lo) = lower_bound l (s, lo) + 1 := by
        simp [lower_bound, List.findIdx_cons, hlo]
      rw [key_less_iff] at hlo
      simp only [nonce_key] at hlo
      have hup : key_less (s, hi) (nonce_key a) = false := by
        rw [key_less_false_iff]; simp only [nonce_key]; omega
      have h2 : upper_bound (a :: l) (s, hi) = upper_bound l (s, hi) + 1 := by
        simp [upper_bound, List.findIdx_cons, hup]
      have ih := walk_range s lo hi hlh l (o + 1) (List.pairwise_cons.1 hs).2
      rw [h1, h2, List.drop_succ_cons,
        show o + (lower_bound l (s, lo) + 1) = o + 1 + lower_bound l (s, lo) by omega,
        show o + (upper_bound l (s, hi) + 1) = o + 1 + upper_bound l (s, hi) by omega, ih]
      have hsel : decide (a.sender = s ∧ lo ≤ a.nonce ∧ a.nonce ≤ hi) = false := by
        simp only [decide_eq_false_iff_not]; omega
      rw [List.filter_cons_of_neg
        (p := fun e : tx => decide (e.sender = s ∧ lo ≤ e.nonce ∧ e.nonce ≤ hi))
        (by simp only [hsel]; exact Bool.false_ne_true)]
    | false =>
      have h0 : lower_bound (a :: l) (s, lo) = 0 := by
        simp [lower_bound, List.findIdx_cons, hlo]
      rw [h0, List.drop_zero, Nat.add_zero]
      refine walk_upper s lo hi (a :: l) o hs ?_
      intro e he
      rcases List.mem_cons.1 he with rfl | he
      · exact hlo
      · have hr := (List.pairwise_cons.1 hs).1 e he
        rw [key_less_false_iff] at hr hlo ⊢
        simp only [nonce_key] at hr hlo ⊢
        omega

/-- What `iterate` visits, in any container: the elements of the `by_nonce` sequence with
the sender and a nonce from `lo` to `hi`, in the order of the sequence. -/
theorem iterate_eq (q : unapplied_tx_queue) (s lo hi : Nat) (hlh : lo ≤ hi) :
    q.iterate s lo hi = some ((by_nonce q.queue_).filter fun e =>
      decide (e.sender = s ∧ lo ≤ e.nonce ∧ e.nonce ≤ hi)) := by
  have h := walk_range s lo hi hlh (by_nonce q.queue_) 0 (by_nonce_sorted q.queue_)
  simp only [Nat.zero_add] at h
  exact h

/-- C22: for every queue state, sender and bounds `lo ≤ hi`, iterating from
`begin(sender, lo)` to `end(sender, hi)` ends and visits exactly the entries whose sender is
the given sender and whose nonce `n` satisfies `lo ≤ n ≤ hi`, each once, in strictly ascending
nonce order. -/
theorem by_nonce_range (sz : Nat) (q : unapplied_tx_queue) (h : FromEmpty sz q)
    (sender lo hi : Nat) (hlh : lo ≤ hi) :
    ∃ v : List tx, q.iterate sender lo hi = some v ∧
      (∀ e, e ∈ v ↔ e ∈ q.queue_ ∧ e.sender = sender ∧ lo ≤ e.nonce ∧ e.nonce ≤ hi) ∧
      v.Nodup ∧
      v.Pairwise (fun a b => a.nonce < b.nonce) := by
  refine ⟨_, iterate_eq q sender lo hi hlh, ?_, ?_, ?_⟩
  · intro e
    simp only [List.mem_filter, decide_eq_true_eq, (by_nonce_perm q.queue_).mem_iff]
  all_goals
    have hk : ((by_nonce q.queue_).map nonce_key).Nodup :=
      ((by_nonce_perm q.queue_).map nonce_key).nodup_iff.2 h.unique.2
    have hp : (by_nonce q.queue_).Pairwise fun a b =>
        key_less (nonce_key b) (nonce_key a) = false ∧ nonce_key a ≠ nonce_key b :=
      (by_nonce_sorted q.queue_).and (List.pairwise_map.1 hk)
    have hv := (hp.filter fun e =>
      decide (e.sender = sender ∧ lo ≤ e.nonce ∧ e.nonce ≤ hi)).imp_of_mem
      (S := fun a b => a.nonce < b.nonce) (by
        intro a b ha hb hab
        simp only [List.mem_filter, decide_eq_true_eq] at ha hb
        obtain ⟨hr, hne⟩ := hab
        rw [key_less_false_iff] at hr
        simp only [nonce_key, ne_eq, Prod.mk.injEq, not_and] at hr hne
        omega)
  · exact hv.imp fun hlt heq => by subst heq; omega
  · exact hv

/-- C22 at the queue holding the txs of ids 1, 2, 3 with `(sender, nonce)` equal to
`(7, 5)`, `(7, 3)` and `(6, 4)`: the range `(7, [3, 5])` visits id 2, then id 1. -/
theorem by_nonce_range_witness :
    FromEmpty 16 ((((unapplied_tx_queue.new 1024).add_tx 16 (tx.mk 1 7 5 0 0 10)).2.add_tx 16
      (tx.mk 2 7 3 0 0 10)).2.add_tx 16 (tx.mk 3 6 4 0 0 10)).2 ∧
    3 ≤ 5 ∧
    ((((unapplied_tx_queue.new 1024).add_tx 16 (tx.mk 1 7 5 0 0 10)).2.add_tx 16
      (tx.mk 2 7 3 0 0 10)).2.add_tx 16 (tx.mk 3 6 4 0 0 10)).2.iterate 7 3 5
      = some [tx.mk 2 7 3 0 0 10, tx.mk 1 7 5 0 0 10] ∧
    ∃ v : List tx,
      ((((unapplied_tx_queue.new 1024).add_tx 16 (tx.mk 1 7 5 0 0 10)).2.add_tx 16
        (tx.mk 2 7 3 0 0 10)).2.add_tx 16 (tx.mk 3 6 4 0 0 10)).2.iterate 7 3 5 = some v ∧
      v.Nodup ∧ v.Pairwise (fun a b => a.nonce < b.nonce) := by
  have hr : FromEmpty 16 ((((unapplied_tx_queue.new 1024).add_tx 16
      (tx.mk 1 7 5 0 0 10)).2.add_tx 16 (tx.mk 2 7 3 0 0 10)).2.add_tx 16
      (tx.mk 3 6 4 0 0 10)).2 :=
    FromEmpty.add _ _ (FromEmpty.add _ _ (FromEmpty.add _ _ (FromEmpty.init 1024)))
  obtain ⟨v, h1, _, h3, h4⟩ := by_nonce_range 16 _ hr 7 3 5 (by decide)
  exact ⟨hr, by decide, by decide, v, h1, h3, h4⟩

end noir.tx_pool

namespace noir.consensus

/-! ## The genesis document -/

/-- The validator loop stops with false at a validator of power zero. -/
theorem complete_validators_zero {PK : Type} (address : PK → List Nat) :
    ∀ vs : List (genesis_validator PK), (∃ v ∈ vs, v.power = 0) →
      (complete_validators address vs).1 = false
  | [], h => by simp at h
  | v :: vs, h => by
    unfold complete_validators
    by_cases hv : v.power = 0
    · simp [hv]
    · have hr : ∃ w ∈ vs, w.power = 0 := by
        obtain ⟨w, hw, hw0⟩ := h
        rcases List.mem_cons.1 hw with rfl | hw
        · exact absurd hw0 hv
        · exact ⟨w, hw, hw0⟩
      simp [hv, complete_validators_zero address vs hr]

/-- The validator loop runs to its end exactly when no validator has power zero. -/
theorem complete_validators_true {PK : Type} (address : PK → List Nat) :
    ∀ vs : List (genesis_validator PK), (∀ v ∈ vs, v.power ≠ 0) →
      (complete_validators address vs).1 = true
  | [], _ => rfl
  | v :: vs, h => by
    unfold complete_validators
    have hv : v.power ≠ 0 := h v (List.mem_cons_self _ _)
    simp [hv, complete_validators_true address vs fun w hw => h w (List.mem_cons_of_mem _ hw)]

/-- What `validate_and_complete` has checked when it returns true. -/
theorem validate_and_complete_true {PK : Type} (address : PK → List Nat) (now : Int)
    (g : genesis_doc PK) (h : (g.validate_and_complete address now).1 = true) :
    g.chain_id ≠ [] ∧ g.chain_id.length ≤ max_chain_id_len ∧ 0 ≤ g.initial_height ∧
    (∀ p, g.cs_params = some p → p.validate_consensus_params = none) ∧
    (∀ v ∈ g.validators, v.power ≠ 0) := by
  unfold genesis_doc.validate_and_complete at h
  by_cases h1 : g.chain_id = []
  · simp [h1] at h
  by_cases h2 : g.chain_id.length > max_chain_id_len
  · simp [h1, h2] at h
  by_cases h3 : g.initial_height < 0
  · simp [h1, h2, h3] at h
  simp only [h1, h2, h3, if_false] at h
  refine ⟨h1, by omega, by omega, ?_, ?_⟩
  · intro p hp
    cases hv : p.validate_consensus_params with
    | none => rfl
    | some e =>
      exfalso
      by_cases h0 : g.initial_height = 0 <;> simp [h0, hp, hv] at h
  · intro v hv hv0
    have hz := complete_validators_zero address g.validators ⟨v, hv, hv0⟩
    cases hc : g.cs_params with
    | none => by_cases h0 : g.initial_height = 0 <;> simp [h0, hc, hz] at h
    | some p =>
      cases hp : p.validate_consensus_params with
      | some e => by_cases h0 : g.initial_height = 0 <;> simp [h0, hc, hp] at h
      | none => by_cases h0 : g.initial_height = 0 <;> simp [h0, hc, hp, hz] at h

/-- The call does not change `chain_id`. -/
theorem validate_and_complete_chain_id {PK : Type} (address : PK → List Nat) (now : Int)
    (g : genesis_doc PK) : (g.validate_and_complete address now).2.chain_id = g.chain_id := by
  unfold genesis_doc.validate_and_complete
  by_cases h1 : g.chain_id = []
  · rw [if_pos h1]
  by_cases h2 : g.chain_id.length > max_chain_id_len
  · rw [if_neg h1, if_pos h2]
  by_cases h3 : g.initial_height < 0
  · rw [if_neg h1, if_neg h2, if_pos h3]
  rw [if_neg h1, if_neg h2, if_neg h3]
  cases hc : g.cs_params with
  | none => by_cases h0 : g.initial_height = 0 <;> simp only [h0, hc, if_true, if_false] <;>
      split_ifs <;> rfl
  | some p =>
    cases hp : p.validate_consensus_params with
    | some e => by_cases h0 : g.initial_height = 0 <;> simp only [h0, hc, hp, if_true, if_false]
    | none => by_cases h0 : g.initial_height = 0 <;> simp only [h0, hc, hp, if_true, if_false] <;>
        split_ifs <;> rfl

/-- C29 as stated fails: the genesis document with chain id `"a"`, no consensus parameters
and one validator of power `-1` is accepted. -/
theorem negative_power_accepted :
    (∃ v ∈ (genesis_doc.mk 0 [97] 1 none [genesis_validator.mk [1] () (-1) []] [] []).validators,
      v.power ≤ 0) ∧
    ((genesis_doc.mk 0 [97] 1 none [genesis_validator.mk [1] () (-1) []] [] []
      ).validate_and_complete (fun _ => [1]) 1).1 = true := by
  refine ⟨⟨_, List.mem_singleton.2 rfl, by decide⟩, ?_⟩
  decide

/-- C29, amended: for every genesis document that contains at least one validator whose
power is zero, `validate_and_complete` returns false. -/
theorem zero_power_rejected {PK : Type} (address : PK → List Nat) (now : Int)
    (g : genesis_doc PK) (h : ∃ v ∈ g.validators, v.power = 0) :
    (g.validate_and_complete address now).1 = false := by
  cases hr : (g.validate_and_complete address now).1 with
  | false => rfl
  | true =>
    obtain ⟨v, hv, hv0⟩ := h
    exact absurd hv0 ((validate_and_complete_true address now g hr).2.2.2.2 v hv)

/-- C29, amended, at the document with chain id `"a"` and the validators of powers 10
and 0. -/
theorem zero_power_rejected_witness :
    (∃ v ∈ (genesis_doc.mk 0 [97] 1 none
        [genesis_validator.mk [1] () 10 [], genesis_validator.mk [2] () 0 []] [] []).validators,
      v.power = 0) ∧
    ((genesis_doc.mk 0 [97] 1 none
        [genesis_validator.mk [1] () 10 [], genesis_validator.mk [2] () 0 []] [] []
      ).validate_and_complete (fun _ => [1]) 1).1 = false :=
  ⟨⟨_, List.mem_cons_of_mem _ (List.mem_singleton.2 rfl), rfl⟩,
   zero_power_rejected (fun _ => [1]) 1 _ ⟨_, List.mem_cons_of_mem _ (List.mem_singleton.2 rfl), rfl⟩⟩

/-- C30: for every genesis document, `validate_and_complete` returns false when `chain_id` is
empty or longer than 50 bytes; whenever it returns true the `chain_id`, which the call does
not change, is non-empty and at most 50 bytes long. -/
theorem chain_id_checked {PK : Type} (address : PK → List Nat) (now : Int) (g : genesis_doc PK) :
    (g.chain_id = [] ∨ 50 < g.chain_id.length →
      (g.validate_and_complete address now).1 = false) ∧
    ((g.validate_and_complete address now).1 = true →
      g.chain_id ≠ [] ∧ g.chain_id.length ≤ 50 ∧
      (g.validate_and_complete address now).2.chain_id = g.chain_id) := by
  constructor
  · intro h
    cases hr : (g.validate_and_complete address now).1 with
    | false => rfl
    | true =>
      obtain ⟨h1, h2, _⟩ := validate_and_complete_true address now g hr
      simp only [max_chain_id_len] at h2
      rcases h with h | h
      · exact absurd h h1
      · omega
  · intro hr
    obtain ⟨h1, h2, _⟩ := validate_and_complete_true address now g hr
    refine ⟨h1, h2, ?_⟩
    exact validate_and_complete_chain_id address now g

/-- C30 at the empty chain id, at a chain id of 51 bytes and at the chain id `"a"`, which is
accepted. -/
theorem chain_id_checked_witness :
    ((genesis_doc.mk 0 [] 1 none ([] : List (genesis_validator Unit)) [] []
      ).validate_and_complete (fun _ => [1]) 1).1 = false ∧
    ((genesis_doc.mk 0 (List.replicate 51 97) 1 none ([] : List (genesis_validator Unit)) [] []
      ).validate_and_complete (fun _ => [1]) 1).1 = false ∧
    ((genesis_doc.mk 0 [97] 1 none ([] : List (genesis_validator Unit)) [] []
      ).validate_and_complete (fun _ => [1]) 1).1 = true ∧
    ((genesis_doc.mk 0 [97] 1 none ([] : List (genesis_validator Unit)) [] []
      ).chain_id ≠ [] ∧
     (genesis_doc.mk 0 [97] 1 none ([] : List (genesis_validator Unit)) [] []
      ).chain_id.length ≤ 50) :=
  ⟨(chain_id_checked (fun _ => [1]) 1 _).1 (Or.inl rfl),
   (chain_id_checked (fun _ => [1]) 1 _).1 (Or.inr (by decide)),
   by decide,
   ((chain_id_checked (fun _ => [1]) 1
      (genesis_doc.mk 0 [97] 1 none ([] : List (genesis_validator Unit)) [] [])).2
      (by decide)).1,
   ((chain_id_checked (fun _ => [1]) 1
      (genesis_doc.mk 0 [97] 1 none ([] : List (genesis_validator Unit)) [] [])).2
      (by decide)).2.1⟩

/-! ## The height vote set -/

/-- Embeds the guard of `set_round`: from a round other than 0, a round below `round - 1`
is refused and the object is unchanged. -/
theorem set_round_throws {D : Decls} (h : height_vote_set D) (round_ : Int)
    (h0 : h.round ≠ 0) (hlt : round_ < h.round - 1) :
    h.set_round round_ = (.error "set_round() must increment round", h) := by
  unfold height_vote_set.set_round
  simp only [h0, hlt, ne_eq, not_false_eq_true, and_self, if_true]



theorem at_round_5_eq (D : Decls) (chain_id : List Nat) (height : Int)
    (val_set : D.validator_set) :
    at_round_5 D chain_id height val_set =
      { chain_id := chain_id, height := height, val_set := val_set, round := 5,
        round_vote_sets := [0, -1, 1, 2, 3, 4, 5].map (fresh_round D chain_id height val_set),
        peer_catchup_rounds := [] } := by
  simp [at_round_5, height_vote_set.new_height_vote_set, height_vote_set.reset,
    height_vote_set.set_round, height_vote_set.set_round_loop, height_vote_set.add_round,
    map_contains, map_find, map_assign, fresh_round]

/-- C23 fails on the code: for every choice of the declarations outside the sources, the
height vote set that `new_height_vote_set` gives and `set_round(5)` has brought to round 5
accepts `set_round(4)`: no exception is thrown and the round is 4 afterwards, the round
entries being those of before. -/
theorem set_round_allows_regression (D : Decls) (chain_id : List Nat) (height : Int)
    (val_set : D.validator_set) :
    (at_round_5 D chain_id height val_set).round = 5 ∧
    (at_round_5 D chain_id height val_set).set_round 4
      = (.ok (), { at_round_5 D chain_id height val_set with round := 4 }) := by
  rw [at_round_5_eq]
  simp [height_vote_set.set_round, height_vote_set.set_round_loop, map_contains, map_find,
    fresh_round]

theorem add_round_peers {D : Decls} (h : height_vote_set D) (r : Int) :
    (h.add_round r).2.peer_catchup_rounds = h.peer_catchup_rounds := by
  unfold height_vote_set.add_round
  split_ifs <;> rfl

theorem set_round_loop_peers {D : Decls} (round_ : Int) :
    ∀ (n : Nat) (r : Int) (h : height_vote_set D),
      (height_vote_set.set_round_loop round_ n r h).2.peer_catchup_rounds
        = h.peer_catchup_rounds
  | 0, _, _ => rfl
  | n + 1, r, h => by
    unfold height_vote_set.set_round_loop
    by_cases hr : r ≤ round_
    · rw [if_pos hr]
      by_cases hc : map_contains h.round_vote_sets r = true
      · rw [if_pos hc]; exact set_round_loop_peers round_ n (r + 1) h
      · rw [if_neg hc]
        have hp := add_round_peers h r
        rcases hadd : h.add_round r with ⟨res, h1⟩
        rw [hadd] at hp
        cases res with
        | error e => exact hp
        | ok u => exact (set_round_loop_peers round_ n (r + 1) h1).trans hp
    · rw [if_neg hr]

theorem set_round_peers {D : Decls} (h : height_vote_set D) (round_ : Int) :
    (h.set_round round_).2.peer_catchup_rounds = h.peer_catchup_rounds := by
  unfold height_vote_set.set_round
  dsimp only
  split_ifs
  · rfl
  · have hp := set_round_loop_peers round_ (round_ + 1 - (h.round - 1)).toNat (h.round - 1) h
    rcases hl : height_vote_set.set_round_loop round_ (round_ + 1 - (h.round - 1)).toNat
      (h.round - 1) h with ⟨res, h1⟩
    rw [hl] at hp
    cases res with
    | error e => exact hp
    | ok u => exact hp

theorem forward_peers {D : Decls} (h : height_vote_set D) (vote_ : D.vote) (s : D.vote_set) :
    (h.forward vote_ s).2.peer_catchup_rounds = h.peer_catchup_rounds := rfl

/-- A vote from a peer that has no entry in `peer_catchup_rounds`, for a round that has no
entry, is dropped: `add_vote` returns false and the object is unchanged. -/
theorem add_vote_no_peer {D : Decls} (h : height_vote_set D) (vote_ : D.vote)
    (peer_id : D.node_id)
    (hround : map_find h.round_vote_sets (D.vote_round vote_) = none)
    (hpeer : map_find h.peer_catchup_rounds peer_id = none) :
    h.add_vote vote_ peer_id = (.ok false, h) := by
  unfold height_vote_set.add_vote
  split_ifs
  · rfl
  · simp only [height_vote_set.get_vote_set, hround, hpeer]

/-- No method of the height vote set gives a peer an entry in `peer_catchup_rounds`: the map
is empty in every state. -/
theorem Reached.no_peers {D : Decls} {h : height_vote_set D} (hr : Reached D h) :
    h.peer_catchup_rounds = [] := by
  induction hr with
  | new chain_id height val_set => rfl
  | set_round h round_ _ ih => rw [set_round_peers, ih]
  | add_vote h vote_ peer_id _ ih =>
    have hpeer : map_find h.peer_catchup_rounds peer_id = none := by rw [ih]; rfl
    unfold height_vote_set.add_vote
    split_ifs
    · exact ih
    · cases hg : h.get_vote_set (D.vote_round vote_) (D.vote_type vote_) with
      | error e => exact ih
      | ok o =>
        cases o with
        | some s => simp only [forward_peers]; exact ih
        | none => simp only [hpeer]; exact ih

/-- C24 fails on the code: in every state of a height vote set, a vote of valid type for a
round that has no entry is dropped, whichever peer sends it: `add_vote` returns false, no
round entry is created and no catch-up round is recorded.  The peer is one seen for the first
time, since `peer_catchup_rounds` has no entry at all. -/
theorem add_vote_first_seen_peer_dropped (D : Decls) (h : height_vote_set D) (hr : Reached D h)
    (vote_ : D.vote) (peer_id : D.node_id)
    (hvalid : D.is_vote_type_valid (D.vote_type vote_) = true)
    (hround : map_find h.round_vote_sets (D.vote_round vote_) = none) :
    map_find h.peer_catchup_rounds peer_id = none ∧
    h.add_vote vote_ peer_id = (.ok false, h) := by
  have hpeer : map_find h.peer_catchup_rounds peer_id = none := by rw [hr.no_peers]; rfl
  have hif : ¬ D.is_vote_type_valid (D.vote_type vote_) = false := by simp [hvalid]
  refine ⟨hpeer, ?_⟩
  unfold height_vote_set.add_vote
  rw [if_neg hif]
  simp only [height_vote_set.get_vote_set, hround, hpeer]

/-- C24 on the code at the height vote set that `new_height_vote_set` gives, a prevote for
round 3 and the peer 7. -/
theorem add_vote_first_seen_peer_dropped_witness :
    Decls.plain.is_vote_type_valid (Decls.plain.vote_type (signed_msg_type.Prevote, 3)) = true ∧
    map_find (height_vote_set.new_height_vote_set [] 1 () : height_vote_set Decls.plain
      ).round_vote_sets 3 = none ∧
    (height_vote_set.new_height_vote_set [] 1 () : height_vote_set Decls.plain).add_vote
        (signed_msg_type.Prevote, 3) (7 : Nat)
      = (.ok false, height_vote_set.new_height_vote_set [] 1 ()) :=
  ⟨rfl, rfl,
   (add_vote_first_seen_peer_dropped Decls.plain _ (Reached.new [] 1 ())
     (signed_msg_type.Prevote, 3) (7 : Nat) rfl rfl).2⟩

/-! ## The part set: chunking -/

/-- The quotient `(n + P - 1) / P` is the ceiling of `n / P`. -/
theorem ceil_div_eq (n P : Nat) (hP : 0 < P) : ⌈(n : ℚ) / (P : ℚ)⌉₊ = (n + P - 1) / P := by
  have hPq : (0 : ℚ) < (P : ℚ) := by exact_mod_cast hP
  have h1 : (n + P - 1) / P * P ≤ n + P - 1 := Nat.div_mul_le_self _ _
  have h2 : n + P - 1 < ((n + P - 1) / P + 1) * P := by
    have := Nat.lt_succ_iff.2 (Nat.le_refl ((n + P - 1) / P))
    exact (Nat.div_lt_iff_lt_mul hP).1 this
  apply le_antisymm
  · rw [Nat.ceil_le, div_le_iff₀ hPq]
    have : n ≤ (n + P - 1) / P * P := by
      have h3 : ((n + P - 1) / P + 1) * P = (n + P - 1) / P * P + P := by ring
      omega
    exact_mod_cast this
  · rcases Nat.eq_zero_or_pos ((n + P - 1) / P) with h0 | hpos
    · rw [h0]; exact Nat.zero_le _
    · have hlt : (n + P - 1) / P - 1 < ⌈(n : ℚ) / (P : ℚ)⌉₊ := by
        rw [Nat.lt_ceil, lt_div_iff₀ hPq]
        have h3 : ((n + P - 1) / P - 1) * P + P = (n + P - 1) / P * P := by
          have : (n + P - 1) / P = ((n + P - 1) / P - 1) + 1 := by omega
          nth_rewrite 2 [this]
          ring
        have : ((n + P - 1) / P - 1) * P < n := by omega
        exact_mod_cast this
      omega

/-- The `total` of `new_part_set_from_data` when nothing wraps. -/
theorem total_eq (n P : Nat) (hP : 0 < P) (hlt : n + P < 2 ^ 32) :
    (n + P + 2 ^ 64 - 1) % 2 ^ 64 / P % 2 ^ 32 = (n + P - 1) / P := by
  have h1 : (n + P + 2 ^ 64 - 1) % 2 ^ 64 = n + P - 1 := by omega
  rw [h1]
  have h2 : (n + P - 1) / P ≤ n + P - 1 := Nat.div_le_self _ _
  exact Nat.mod_eq_of_lt (by omega)

/-- The bytes of part `i` when nothing wraps: `part_size` bytes from `i * part_size` on, or
what is left of the data. -/
theorem part_bytes_eq (data : List Nat) (P i : Nat) (hlt : data.length + P < 2 ^ 32)
    (hi : (i + 1) * P < data.length + P) :
    part_bytes data P i = (data.drop (i * P)).take P := by
  have hiP : i * P < data.length := by
    have : (i + 1) * P = i * P + P := by ring
    omega
  have e1 : (i * P) % 2 ^ 32 = i * P := Nat.mod_eq_of_lt (by omega)
  have e2 : data.length % 2 ^ 32 = data.length := Nat.mod_eq_of_lt (by omega)
  have e3 : ((i + 1) * P) % 2 ^ 32 = (i + 1) * P := Nat.mod_eq_of_lt (by omega)
  unfold part_bytes
  simp only [e1, e2, e3]
  have e4 : (i + 1) * P = i * P + P := by ring
  rcases Nat.le_total data.length ((i + 1) * P) with hle | hle
  · rw [Nat.min_eq_left hle]
    rw [List.take_of_length_le (by simp), List.take_of_length_le (by simp; omega)]
  · rw [Nat.min_eq_right hle]
    congr 1
    omega

/-- The slices of `part_size` bytes, one after the other, make up the data. -/
theorem flatten_slices (data : List Nat) (P : Nat) : ∀ n : Nat,
    ((List.range n).map fun i => (data.drop (i * P)).take P).flatten = data.take (n * P)
  | 0 => by simp
  | n + 1 => by
    rw [List.range_succ, List.map_append, List.flatten_append, flatten_slices data P n]
    have : (n + 1) * P = n * P + P := by ring
    rw [this, List.take_add]
    simp

/-- The parts of `new_part_set_from_data`, when nothing wraps, are the slices. -/
theorem parts_bytes_eq (data : List Nat) (P : Nat) (hP : 0 < P)
    (hlt : data.length + P < 2 ^ 32) :
    ((List.range ((data.length + P - 1) / P)).map fun i => part_bytes data P i)
      = (List.range ((data.length + P - 1) / P)).map fun i => (data.drop (i * P)).take P := by
  apply List.map_congr_left
  intro i hi
  have hi2 : i < (data.length + P - 1) / P := List.mem_range.1 hi
  apply part_bytes_eq data P i hlt
  have h1 : (data.length + P - 1) / P * P ≤ data.length + P - 1 := Nat.div_mul_le_self _ _
  have h2 : (i + 1) * P ≤ (data.length + P - 1) / P * P := Nat.mul_le_mul_right _ hi2
  omega

/-- The bytes of the parts of `new_part_set_from_data`, one after the other, are the data. -/
theorem flatten_parts (data : List Nat) (P : Nat) (hP : 0 < P)
    (hlt : data.length + P < 2 ^ 32) :
    ((List.range ((data.length + P - 1) / P)).map fun i => part_bytes data P i).flatten
      = data := by
  rw [parts_bytes_eq data P hP hlt, flatten_slices]
  apply List.take_of_length_le
  have h2 : data.length + P - 1 < ((data.length + P - 1) / P + 1) * P :=
    (Nat.div_lt_iff_lt_mul hP).1 (Nat.lt_succ_iff.2 (Nat.le_refl _))
  have h3 : ((data.length + P - 1) / P + 1) * P = (data.length + P - 1) / P * P + P := by ring
  omega

/-- The bytes collected from slots that are all filled. -/
theorem foldr_filled {M : Merkle} (f : Nat → List Nat) (g : Nat → M.proof) :
    ∀ l : List Nat,
      (l.map fun i => some (part.mk i (f i) (g i))).foldr
        (fun (p : Option (part M)) (acc : Option (List Nat)) =>
          match p, acc with
          | some q, some d => some (q.bytes_ ++ d)
          | _, _ => none) (some [])
        = some (l.map f).flatten
  | [] => rfl
  | i :: l => by
    simp only [List.map_cons, List.foldr_cons, foldr_filled f g l, List.flatten_cons]

/-- C25: for every byte string `S` and every part size `P > 0` with `|S| + P < 2^32`,
`new_part_set_from_data(S, P)` produces exactly `ceil(|S| / P)` parts, the part in slot `i`
carries index `i`, and `total` and `count` both equal that number. -/
theorem from_data_parts (M : Merkle) (S : List Nat) (P : Nat) (hP : 0 < P)
    (hlt : S.length + P < 2 ^ 32) :
    (part_set.new_part_set_from_data M S P).parts.length = ⌈(S.length : ℚ) / (P : ℚ)⌉₊ ∧
    (∀ i, i < ⌈(S.length : ℚ) / (P : ℚ)⌉₊ →
      ∃ p, (part_set.new_part_set_from_data M S P).parts.get? i = some (some p) ∧
        p.index = i) ∧
    (part_set.new_part_set_from_data M S P).total = ⌈(S.length : ℚ) / (P : ℚ)⌉₊ ∧
    (part_set.new_part_set_from_data M S P).count = ⌈(S.length : ℚ) / (P : ℚ)⌉₊ := by
  rw [ceil_div_eq S.length P hP]
  have ht := total_eq S.length P hP hlt
  refine ⟨?_, ?_, ?_, ?_⟩
  · simp only [part_set.new_part_set_from_data, ht, List.length_map, List.length_range]
  · intro i hi
    refine ⟨part.mk i (part_bytes S P i) ((M.proofs_from_bytes_list
      ((List.range ((S.length + P - 1) / P)).map fun i => part_bytes S P i)).2 i), ?_, rfl⟩
    simp only [part_set.new_part_set_from_data, ht, List.get?_eq_getElem?, List.getElem?_map,
      List.getElem?_range hi, Option.map_some']
  · simp only [part_set.new_part_set_from_data, ht]
  · simp only [part_set.new_part_set_from_data, ht]

/-- C25 at the 7 bytes `1..7` and part size 3: three parts. -/
theorem from_data_parts_witness :
    (0 < 3 ∧ [1, 2, 3, 4, 5, 6, 7].length + 3 < 2 ^ 32) ∧
    (part_set.new_part_set_from_data Merkle.flag [1, 2, 3, 4, 5, 6, 7] 3).parts.length
      = ⌈(([1, 2, 3, 4, 5, 6, 7] : List Nat).length : ℚ) / ((3 : Nat) : ℚ)⌉₊ :=
  ⟨⟨by decide, by decide⟩,
   (from_data_parts Merkle.flag [1, 2, 3, 4, 5, 6, 7] 3 (by decide) (by decide)).1⟩

/-! ## The part set: reconstruction -/

/-- The bytes collected from `new_part_set_from_data(data, 1)` for data of `2^32 + 1` bytes:
`total` is 1 and the one part holds the first byte. -/
theorem from_data_wrapped (M : Merkle) (data : List Nat) (hl : data.length = 2 ^ 32 + 1) :
    (part_set.new_part_set_from_data M data 1).total = 1 ∧
    new_block_from_part_set_bytes (part_set.new_part_set_from_data M data 1)
      = some (data.take 1) ∧
    (part_set.new_part_set_from_data M data 1).stored_size = 1 := by
  have ht : (data.length + 1 + 2 ^ 64 - 1) % 2 ^ 64 / 1 % 2 ^ 32 = 1 := by
    rw [hl]; norm_num
  have hr : List.range 1 = [0] := rfl
  have hb : part_bytes data 1 0 = data.take 1 := by
    unfold part_bytes
    rw [hl]
    norm_num
  refine ⟨?_, ?_, ?_⟩
  · simp only [part_set.new_part_set_from_data, ht]
  · unfold new_block_from_part_set_bytes part_set.is_complete part_set.new_part_set_from_data
    simp only [ht, decide_True, Bool.true_eq_false, if_false, hr, List.map_cons,
      List.map_nil, List.foldr_cons, List.foldr_nil, hb, List.append_nil]
  · have hp : (part_set.new_part_set_from_data M data 1).parts
        = [some (part.mk 0 (data.take 1) ((M.proofs_from_bytes_list [data.take 1]).2 0))] := by
      simp only [part_set.new_part_set_from_data, ht, hr, List.map_cons, List.map_nil, hb]
    rw [part_set.stored_size, hp]
    simp only [List.map_cons, List.map_nil, slot_size, List.sum_cons, List.sum_nil,
      List.length_take, hl]
    norm_num

/-- C26 as stated fails: for the data of `2^32 + 1` zero bytes and part size 1, `total` is
stored in a `uint32_t` as 1, the one part holds one byte, and the bytes collected from the
part set are that one byte, not the data. -/
theorem from_data_truncated :
    0 < 1 ∧
    new_block_from_part_set_bytes
        (part_set.new_part_set_from_data Merkle.flag (List.replicate (2 ^ 32 + 1) 0) 1)
      ≠ some (List.replicate (2 ^ 32 + 1) 0) := by
  refine ⟨Nat.one_pos, ?_⟩
  rw [(from_data_wrapped Merkle.flag _ (List.length_replicate _ _)).2.1]
  intro h
  have hlen := congrArg List.length (Option.some.inj h)
  rw [List.length_take, List.length_replicate] at hlen
  omega

/-- C26, amended: for every byte string `S` and every part size `P > 0` with
`|S| + P < 2^32`, concatenating the bytes of the parts of `new_part_set_from_data(S, P)` in
index order, as `new_block_from_part_set` does before decoding, yields exactly `S`, and the
part set's `byte_size` equals `|S|`. -/
theorem chunk_roundtrip (M : Merkle) (S : List Nat) (P : Nat) (hP : 0 < P)
    (hlt : S.length + P < 2 ^ 32) :
    new_block_from_part_set_bytes (part_set.new_part_set_from_data M S P) = some S ∧
    (part_set.new_part_set_from_data M S P).byte_size = S.length := by
  refine ⟨?_, rfl⟩
  have ht := total_eq S.length P hP hlt
  unfold new_block_from_part_set_bytes part_set.is_complete part_set.new_part_set_from_data
  simp only [ht, decide_True, Bool.true_eq_false, if_false]
  exact (foldr_filled (fun i => part_bytes S P i)
    (fun i => (M.proofs_from_bytes_list
      ((List.range ((S.length + P - 1) / P)).map fun i => part_bytes S P i)).2 i)
    (List.range ((S.length + P - 1) / P))).trans (congrArg some (flatten_parts S P hP hlt))

/-- C26, amended, at the 7 bytes `1..7` and part size 3. -/
theorem chunk_roundtrip_witness :
    (0 < 3 ∧ [1, 2, 3, 4, 5, 6, 7].length + 3 < 2 ^ 32) ∧
    new_block_from_part_set_bytes
        (part_set.new_part_set_from_data Merkle.flag [1, 2, 3, 4, 5, 6, 7] 3)
      = some [1, 2, 3, 4, 5, 6, 7] ∧
    (part_set.new_part_set_from_data Merkle.flag [1, 2, 3, 4, 5, 6, 7] 3).byte_size = 7 :=
  ⟨⟨by decide, by decide⟩,
   chunk_roundtrip Merkle.flag [1, 2, 3, 4, 5, 6, 7] 3 (by decide) (by decide)⟩

/-! ## The part set: adding a part -/

/-- The duplicate test of `add_part` on a part set with `total` slots, for an index below
`total`: it reads the slot. -/
theorem exists_part_eq {M : Merkle} (ps : part_set M) (i : Nat) (hi : i < ps.parts.length) :
    ps.exists_part i = some (ps.parts.get ⟨i, hi⟩).isSome := by
  unfold part_set.exists_part
  rw [if_pos ⟨by omega, by omega⟩, List.get?_eq_get hi]
  rfl

/-- What `add_part` does, on a part set with `total` slots, with a part that it accepts. -/
theorem add_part_ok {M : Merkle} (ps : part_set M) (p : part M)
    (hwf : ps.parts.length = ps.total) (h1 : p.index < ps.total)
    (h2 : ps.parts.get? p.index = some none)
    (h3 : M.verify p.proof_ ps.hash p.bytes_ = true) :
    ps.add_part p = some (true, { ps with
      parts := ps.parts.set p.index (some p)
      parts_bit_array := bit_array.set_index ps.parts_bit_array p.index true
      count := ps.count + 1
      byte_size := ps.byte_size + p.bytes_.length }) := by
  have hi : p.index < ps.parts.length := by omega
  have hs : ps.parts.get ⟨p.index, hi⟩ = none := by
    rw [List.get?_eq_get hi] at h2
    exact Option.some.inj h2
  unfold part_set.add_part
  rw [if_neg (by omega), exists_part_eq ps p.index hi, hs]
  simp only [Option.isSome_none, part_set.get_hash]
  rw [if_neg (by simp [h3]), if_pos hi]

/-- What `add_part` does, on a part set with `total` slots, with any other part: it returns
false and the part set is unchanged. -/
theorem add_part_refused {M : Merkle} (ps : part_set M) (p : part M)
    (hwf : ps.parts.length = ps.total)
    (h : ¬ (p.index < ps.total ∧ ps.parts.get? p.index = some none ∧
      M.verify p.proof_ ps.hash p.bytes_ = true)) :
    ps.add_part p = some (false, ps) := by
  unfold part_set.add_part
  by_cases h1 : p.index ≥ ps.total
  · rw [if_pos h1]
  · have hi : p.index < ps.parts.length := by omega
    rw [if_neg h1, exists_part_eq ps p.index hi]
    cases hs : ps.parts.get ⟨p.index, hi⟩ with
    | some q => rfl
    | none =>
      simp only [Option.isSome_none, part_set.get_hash]
      by_cases hv : M.verify p.proof_ ps.hash p.bytes_ = false
      · rw [if_pos hv]
      · exfalso
        apply h
        refine ⟨by omega, ?_, by simpa using hv⟩
        rw [List.get?_eq_get hi, hs]

/-- C27: for every part set with `total` slots and every part `p`, `add_part(p)` returns, and
it returns true if and only if `p.index < total`, slot `p.index` is empty, and `p`'s Merkle
proof verifies against the part set hash and `p`'s bytes; whenever it returns false the part
set (slots, bit array, `count` and `byte_size`) is unchanged. -/
theorem add_part_iff (M : Merkle) (ps : part_set M) (p : part M)
    (hwf : ps.parts.length = ps.total) :
    ∃ (b : Bool) (ps1 : part_set M), ps.add_part p = some (b, ps1) ∧
      (b = true ↔ p.index < ps.total ∧ ps.parts.get? p.index = some none ∧
        M.verify p.proof_ ps.hash p.bytes_ = true) ∧
      (b = false → ps1 = ps) := by
  by_cases h : p.index < ps.total ∧ ps.parts.get? p.index = some none ∧
      M.verify p.proof_ ps.hash p.bytes_ = true
  · exact ⟨true, _, add_part_ok ps p hwf h.1 h.2.1 h.2.2, ⟨fun _ => h, fun _ => rfl⟩,
      fun hb => by simp at hb⟩
  · exact ⟨false, ps, add_part_refused ps p hwf h, ⟨fun hb => by simp at hb,
      fun hc => absurd hc h⟩, fun _ => rfl⟩

/-- C27 at the part set of a header with 3 parts and a verifying part of index 1, added
twice: the second call returns false and changes nothing. -/
theorem add_part_iff_witness :
    (part_set.new_part_set_from_header Merkle.flag ⟨3, []⟩).parts.length
      = (part_set.new_part_set_from_header Merkle.flag ⟨3, []⟩).total ∧
    ∃ (b : Bool) (ps1 : part_set Merkle.flag),
      (part_set.new_part_set_from_header Merkle.flag ⟨3, []⟩).add_part ⟨1, [1, 2], true⟩
        = some (b, ps1) ∧
      (b = true ↔ 1 < 3 ∧
        (part_set.new_part_set_from_header Merkle.flag ⟨3, []⟩).parts.get? 1 = some none ∧
        Merkle.flag.verify true [] [1, 2] = true) ∧
      (b = false → ps1 = part_set.new_part_set_from_header Merkle.flag ⟨3, []⟩) :=
  ⟨rfl, add_part_iff Merkle.flag (part_set.new_part_set_from_header Merkle.flag ⟨3, []⟩)
    ⟨1, [1, 2], true⟩ rfl⟩

/-! ## The part set: what it keeps count of -/

/-- Filling an empty slot adds one to the number of non-empty slots. -/
theorem countP_set_none {α : Type} (x : α) : ∀ (l : List (Option α)) (i : Nat),
    l.get? i = some none →
      (l.set i (some x)).countP Option.isSome = l.countP Option.isSome + 1
  | [], i, h => by simp at h
  | a :: l, 0, h => by
    have ha : a = none := by simpa using h
    subst ha
    simp [List.countP_cons]
  | a :: l, i + 1, h => by
    have hl : l.get? i = some none := by simpa using h
    simp only [List.set_cons_succ, List.countP_cons, countP_set_none x l i hl]
    omega

/-- Filling an empty slot adds the byte length of the part to the sum of the byte lengths. -/
theorem sum_set_none {M : Merkle} (p : part M) : ∀ (l : List (Option (part M))) (i : Nat),
    l.get? i = some none →
      ((l.set i (some p)).map slot_size).sum = (l.map slot_size).sum + p.bytes_.length
  | [], i, h => by simp at h
  | a :: l, 0, h => by
    have ha : a = none := by simpa using h
    subst ha
    simp [slot_size, Nat.add_comm]
  | a :: l, i + 1, h => by
    have hl : l.get? i = some none := by simpa using h
    simp only [List.set_cons_succ, List.map_cons, List.sum_cons, sum_set_none p l i hl]
    omega

/-- Setting the bits `0..n-1` of an array of `n` clear bits gives `n` set bits. -/
theorem foldl_set_index (m : Nat) : ∀ n : Nat, n ≤ m →
    (List.range n).foldl (fun a i => bit_array.set_index a i true)
        (bit_array.new_bit_array m)
      = List.replicate n true ++ List.replicate (m - n) false
  | 0, _ => by simp [bit_array.new_bit_array]
  | n + 1, h => by
    rw [List.range_succ, List.foldl_append, foldl_set_index m n (by omega)]
    simp only [List.foldl_cons, List.foldl_nil, bit_array.set_index]
    apply List.ext_getElem?
    intro j
    simp only [List.getElem?_set, List.getElem?_append, List.getElem?_replicate,
      List.length_append, List.length_replicate]
    by_cases h1 : n = j
    · subst h1
      simp
      omega
    · by_cases h2 : j < n
      · simp [h1, h2, show j < n + 1 by omega]
      · simp [h1, h2, show ¬ j < n + 1 by omega]
        by_cases h3 : j - n < m - n
        · simp [h3, show j - (n + 1) < m - (n + 1) by omega]
        · simp [h3, show ¬ j - (n + 1) < m - (n + 1) by omega]

/-- The part set of a header keeps count. -/
theorem part_set.Inv.from_header {M : Merkle} (header : part_set_header) :
    (part_set.new_part_set_from_header M header).Inv := by
  refine ⟨?_, ?_, ?_, ?_⟩
  · simp [part_set.new_part_set_from_header]
  · simp [part_set.new_part_set_from_header, part_set.filled, List.countP_replicate]
  · simp [part_set.new_part_set_from_header, bit_array.new_bit_array]
  · simp [part_set.new_part_set_from_header, part_set.stored_size, slot_size]

/-- The part set of data keeps count, when nothing wraps. -/
theorem part_set.Inv.from_data {M : Merkle} (data : List Nat) (P : Nat) (hP : 0 < P)
    (hlt : data.length + P < 2 ^ 32) :
    (part_set.new_part_set_from_data M data P).Inv := by
  have ht := total_eq data.length P hP hlt
  refine ⟨?_, ?_, ?_, ?_⟩
  · simp only [part_set.new_part_set_from_data, ht, List.length_map, List.length_range]
  · simp only [part_set.new_part_set_from_data, part_set.filled, ht, List.countP_map]
    exact ((List.countP_eq_length.2 (fun _ _ => rfl)).trans (List.length_range _)).symm
  · simp only [part_set.new_part_set_from_data, ht]
    rw [foldl_set_index _ _ (Nat.le_refl _)]
    symm
    rw [Nat.sub_self, List.replicate_zero, List.append_nil, List.eq_replicate_iff]
    simp
  · simp only [part_set.new_part_set_from_data, part_set.stored_size, ht, List.map_map]
    have hf := congrArg List.length (flatten_parts data P hP hlt)
    rw [List.length_flatten, List.map_map] at hf
    exact hf.symm

/-- A call of `add_part` on a part set that keeps count gives one that keeps count. -/
theorem part_set.Inv.add_part {M : Merkle} {ps : part_set M} (h : ps.Inv) (p : part M)
    (r : Bool × part_set M) (hr : ps.add_part p = some r) : r.2.Inv := by
  obtain ⟨h1, h2, h3, h4⟩ := h
  by_cases hc : p.index < ps.total ∧ ps.parts.get? p.index = some none ∧
      M.verify p.proof_ ps.hash p.bytes_ = true
  · rw [add_part_ok ps p h1 hc.1 hc.2.1 hc.2.2] at hr
    have hr2 := Option.some.inj hr
    subst hr2
    refine ⟨?_, ?_, ?_, ?_⟩
    · simp only [List.length_set]; exact h1
    · simp only [part_set.filled, countP_set_none p ps.parts p.index hc.2.1]
      rw [h2]; rfl
    · simp only [bit_array.set_index, h3, List.map_set, Option.isSome_some]
    · simp only [part_set.stored_size, sum_set_none p ps.parts p.index hc.2.1]
      rw [h4]; rfl
  · rw [add_part_refused ps p h1 hc] at hr
    have hr2 := Option.some.inj hr
    subst hr2
    exact ⟨h1, h2, h3, h4⟩

/-- Every part set built by the constructors and `add_part` keeps count. -/
theorem Built.keeps_count {M : Merkle} {ps : part_set M} (h : Built M ps) : ps.Inv := by
  induction h with
  | from_header header _ => exact part_set.Inv.from_header header
  | from_data data P hP hlt => exact part_set.Inv.from_data data P hP hlt
  | add_part ps p r _ hr ih => exact ih.add_part p r hr

/-- C28 as stated fails: the part set that `new_part_set_from_data` makes of `2^32 + 1` zero
bytes with part size 1 stores one part of one byte, and its `byte_size` is `2^32 + 1`. -/
theorem from_data_byte_size_off :
    (part_set.new_part_set_from_data Merkle.flag (List.replicate (2 ^ 32 + 1) 0) 1).byte_size
      ≠ (part_set.new_part_set_from_data Merkle.flag (List.replicate (2 ^ 32 + 1) 0) 1
        ).stored_size := by
  rw [(from_data_wrapped Merkle.flag _ (List.length_replicate _ _)).2.2]
  show (List.replicate (2 ^ 32 + 1) 0).length ≠ 1
  rw [List.length_replicate]
  omega

/-- C28, amended: in every part set obtained from `new_part_set_from_header`, or from
`new_part_set_from_data` with a part size `P > 0` and data `S` with `|S| + P < 2^32`,
followed by any sequence of `add_part` calls, `count` equals the number of non-empty slots,
the bit array has exactly the bits of the non-empty slots set, and `byte_size` equals the sum
of the byte lengths of the stored parts. -/
theorem built_counts (M : Merkle) (ps : part_set M) (h : Built M ps) :
    ps.count = ps.parts.countP Option.isSome ∧
    (ps.parts_bit_array.length = ps.total ∧
      ∀ i, i < ps.total →
        (ps.parts_bit_array.get? i = some true ↔ ∃ p, ps.parts.get? i = some (some p))) ∧
    ps.byte_size = (ps.parts.map slot_size).sum := by
  obtain ⟨h1, h2, h3, h4⟩ := h.keeps_count
  refine ⟨h2, ⟨?_, ?_⟩, h4⟩
  · rw [h3, List.length_map, h1]
  · intro i hi
    have hi2 : i < ps.parts.length := by omega
    rw [h3, List.get?_eq_getElem?, List.getElem?_map, List.get?_eq_getElem?,
      List.getElem?_eq_getElem hi2]
    cases ps.parts[i] with
    | none => simp
    | some p => simp

/-- C28, amended, at the part set of a header with 3 parts after a verifying part of index 1
was added. -/
theorem built_counts_witness :
    Built Merkle.flag (true, part_set.mk 3 [] [none, some ⟨1, [1, 2], true⟩, none]
      [false, true, false] 1 2).2 ∧
    (part_set.mk 3 [] [none, some ⟨1, [1, 2], true⟩, none] [false, true, false] 1 2 :
      part_set Merkle.flag).count
      = ([none, some ⟨1, [1, 2], true⟩, none] : List (Option (part Merkle.flag))).countP
        Option.isSome ∧
    (part_set.mk 3 [] [none, some ⟨1, [1, 2], true⟩, none] [false, true, false] 1 2 :
      part_set Merkle.flag).byte_size
      = (([none, some ⟨1, [1, 2], true⟩, none] : List (Option (part Merkle.flag))).map
        slot_size).sum :=
  have hb : Built Merkle.flag (true, part_set.mk 3 [] [none, some ⟨1, [1, 2], true⟩, none]
      [false, true, false] 1 2).2 :=
    Built.add_part (part_set.new_part_set_from_header Merkle.flag ⟨3, []⟩) ⟨1, [1, 2], true⟩ _
      (Built.from_header ⟨3, []⟩ (by decide)) rfl
  ⟨hb, (built_counts Merkle.flag _ hb).1, (built_counts Merkle.flag _ hb).2.2⟩

/-! ## The genesis document: initial height and consensus parameters -/

/-- The document after a call that got past the checks of `chain_id` and `initial_height`
and of the consensus parameters: what `validate_and_complete` returns in terms of the
validator loop. -/
theorem validate_and_complete_eq {PK : Type} (address : PK → List Nat) (now : Int)
    (g : genesis_doc PK) (h1 : g.chain_id ≠ []) (h2 : ¬ g.chain_id.length > max_chain_id_len)
    (h3 : ¬ g.initial_height < 0)
    (hp : ∀ p, g.cs_params = some p → p.validate_consensus_params = none) :
    (g.validate_and_complete address now).2.initial_height
      = (if g.initial_height = 0 then 1 else g.initial_height) ∧
    (g.validate_and_complete address now).2.cs_params
      = some (g.cs_params.getD consensus_params.get_default) := by
  unfold genesis_doc.validate_and_complete
  rw [if_neg h1, if_neg h2, if_neg h3]
  cases hc : g.cs_params with
  | none =>
    by_cases h0 : g.initial_height = 0
    · simp only [h0, hc, if_true, Option.getD_none]
      constructor <;> split_ifs <;> rfl
    · simp only [h0, hc, if_false, Option.getD_none]
      constructor <;> split_ifs <;> rfl
  | some p =>
    have hv := hp p hc
    by_cases h0 : g.initial_height = 0
    · simp only [h0, hc, hv, if_true, Option.getD_some]
      constructor <;> split_ifs <;> rfl
    · simp only [h0, hc, hv, if_false, Option.getD_some]
      constructor <;> split_ifs <;> rfl

/-- The call leaves an `initial_height` other than 0 as it is. -/
theorem validate_and_complete_height {PK : Type} (address : PK → List Nat) (now : Int)
    (g : genesis_doc PK) (h0 : g.initial_height ≠ 0) :
    (g.validate_and_complete address now).2.initial_height = g.initial_height := by
  unfold genesis_doc.validate_and_complete
  by_cases h1 : g.chain_id = []
  · rw [if_pos h1]
  by_cases h2 : g.chain_id.length > max_chain_id_len
  · rw [if_neg h1, if_pos h2]
  by_cases h3 : g.initial_height < 0
  · rw [if_neg h1, if_neg h2, if_pos h3]
  rw [if_neg h1, if_neg h2, if_neg h3]
  cases hc : g.cs_params with
  | none => simp only [h0, hc, if_false]; split_ifs <;> rfl
  | some p =>
    cases hp : p.validate_consensus_params with
    | some e => simp only [h0, hc, hp, if_false]
    | none => simp only [h0, hc, hp, if_false]; split_ifs <;> rfl

/-- C31 as stated fails: the genesis document with an empty chain id and `initial_height`
0 is refused at the first check, and its `initial_height` is still 0 after the call. -/
theorem initial_height_zero_kept :
    (genesis_doc.mk 0 [] 0 none ([] : List (genesis_validator Unit)) [] []).initial_height = 0 ∧
    ((genesis_doc.mk 0 [] 0 none ([] : List (genesis_validator Unit)) [] []
      ).validate_and_complete (fun _ => [1]) 1).2.initial_height ≠ 1 := by
  decide

/-- C31, amended: for every genesis document, `validate_and_complete` returns false when
`initial_height` is negative, rewrites an `initial_height` of 0 to 1 when `chain_id` is
non-empty and at most 50 bytes long, leaves a positive `initial_height` unchanged, and
whenever it returns true `initial_height` is at least 1 afterwards. -/
theorem initial_height_checked {PK : Type} (address : PK → List Nat) (now : Int)
    (g : genesis_doc PK) :
    (g.initial_height < 0 → (g.validate_and_complete address now).1 = false) ∧
    (g.initial_height = 0 → g.chain_id ≠ [] → g.chain_id.length ≤ 50 →
      (g.validate_and_complete address now).2.initial_height = 1) ∧
    (0 < g.initial_height →
      (g.validate_and_complete address now).2.initial_height = g.initial_height) ∧
    ((g.validate_and_complete address now).1 = true →
      1 ≤ (g.validate_and_complete address now).2.initial_height) := by
  refine ⟨?_, ?_, ?_, ?_⟩
  · intro hneg
    cases hr : (g.validate_and_complete address now).1 with
    | false => rfl
    | true =>
      have := (validate_and_complete_true address now g hr).2.2.1
      omega
  · intro h0 hc hl
    unfold genesis_doc.validate_and_complete
    rw [if_neg hc, if_neg (show ¬ g.chain_id.length > max_chain_id_len from by
      simp only [max_chain_id_len]; omega), if_neg (show ¬ g.initial_height < 0 from by omega)]
    cases hcs : g.cs_params with
    | none => simp only [h0, hcs, if_true]; split_ifs <;> rfl
    | some p =>
      cases hp : p.validate_consensus_params with
      | some e => simp only [h0, hcs, hp, if_true]
      | none => simp only [h0, hcs, hp, if_true]; split_ifs <;> rfl
  · intro hpos
    exact validate_and_complete_height address now g (by omega)
  · intro hr
    obtain ⟨h1, h2, h3, h4, _⟩ := validate_and_complete_true address now g hr
    obtain ⟨e1, _⟩ := validate_and_complete_eq address now g h1 (by omega) (by omega) h4
    rw [e1]
    split_ifs <;> omega

/-- C31, amended, at the document with chain id `"a"` and `initial_height` 0, which is
accepted with `initial_height` 1. -/
theorem initial_height_checked_witness :
    (genesis_doc.mk 0 [97] 0 none ([] : List (genesis_validator Unit)) [] []).initial_height
      = 0 ∧
    ((genesis_doc.mk 0 [97] 0 none ([] : List (genesis_validator Unit)) [] []
      ).validate_and_complete (fun _ => [1]) 1).1 = true ∧
    ((genesis_doc.mk 0 [97] 0 none ([] : List (genesis_validator Unit)) [] []
      ).validate_and_complete (fun _ => [1]) 1).2.initial_height = 1 :=
  ⟨rfl, by decide,
   (initial_height_checked (fun _ => [1]) 1
      (genesis_doc.mk 0 [97] 0 none ([] : List (genesis_validator Unit)) [] [])).2.1
      rfl (by decide) (by decide)⟩

/-- C32: for every `consensus_params` value, `validate_consensus_params` reports no error if
and only if `0 < block.max_bytes ≤ 104857600` and `block.max_gas ≥ -1`; the default
parameters, with block `max_bytes` 22020096 and `max_gas` -1, pass this validation; and a
genesis document for which `validate_and_complete` returns true holds afterwards a
`cs_params` value that passes it. -/
theorem consensus_params_checked {PK : Type} (address : PK → List Nat) (now : Int)
    (g : genesis_doc PK) (p : consensus_params) :
    (p.validate_consensus_params = none ↔
      0 < p.block.max_bytes ∧ p.block.max_bytes ≤ 104857600 ∧ -1 ≤ p.block.max_gas) ∧
    (consensus_params.get_default.block.max_bytes = 22020096 ∧
      consensus_params.get_default.block.max_gas = -1 ∧
      consensus_params.get_default.validate_consensus_params = none) ∧
    ((g.validate_and_complete address now).1 = true →
      ∃ q, (g.validate_and_complete address now).2.cs_params = some q ∧
        q.validate_consensus_params = none) := by
  refine ⟨?_, ⟨rfl, rfl, by decide⟩, ?_⟩
  · unfold consensus_params.validate_consensus_params
    simp only [max_block_size_bytes]
    constructor
    · intro h
      split_ifs at h with c1 c2 c3
      omega
    · rintro ⟨c1, c2, c3⟩
      rw [if_neg (by omega), if_neg (by omega), if_neg (by omega)]
  · intro hr
    obtain ⟨h1, h2, h3, h4, _⟩ := validate_and_complete_true address now g hr
    obtain ⟨_, e2⟩ := validate_and_complete_eq address now g h1 (by omega) (by omega) h4
    refine ⟨_, e2, ?_⟩
    cases hc : g.cs_params with
    | none => decide
    | some q => exact h4 q hc

/-- C32 at the document with chain id `"a"` and no consensus parameters, which is accepted
and holds the default parameters afterwards. -/
theorem consensus_params_checked_witness :
    ((genesis_doc.mk 0 [97] 1 none ([] : List (genesis_validator Unit)) [] []
      ).validate_and_complete (fun _ => [1]) 1).1 = true ∧
    ∃ q, ((genesis_doc.mk 0 [97] 1 none ([] : List (genesis_validator Unit)) [] []
      ).validate_and_complete (fun _ => [1]) 1).2.cs_params = some q ∧
      q.validate_consensus_params = none :=
  ⟨by decide,
   (consensus_params_checked (fun _ => [1]) 1
      (genesis_doc.mk 0 [97] 1 none ([] : List (genesis_validator Unit)) [] [])
      consensus_params.get_default).2.2 (by decide)⟩

/-! ## The height vote set: the rounds kept -/

theorem map_find_append {κ β : Type} [DecidableEq κ] (m : List (κ × β)) (k j : κ) (v : β) :
    map_find (m ++ [(k, v)]) j
      = match map_find m j with
        | some x => some x
        | none => if k = j then some v else none := by
  induction m with
  | nil => by_cases h : k = j <;> simp [map_find, h]
  | cons e m ih =>
    by_cases he : e.1 = j
    · simp [map_find, he]
    · simp only [map_find, List.cons_append, List.find?_cons, he, decide_False] at ih ⊢
      exact ih

theorem map_find_replace {κ β : Type} [DecidableEq κ] (m : List (κ × β)) (k j : κ) (v : β) :
    map_find (m.map fun e => if e.1 = k then (k, v) else e) j
      = if j = k then (map_find m j).map (fun _ => v) else map_find m j := by
  induction m with
  | nil => simp [map_find]
  | cons e m ih =>
    by_cases hk : j = k
    · subst hk
      simp only [if_true] at ih ⊢
      by_cases he : e.1 = j
      · simp [map_find, he]
      · simp only [map_find, List.map_cons, he, if_false, List.find?_cons, decide_False] at ih ⊢
        exact ih
    · simp only [hk, if_false] at ih ⊢
      by_cases hek : e.1 = k
      · have hej : ¬ e.1 = j := fun h => hk (h.symm.trans hek)
        have hkj : ¬ k = j := fun h => hk h.symm
        simp only [map_find, List.map_cons, hek, if_true, List.find?_cons, hkj, hej,
          decide_False] at ih ⊢
        exact ih
      · by_cases hej : e.1 = j
        · have hd : decide (e.1 = j) = true := by simpa using hej
          rw [map_find, map_find, List.map_cons, if_neg hek, List.find?_cons, List.find?_cons,
            hd]
        · simp only [map_find, List.map_cons, hek, if_false, List.find?_cons, hej,
            decide_False] at ih ⊢
          exact ih

/-- After `m[k] = v` the map has the key `k`, and the other keys it had. -/
theorem map_contains_assign {κ β : Type} [DecidableEq κ] (m : List (κ × β)) (k j : κ) (v : β) :
    map_contains (map_assign m k v) j = true ↔ j = k ∨ map_contains m j = true := by
  unfold map_assign
  by_cases hc : map_contains m k = true
  · rw [if_pos hc]
    unfold map_contains at hc ⊢
    rw [map_find_replace]
    by_cases hj : j = k
    · subst hj
      simp [hc]
    · simp [hj]
  · rw [if_neg hc]
    unfold map_contains at hc ⊢
    rw [map_find_append]
    cases hf : map_find m j with
    | some x => simp
    | none =>
      by_cases hj : k = j
      · simp [hj]
      · have hj2 : ¬ j = k := fun h => hj h.symm
        simp [hj, hj2]

/-- A map over the pairs that keeps the keys keeps what the map contains. -/
theorem map_contains_map {κ β : Type} [DecidableEq κ] (g : κ × β → κ × β)
    (hg : ∀ e, (g e).1 = e.1) (m : List (κ × β)) (j : κ) :
    map_contains (m.map g) j = map_contains m j := by
  induction m with
  | nil => rfl
  | cons e m ih =>
    unfold map_contains map_find at ih ⊢
    by_cases he : e.1 = j
    · simp [List.find?_cons, hg, he]
    · simp only [List.map_cons, List.find?_cons, hg, he, decide_False]
      exact ih

/-- The rounds that `add_round` leaves: the new one and those of before. -/
theorem add_round_has {D : Decls} (h : height_vote_set D) (r k : Int) :
    map_contains (h.add_round r).2.round_vote_sets k = true
      ↔ k = r ∨ map_contains h.round_vote_sets k = true := by
  unfold height_vote_set.add_round
  by_cases hc : map_contains h.round_vote_sets r = true
  · rw [if_pos hc]
    constructor
    · exact Or.inr
    · rintro (rfl | hk)
      · exact hc
      · exact hk
  · rw [if_neg hc]
    exact map_contains_assign _ _ _ _

theorem add_round_round {D : Decls} (h : height_vote_set D) (r : Int) :
    (h.add_round r).2.round = h.round := by
  unfold height_vote_set.add_round
  split_ifs <;> rfl

/-- The rounds that the loop of `set_round` leaves: those of before and those it visits. -/
theorem set_round_loop_has {D : Decls} (round_ : Int) : ∀ (n : Nat) (r : Int)
    (h : height_vote_set D) (k : Int),
    map_contains (height_vote_set.set_round_loop round_ n r h).2.round_vote_sets k = true
      ↔ map_contains h.round_vote_sets k = true ∨ (r ≤ k ∧ k ≤ round_ ∧ k < r + n)
  | 0, r, h, k => by
    simp only [height_vote_set.set_round_loop, Nat.cast_zero, add_zero]
    constructor
    · exact Or.inl
    · rintro (hk | hk)
      · exact hk
      · omega
  | n + 1, r, h, k => by
    unfold height_vote_set.set_round_loop
    by_cases hr : r ≤ round_
    · rw [if_pos hr]
      by_cases hc : map_contains h.round_vote_sets r = true
      · rw [if_pos hc, set_round_loop_has round_ n (r + 1) h k]
        constructor
        · rintro (hk | hk)
          · exact Or.inl hk
          · exact Or.inr ⟨by omega, hk.2.1, by push_cast; omega⟩
        · rintro (hk | hk)
          · exact Or.inl hk
          · by_cases hkr : k = r
            · subst hkr; exact Or.inl hc
            · exact Or.inr ⟨by omega, hk.2.1, by push_cast at hk; omega⟩
      · rw [if_neg hc]
        have ha := add_round_has h r k
        rcases hadd : h.add_round r with ⟨res, h1⟩
        rw [hadd] at ha
        cases res with
        | error e =>
          simp only
          rw [ha]
          constructor
          · rintro (hk | hk)
            · exact Or.inr ⟨by omega, by omega, by push_cast; omega⟩
            · exact Or.inl hk
          · rintro (hk | hk)
            · exact Or.inr hk
            · exfalso
              unfold height_vote_set.add_round at hadd
              rw [if_neg hc] at hadd
              cases hadd
        | ok u =>
          simp only
          rw [set_round_loop_has round_ n (r + 1) h1 k, ha]
          constructor
          · rintro ((hk | hk) | hk)
            · exact Or.inr ⟨by omega, by omega, by push_cast; omega⟩
            · exact Or.inl hk
            · exact Or.inr ⟨by omega, hk.2.1, by push_cast; omega⟩
          · rintro (hk | hk)
            · exact Or.inl (Or.inr hk)
            · by_cases hkr : k = r
              · exact Or.inl (Or.inl hkr)
              · exact Or.inr ⟨by omega, hk.2.1, by push_cast at hk; omega⟩
    · rw [if_neg hr]
      constructor
      · exact Or.inl
      · rintro (hk | hk)
        · exact hk
        · omega

theorem set_round_loop_round {D : Decls} (round_ : Int) : ∀ (n : Nat) (r : Int)
    (h : height_vote_set D), (height_vote_set.set_round_loop round_ n r h).2.round = h.round
  | 0, _, _ => rfl
  | n + 1, r, h => by
    unfold height_vote_set.set_round_loop
    by_cases hr : r ≤ round_
    · rw [if_pos hr]
      by_cases hc : map_contains h.round_vote_sets r = true
      · rw [if_pos hc]; exact set_round_loop_round round_ n (r + 1) h
      · rw [if_neg hc]
        have ha := add_round_round h r
        rcases hadd : h.add_round r with ⟨res, h1⟩
        rw [hadd] at ha
        cases res with
        | error e => exact ha
        | ok u => exact (set_round_loop_round round_ n (r + 1) h1).trans ha
    · rw [if_neg hr]

/-- What `set_round` leaves: the object of before when it throws, else the new round and
the rounds of before with those from `round - 1` to the new round. -/
theorem set_round_spec {D : Decls} (h : height_vote_set D) (round_ : Int) :
    ((h.round ≠ 0 ∧ round_ < h.round - 1) ∧ (h.set_round round_).2 = h) ∨
    (¬ (h.round ≠ 0 ∧ round_ < h.round - 1) ∧
      ((h.set_round round_).2.round = round_ ∨ (h.set_round round_).2.round = h.round) ∧
      ∀ k, map_contains (h.set_round round_).2.round_vote_sets k = true
        ↔ map_contains h.round_vote_sets k = true ∨ (h.round - 1 ≤ k ∧ k ≤ round_)) := by
  unfold height_vote_set.set_round
  dsimp only
  by_cases hg : h.round ≠ 0 ∧ round_ < h.round - 1
  · rw [if_pos hg]
    exact Or.inl ⟨hg, rfl⟩
  · rw [if_neg hg]
    refine Or.inr ⟨hg, ?_⟩
    have hl := set_round_loop_has round_ (round_ + 1 - (h.round - 1)).toNat (h.round - 1) h
    have hrd := set_round_loop_round round_ (round_ + 1 - (h.round - 1)).toNat (h.round - 1) h
    rcases hloop : height_vote_set.set_round_loop round_ (round_ + 1 - (h.round - 1)).toNat
      (h.round - 1) h with ⟨res, h1⟩
    rw [hloop] at hl hrd
    have hk : ∀ k, map_contains h1.round_vote_sets k = true
        ↔ map_contains h.round_vote_sets k = true ∨ (h.round - 1 ≤ k ∧ k ≤ round_) := by
      intro k
      rw [hl k]
      constructor
      · rintro (hk | hk)
        · exact Or.inl hk
        · exact Or.inr ⟨hk.1, hk.2.1⟩
      · rintro (hk | hk)
        · exact Or.inl hk
        · exact Or.inr ⟨hk.1, hk.2, by omega⟩
    cases res with
    | error e => exact ⟨Or.inr hrd, hk⟩
    | ok u => exact ⟨Or.inl rfl, hk⟩

theorem forward_has {D : Decls} (h : height_vote_set D) (vote_ : D.vote) (s : D.vote_set)
    (k : Int) :
    map_contains (h.forward vote_ s).2.round_vote_sets k = map_contains h.round_vote_sets k := by
  unfold height_vote_set.forward
  dsimp only
  apply map_contains_map
  intro e
  split_ifs <;> rfl

/-- A call of `add_vote` keeps the round and the rounds that have an entry. -/
theorem add_vote_keeps {D : Decls} (h : height_vote_set D) (vote_ : D.vote)
    (peer_id : D.node_id) :
    (h.add_vote vote_ peer_id).2.round = h.round ∧
    ∀ k, map_contains h.round_vote_sets k = true →
      map_contains (h.add_vote vote_ peer_id).2.round_vote_sets k = true := by
  unfold height_vote_set.add_vote
  split_ifs
  · exact ⟨rfl, fun _ hk => hk⟩
  · cases hg : h.get_vote_set (D.vote_round vote_) (D.vote_type vote_) with
    | error e => exact ⟨rfl, fun _ hk => hk⟩
    | ok o =>
      cases o with
      | some s => exact ⟨rfl, fun k hk => by simp only [forward_has]; exact hk⟩
      | none =>
        simp only
        cases hp : map_find h.peer_catchup_rounds peer_id with
        | none => exact ⟨rfl, fun _ hk => hk⟩
        | some rounds =>
          simp only
          split_ifs
          · exact ⟨rfl, fun _ hk => hk⟩
          · have ha := add_round_has h (D.vote_round vote_)
            have har := add_round_round h (D.vote_round vote_)
            rcases hadd : h.add_round (D.vote_round vote_) with ⟨res, h1⟩
            rw [hadd] at ha har
            cases res with
            | error e => exact ⟨har, fun k hk => (ha k).2 (Or.inr hk)⟩
            | ok u =>
              simp only
              cases hg1 : h1.get_vote_set (D.vote_round vote_) (D.vote_type vote_) with
              | error e => exact ⟨har, fun k hk => (ha k).2 (Or.inr hk)⟩
              | ok o1 =>
                cases o1 with
                | none => exact ⟨har, fun k hk => (ha k).2 (Or.inr hk)⟩
                | some s1 =>
                  refine ⟨har, fun k hk => ?_⟩
                  simp only [forward_has]
                  exact (ha k).2 (Or.inr hk)

/-- Every round from 0 to the current round has an entry, in every state. -/
theorem Reached.rounds {D : Decls} {h : height_vote_set D} (hr : Reached D h) :
    ∀ k : Int, 0 ≤ k → k ≤ h.round → map_contains h.round_vote_sets k = true := by
  induction hr with
  | new chain_id height val_set =>
    intro k h0 h1
    have hk : k = 0 := le_antisymm h1 h0
    subst hk
    rfl
  | set_round h round_ _ ih =>
    intro k h0 h1
    rcases set_round_spec h round_ with ⟨_, he⟩ | ⟨_, hrd, hk⟩
    · rw [he] at h1 ⊢
      exact ih k h0 h1
    · rw [hk k]
      by_cases hle : k ≤ h.round
      · exact Or.inl (ih k h0 hle)
      · rcases hrd with hrd | hrd
        · rw [hrd] at h1
          exact Or.inr ⟨by omega, h1⟩
        · rw [hrd] at h1
          exact absurd h1 hle
  | add_vote h vote_ peer_id _ ih =>
    intro k h0 h1
    obtain ⟨e1, e2⟩ := add_vote_keeps h vote_ peer_id
    rw [e1] at h1
    exact e2 k (ih k h0 h1)

/-- A round that has an entry has its two vote sets. -/
theorem get_vote_set_of_has {D : Decls} (h : height_vote_set D) (k : Int)
    (hk : map_contains h.round_vote_sets k = true) :
    ∃ rvs, map_find h.round_vote_sets k = some rvs ∧
      h.get_vote_set k .Prevote = .ok (some rvs.prevotes) ∧
      h.get_vote_set k .Precommit = .ok (some rvs.precommits) := by
  unfold map_contains at hk
  cases hf : map_find h.round_vote_sets k with
  | none => rw [hf] at hk; cases hk
  | some rvs =>
    refine ⟨rvs, rfl, ?_, ?_⟩ <;> simp only [height_vote_set.get_vote_set, hf]

/-- What the loop of `pol_info` returns over rounds that all have an entry: the greatest
round below `n` whose prevotes have a majority, or -1. -/
theorem pol_info_loop_spec {D : Decls} (maj : D.vote_set → Bool) (h : height_vote_set D) :
    ∀ n : Nat, (∀ k : Nat, k < n → map_contains h.round_vote_sets (k : Int) = true) →
    ∃ v : Int, h.pol_info_loop maj n = some v ∧
      ((v = -1 ∧ ∀ (k : Nat) (p : D.vote_set), k < n →
          h.get_vote_set (k : Int) .Prevote = .ok (some p) → maj p = false) ∨
       (0 ≤ v ∧ v < n ∧ (∃ p, h.get_vote_set v .Prevote = .ok (some p) ∧ maj p = true) ∧
          ∀ (k : Nat) (p : D.vote_set), v < k → k < n →
            h.get_vote_set (k : Int) .Prevote = .ok (some p) → maj p = false))
  | 0, _ => ⟨-1, rfl, Or.inl ⟨rfl, fun k p hk => absurd hk (Nat.not_lt_zero k)⟩⟩
  | n + 1, hall => by
    obtain ⟨rvs, _, hg, _⟩ := get_vote_set_of_has h (n : Int) (hall n (Nat.lt_succ_self n))
    unfold height_vote_set.pol_info_loop
    rw [hg]
    simp only
    by_cases hm : maj rvs.prevotes = true
    · rw [if_pos hm]
      refine ⟨n, rfl, Or.inr ⟨by omega, by push_cast; omega, ⟨_, hg, hm⟩, ?_⟩⟩
      intro k p h1 h2
      omega
    · rw [if_neg hm]
      obtain ⟨v, hv, hcase⟩ := pol_info_loop_spec maj h n
        (fun k hk => hall k (Nat.lt_succ_of_lt hk))
      refine ⟨v, hv, ?_⟩
      have hn : ∀ p, h.get_vote_set (n : Int) .Prevote = .ok (some p) → maj p = false := by
        intro p hp
        rw [hg] at hp
        cases hp
        simpa using hm
      rcases hcase with ⟨hv1, hall1⟩ | ⟨h0, h1, hp, hall1⟩
      · refine Or.inl ⟨hv1, fun k p hk hgk => ?_⟩
        rcases Nat.lt_succ_iff_lt_or_eq.1 hk with hk | hk
        · exact hall1 k p hk hgk
        · subst hk; exact hn p hgk
      · refine Or.inr ⟨h0, by push_cast; omega, hp, fun k p hk1 hk2 hgk => ?_⟩
        rcases Nat.lt_succ_iff_lt_or_eq.1 hk2 with hk | hk
        · exact hall1 k p hk1 hk hgk
        · subst hk; exact hn p hgk

/-- C33: in every state reached from `new_height_vote_set` by `set_round` and `add_vote`
calls, whether they succeed or not, for every `r` with `0 ≤ r ≤ round` both the prevote and
the precommit vote set of round `r` exist (`get_vote_set` returns a non-null pointer), and
`pol_info` returns without dereferencing a missing vote set. -/
theorem rounds_kept (D : Decls) (h : height_vote_set D) (hr : Reached D h) :
    (∀ r : Int, 0 ≤ r → r ≤ h.round →
      ∃ p c, h.get_vote_set r .Prevote = .ok (some p) ∧
        h.get_vote_set r .Precommit = .ok (some c)) ∧
    (∀ maj : D.vote_set → Bool, ∃ v, h.pol_info maj = some v) := by
  constructor
  · intro r h0 h1
    obtain ⟨rvs, _, hp, hc⟩ := get_vote_set_of_has h r (hr.rounds r h0 h1)
    exact ⟨_, _, hp, hc⟩
  · intro maj
    obtain ⟨v, hv, _⟩ := pol_info_loop_spec maj h (h.round + 1).toNat
      (fun k hk => hr.rounds k (by omega) (by omega))
    exact ⟨v, hv⟩

/-- C33 at the height vote set that `new_height_vote_set` gives: round 0 has its two vote
sets. -/
theorem rounds_kept_witness :
    Reached Decls.plain
      (height_vote_set.new_height_vote_set [] 1 () : height_vote_set Decls.plain) ∧
    ∃ p c,
      (height_vote_set.new_height_vote_set [] 1 () : height_vote_set Decls.plain
        ).get_vote_set 0 .Prevote = .ok (some p) ∧
      (height_vote_set.new_height_vote_set [] 1 () : height_vote_set Decls.plain
        ).get_vote_set 0 .Precommit = .ok (some c) :=
  ⟨Reached.new [] 1 (),
   (rounds_kept Decls.plain _ (Reached.new [] 1 ())).1 0 (le_refl 0) (le_of_eq rfl)⟩

/-- C34: for every height vote set in which all rounds from 0 to `round` have vote sets,
`pol_info` returns the greatest `r` with `0 ≤ r ≤ round` whose prevote vote set reports a
two-thirds majority, and returns -1 if and only if no such round exists. -/
theorem pol_info_greatest (D : Decls) (maj : D.vote_set → Bool) (h : height_vote_set D)
    (hall : ∀ r : Int, 0 ≤ r → r ≤ h.round →
      ∃ p, h.get_vote_set r .Prevote = .ok (some p)) :
    ∃ v : Int, h.pol_info maj = some v ∧
      (v = -1 ↔ ¬ ∃ (r : Int) (p : D.vote_set), 0 ≤ r ∧ r ≤ h.round ∧
        h.get_vote_set r .Prevote = .ok (some p) ∧ maj p = true) ∧
      (v ≠ -1 → 0 ≤ v ∧ v ≤ h.round ∧
        (∃ p, h.get_vote_set v .Prevote = .ok (some p) ∧ maj p = true) ∧
        ∀ (r : Int) (p : D.vote_set), v < r → r ≤ h.round →
          h.get_vote_set r .Prevote = .ok (some p) → maj p = false) := by
  have hhas : ∀ k : Nat, k < (h.round + 1).toNat →
      map_contains h.round_vote_sets (k : Int) = true := by
    intro k hk
    obtain ⟨p, hp⟩ := hall k (by omega) (by omega)
    unfold height_vote_set.get_vote_set at hp
    unfold map_contains
    cases hf : map_find h.round_vote_sets (k : Int) with
    | none => rw [hf] at hp; cases hp
    | some rvs => rfl
  obtain ⟨v, hv, hcase⟩ := pol_info_loop_spec maj h (h.round + 1).toNat hhas
  refine ⟨v, hv, ?_, ?_⟩
  · rcases hcase with ⟨hv1, hnone⟩ | ⟨h0, h1, ⟨p, hp, hm⟩, _⟩
    · refine ⟨fun _ => ?_, fun _ => hv1⟩
      rintro ⟨r, p, hr0, hr1, hg, hm⟩
      have := hnone r.toNat p (by omega) (by rw [Int.toNat_of_nonneg hr0]; exact hg)
      rw [this] at hm
      cases hm
    · constructor
      · intro hv1; omega
      · intro hno
        exact absurd ⟨v, p, h0, by omega, hp, hm⟩ hno
  · intro hne
    rcases hcase with ⟨hv1, _⟩ | ⟨h0, h1, hp, hgt⟩
    · exact absurd hv1 hne
    · refine ⟨h0, by omega, hp, fun r p hr0 hr1 hg => ?_⟩
      exact hgt r.toNat p (by omega) (by omega)
        (by rw [Int.toNat_of_nonneg (by omega)]; exact hg)

/-- C34 at the height vote set that `new_height_vote_set` gives, with no majority
anywhere: `pol_info` returns -1. -/
theorem pol_info_greatest_witness :
    (∀ r : Int, 0 ≤ r →
      r ≤ (height_vote_set.new_height_vote_set [] 1 () : height_vote_set Decls.plain).round →
      ∃ p, (height_vote_set.new_height_vote_set [] 1 () : height_vote_set Decls.plain
        ).get_vote_set r .Prevote = .ok (some p)) ∧
    ∃ v : Int, (height_vote_set.new_height_vote_set [] 1 () : height_vote_set Decls.plain
      ).pol_info (fun _ => false) = some v ∧ v = -1 := by
  have hall : ∀ r : Int, 0 ≤ r →
      r ≤ (height_vote_set.new_height_vote_set [] 1 () : height_vote_set Decls.plain).round →
      ∃ p, (height_vote_set.new_height_vote_set [] 1 () : height_vote_set Decls.plain
        ).get_vote_set r .Prevote = .ok (some p) := by
    intro r h0 h1
    have hr : r = 0 := le_antisymm h1 h0
    subst hr
    exact ⟨_, rfl⟩
  obtain ⟨v, hv, hiff, _⟩ := pol_info_greatest Decls.plain (fun _ => false) _ hall
  refine ⟨hall, v, hv, hiff.2 ?_⟩
  rintro ⟨_, _, _, _, _, hm⟩
  cases hm

/-- C35 fails on the code: for every choice of the declarations outside the sources,
`set_round(0)` on the height vote set that `new_height_vote_set` gives does not throw and
adds an entry for round -1. -/
theorem set_round_zero_adds_negative (D : Decls) (chain_id : List Nat) (height : Int)
    (val_set : D.validator_set) :
    ((height_vote_set.new_height_vote_set chain_id height val_set :
        height_vote_set D).round_vote_sets.map Prod.fst) = [0] ∧
    (((height_vote_set.new_height_vote_set chain_id height val_set :
        height_vote_set D).set_round 0).2.round_vote_sets.map Prod.fst) = [0, -1] ∧
    ((height_vote_set.new_height_vote_set chain_id height val_set :
        height_vote_set D).set_round 0).2.round = 0 := by
  simp [height_vote_set.new_height_vote_set, height_vote_set.reset,
    height_vote_set.set_round, height_vote_set.set_round_loop, height_vote_set.add_round,
    map_contains, map_find, map_assign]

/-! ## The weighted median -/

theorem weight_upto_cons (a : weighted_time) (l : List weighted_time) (t : Int) :
    weight_upto (a :: l) t = (if a.time ≤ t then a.weight else 0) + weight_upto l t := by
  unfold weight_upto
  by_cases h : a.time ≤ t
  · simp [List.filter_cons, h]
  · simp [List.filter_cons, h]

theorem weight_upto_nonneg (l : List weighted_time) (hw : ∀ e ∈ l, 0 ≤ e.weight) (t : Int) :
    0 ≤ weight_upto l t := by
  induction l with
  | nil => simp [weight_upto]
  | cons a l ih =>
    rw [weight_upto_cons]
    have ha := hw a (List.mem_cons_self _ _)
    have hl := ih fun e he => hw e (List.mem_cons_of_mem _ he)
    split_ifs <;> omega

theorem weight_upto_pos (l : List weighted_time) (t : Int) (h : 0 < weight_upto l t) :
    ∃ e ∈ l, e.time ≤ t := by
  induction l with
  | nil => simp [weight_upto] at h
  | cons a l ih =>
    rw [weight_upto_cons] at h
    by_cases ha : a.time ≤ t
    · exact ⟨a, List.mem_cons_self _ _, ha⟩
    · rw [if_neg ha] at h
      obtain ⟨e, he, het⟩ := ih (by omega)
      exact ⟨e, List.mem_cons_of_mem _ he, het⟩

theorem weight_upto_perm {l s : List weighted_time} (h : s.Perm l) (t : Int) :
    weight_upto s t = weight_upto l t := by
  unfold weight_upto
  exact ((h.filter _).map _).sum_eq

/-- What the loop returns on a vector sorted by time with non-negative weights: the least
time of the vector at which the weight summed up to that time reaches `median`, and 0 when
there is no such time. -/
theorem weighted_median_loop_spec : ∀ (s : List weighted_time) (median : Int),
    s.Pairwise (fun a b => a.time ≤ b.time) → (∀ e ∈ s, 0 ≤ e.weight) →
    ((∃ e ∈ s, median ≤ weight_upto s e.time) →
      (∃ e ∈ s, e.time = weighted_median_loop median s) ∧
      median ≤ weight_upto s (weighted_median_loop median s) ∧
      ∀ e ∈ s, median ≤ weight_upto s e.time → weighted_median_loop median s ≤ e.time) ∧
    ((¬ ∃ e ∈ s, median ≤ weight_upto s e.time) → weighted_median_loop median s = 0)
  | [], median, _, _ => by
    simp [weighted_median_loop]
  | a :: s, median, hs, hw => by
    have ha := hw a (List.mem_cons_self _ _)
    have hws : ∀ e ∈ s, 0 ≤ e.weight := fun e he => hw e (List.mem_cons_of_mem _ he)
    have hmin : ∀ e ∈ s, a.time ≤ e.time := (List.pairwise_cons.1 hs).1
    have hss := (List.pairwise_cons.1 hs).2
    unfold weighted_median_loop
    by_cases hm : median ≤ a.weight
    · rw [if_pos hm]
      have hq : median ≤ weight_upto (a :: s) a.time := by
        rw [weight_upto_cons, if_pos (le_refl _)]
        have := weight_upto_nonneg s hws a.time
        omega
      refine ⟨fun _ => ⟨⟨a, List.mem_cons_self _ _, rfl⟩, hq, ?_⟩, fun hno => ?_⟩
      · intro e he _
        rcases List.mem_cons.1 he with rfl | he
        · exact le_refl _
        · exact hmin e he
      · exact absurd ⟨a, List.mem_cons_self _ _, hq⟩ hno
    · rw [if_neg hm]
      obtain ⟨ihA, ihB⟩ := weighted_median_loop_spec s (median - a.weight) hss hws
      have hup : ∀ e ∈ s, weight_upto (a :: s) e.time = a.weight + weight_upto s e.time := by
        intro e he
        rw [weight_upto_cons, if_pos (hmin e he)]
      have hself : median ≤ weight_upto (a :: s) a.time →
          ∃ e ∈ s, e.time = a.time ∧ median - a.weight ≤ weight_upto s e.time := by
        intro hq
        rw [weight_upto_cons, if_pos (le_refl _)] at hq
        obtain ⟨e, he, het⟩ := weight_upto_pos s a.time (by omega)
        have heq : e.time = a.time := le_antisymm het (hmin e he)
        exact ⟨e, he, heq, by rw [heq]; omega⟩
      have hex : (∃ e ∈ a :: s, median ≤ weight_upto (a :: s) e.time) →
          ∃ e ∈ s, median - a.weight ≤ weight_upto s e.time := by
        rintro ⟨e, he, hq⟩
        rcases List.mem_cons.1 he with rfl | he
        · obtain ⟨e1, he1, _, hq1⟩ := hself hq
          exact ⟨e1, he1, hq1⟩
        · rw [hup e he] at hq
          exact ⟨e, he, by omega⟩
      constructor
      · intro hE
        obtain ⟨⟨e0, he0, hr0⟩, hq0, hleast⟩ := ihA (hex hE)
        refine ⟨⟨e0, List.mem_cons_of_mem _ he0, hr0⟩, ?_, ?_⟩
        · rw [← hr0, hup e0 he0, hr0]
          omega
        · intro e he hq
          rcases List.mem_cons.1 he with rfl | he
          · obtain ⟨e1, he1, heq, hq1⟩ := hself hq
            rw [← heq]
            exact hleast e1 he1 hq1
          · rw [hup e he] at hq
            exact hleast e he (by omega)
      · intro hno
        apply ihB
        rintro ⟨e, he, hq⟩
        exact hno ⟨e, List.mem_cons_of_mem _ he, by rw [hup e he]; omega⟩

instance time_order_total : IsTotal weighted_time fun a b => a.time ≤ b.time :=
  ⟨fun a b => le_total a.time b.time⟩

instance time_order_trans : IsTrans weighted_time fun a b => a.time ≤ b.time :=
  ⟨fun _ _ _ h1 h2 => le_trans h1 h2⟩

/-- What `weighted_median` returns after any sort of the vector by time. -/
theorem weighted_median_sorted_spec (l s : List weighted_time) (total : Int)
    (hw : ∀ e ∈ l, 0 ≤ e.weight) (ht : 0 ≤ total) (hp : s.Perm l)
    (hs : s.Pairwise fun a b => a.time ≤ b.time) :
    ((∃ e ∈ l, total / 2 ≤ weight_upto l e.time) →
      (∃ e ∈ l, e.time = weighted_median_sorted s total) ∧
      total / 2 ≤ weight_upto l (weighted_median_sorted s total) ∧
      ∀ e ∈ l, total / 2 ≤ weight_upto l e.time → weighted_median_sorted s total ≤ e.time) ∧
    ((¬ ∃ e ∈ l, total / 2 ≤ weight_upto l e.time) → weighted_median_sorted s total = 0) := by
  have hdiv : Int.tdiv total 2 = total / 2 := Int.tdiv_eq_ediv ht (by decide)
  obtain ⟨hA, hB⟩ := weighted_median_loop_spec s (Int.tdiv total 2) hs
    (fun e he => hw e (hp.mem_iff.1 he))
  unfold weighted_median_sorted
  rw [hdiv] at hA hB ⊢
  simp only [weight_upto_perm hp, hp.mem_iff] at hA hB
  exact ⟨hA, hB⟩

/-- C36: for every list of `(time, weight)` entries with non-negative weights and every
non-negative `total_voting_power`, `weighted_median` returns, whatever order the sort leaves
entries of equal time in, the least time `t` occurring in the list such that the sum of the
weights of all entries with time at most `t` is at least `total_voting_power / 2`; it returns
0 when no such time exists, and the same result for every permutation of the input list. -/
theorem weighted_median_least (l : List weighted_time) (total : Int)
    (hw : ∀ e ∈ l, 0 ≤ e.weight) (ht : 0 ≤ total) :
    (∀ s : List weighted_time, s.Perm l → s.Pairwise (fun a b => a.time ≤ b.time) →
      weighted_median_sorted s total = weighted_median l total) ∧
    ((∃ e ∈ l, total / 2 ≤ weight_upto l e.time) →
      (∃ e ∈ l, e.time = weighted_median l total) ∧
      total / 2 ≤ weight_upto l (weighted_median l total) ∧
      ∀ e ∈ l, total / 2 ≤ weight_upto l e.time → weighted_median l total ≤ e.time) ∧
    ((¬ ∃ e ∈ l, total / 2 ≤ weight_upto l e.time) → weighted_median l total = 0) ∧
    (∀ l1 : List weighted_time, l1.Perm l →
      weighted_median l1 total = weighted_median l total) := by
  have hany : ∀ s : List weighted_time, s.Perm l → s.Pairwise (fun a b => a.time ≤ b.time) →
      ∀ s1 : List weighted_time, s1.Perm l → s1.Pairwise (fun a b => a.time ≤ b.time) →
      weighted_median_sorted s total = weighted_median_sorted s1 total := by
    intro s hp hs s1 hp1 hs1
    obtain ⟨hA, hB⟩ := weighted_median_sorted_spec l s total hw ht hp hs
    obtain ⟨hA1, hB1⟩ := weighted_median_sorted_spec l s1 total hw ht hp1 hs1
    by_cases hE : ∃ e ∈ l, total / 2 ≤ weight_upto l e.time
    · obtain ⟨⟨e, he, hr⟩, hq, hleast⟩ := hA hE
      obtain ⟨⟨e1, he1, hr1⟩, hq1, hleast1⟩ := hA1 hE
      have h1 := hleast e1 he1 (by rw [hr1]; exact hq1)
      have h2 := hleast1 e he (by rw [hr]; exact hq)
      omega
    · rw [hB hE, hB1 hE]
  have hsort : ∀ l1 : List weighted_time,
      (l1.insertionSort fun a b => a.time ≤ b.time).Pairwise fun a b => a.time ≤ b.time :=
    fun l1 => List.sorted_insertionSort _ l1
  have hperm : ∀ l1 : List weighted_time,
      (l1.insertionSort fun a b => a.time ≤ b.time).Perm l1 :=
    fun l1 => List.perm_insertionSort _ l1
  obtain ⟨hA, hB⟩ := weighted_median_sorted_spec l _ total hw ht (hperm l) (hsort l)
  refine ⟨fun s hp hs => hany s hp hs _ (hperm l) (hsort l), hA, hB, fun l1 hp1 => ?_⟩
  exact hany _ ((hperm l1).trans hp1) (hsort l1) _ (hperm l) (hsort l)

/-- C36 at the entries `(5, 2)`, `(1, 3)`, `(3, 1)`, `(3, 4)` and the total voting power
12: the median is the time 3. -/
theorem weighted_median_least_witness :
    (∀ e ∈ [weighted_time.mk 5 2, weighted_time.mk 1 3, weighted_time.mk 3 1,
      weighted_time.mk 3 4], 0 ≤ e.weight) ∧ (0 : Int) ≤ 12 ∧
    weighted_median [weighted_time.mk 5 2, weighted_time.mk 1 3, weighted_time.mk 3 1,
      weighted_time.mk 3 4] 12 = 3 ∧
    weighted_median [weighted_time.mk 3 4, weighted_time.mk 3 1, weighted_time.mk 1 3,
      weighted_time.mk 5 2] 12
      = weighted_median [weighted_time.mk 5 2, weighted_time.mk 1 3, weighted_time.mk 3 1,
        weighted_time.mk 3 4] 12 :=
  ⟨by decide, by decide, by decide,
   (weighted_median_least [weighted_time.mk 5 2, weighted_time.mk 1 3, weighted_time.mk 3 1,
      weighted_time.mk 3 4] 12 (by decide) (by decide)).2.2.2
      [weighted_time.mk 3 4, weighted_time.mk 3 1, weighted_time.mk 1 3, weighted_time.mk 5 2]
      (by decide)⟩

/-! ## The light block -/

/-- C40 fails on the code: for every light block whose signed header and validator set are
both present, and whatever the two conversions return, `to_proto` returns a message with
neither a signed header nor a validator set; and on a light block whose signed header is
missing it dereferences the null pointer. -/
theorem to_proto_leaves_out_both {SH VS SHp VSp : Type} (sh_to_proto : SH → SHp)
    (vs_to_proto : VS → Except String VSp) (s : SH) (v : VS) :
    (light_block.mk (some s) (some v)).to_proto sh_to_proto vs_to_proto
      = some (.ok { signed_header := none, validator_set := none }) ∧
    (light_block.mk (none : Option SH) (some v)).to_proto sh_to_proto vs_to_proto = none ∧
    (light_block.mk (some s) (none : Option VS)).to_proto sh_to_proto vs_to_proto = none :=
  ⟨rfl, rfl, rfl⟩

end noir.consensus

namespace noir.codec.rlp

open noir.codec.orderedcode (bigEndian bigEndian_length)

/-! ## The RLP integer form -/

/-- The bytes of an integer in memory order are its big-endian bytes in reverse. -/
theorem range_map_bytes (v : Nat) : ∀ n : Nat,
    ((List.range n).map fun i => v / 256 ^ i % 256) = (bigEndian n v).reverse
  | 0 => rfl
  | n + 1 => by
    rw [List.range_succ, List.map_append, range_map_bytes v n]
    simp [bigEndian]

/-- Big-endian bytes beyond the length of the value are zero. -/
theorem bigEndian_zeros (n v : Nat) (hv : v < 256 ^ n) : ∀ k : Nat,
    bigEndian (k + n) v = List.replicate k 0 ++ bigEndian n v
  | 0 => by simp
  | k + 1 => by
    have h0 : v / 256 ^ (k + n) = 0 :=
      Nat.div_eq_of_lt (lt_of_lt_of_le hv (Nat.pow_le_pow_right (by decide) (by omega)))
    rw [show k + 1 + n = (k + n) + 1 from by omega, bigEndian, h0, bigEndian_zeros n v hv k]
    rfl

/-- The memory bytes of a value below `256^n`: its `n` low bytes, then zeros. -/
theorem le_bytes_eq (n v : Nat) (hn : n ≤ 8) (hv : v < 256 ^ n) :
    le_bytes v = (bigEndian n v).reverse ++ List.replicate (8 - n) 0 := by
  unfold le_bytes
  rw [range_map_bytes v 8]
  have h8 : 8 = (8 - n) + n := by omega
  nth_rewrite 1 [h8]
  rw [bigEndian_zeros n v hv (8 - n), List.reverse_append, List.reverse_replicate]

theorem dropWhile_zeros (X : List Nat) : ∀ k : Nat,
    (List.replicate k 0 ++ X).dropWhile (fun c => decide (c = 0))
      = X.dropWhile fun c => decide (c = 0)
  | 0 => by simp
  | k + 1 => by
    rw [List.replicate_succ, List.cons_append, List.dropWhile_cons_of_pos (by simp)]
    exact dropWhile_zeros X k

/-- The count `trimmed` of bytes whose highest one is not zero, followed by zeros. -/
theorem trimmed_eq (X : List Nat) (k : Nat) (hX : ∀ b, X.head? = some b → b ≠ 0) :
    trimmed (X.reverse ++ List.replicate k 0) = X.length := by
  unfold trimmed
  rw [List.reverse_append, List.reverse_replicate, List.reverse_reverse, dropWhile_zeros]
  cases X with
  | nil => rfl
  | cons b X =>
    have hb : b ≠ 0 := hX b rfl
    rw [List.dropWhile_cons_of_neg (by simpa using hb)]

/-- The highest byte of the minimal big-endian form is not zero. -/
theorem bigEndian_head (n v : Nat) (hlo : n = 0 ∨ 256 ^ (n - 1) ≤ v) (hv : v < 256 ^ n) :
    ∀ b, (bigEndian n v).head? = some b → b ≠ 0 := by
  intro b hb
  cases n with
  | zero => simp [bigEndian] at hb
  | succ m =>
    simp only [bigEndian, List.head?_cons, Option.some.injEq] at hb
    rcases hlo with h | h
    · omega
    · simp only [Nat.add_sub_cancel] at h
      have h1 : 1 ≤ v / 256 ^ m := (Nat.le_div_iff_mul_le (by positivity)).2 (by omega)
      have h2 : v / 256 ^ m < 256 := by
        rw [Nat.div_lt_iff_lt_mul (by positivity)]
        rw [pow_succ] at hv
        omega
      omega

theorem and_128 (b : Nat) (hb : b < 256) : b &&& 0x80 = 0 ↔ b < 128 := by
  interval_cases b <;> decide

/-- The writer's output for a value of `n` minimal bytes. -/
theorem write_uint64_eq (n v : Nat) (hn : n ≤ 8) (hlo : n = 0 ∨ 256 ^ (n - 1) ≤ v)
    (hv : v < 256 ^ n) :
    write_uint64 [] v = if n = 1 ∧ v < 128 then [v] else (0x80 + n) :: bigEndian n v := by
  have hle := le_bytes_eq n v hn hv
  have ht : trimmed (le_bytes v) = n := by
    rw [hle, trimmed_eq _ _ (bigEndian_head n v hlo hv), bigEndian_length]
  have h0 : n = 1 → (le_bytes v).getD 0 0 = v := by
    intro h1
    subst h1
    rw [hle]
    simp only [bigEndian, pow_zero, Nat.div_one]
    simp only [pow_one] at hv
    simp [Nat.mod_eq_of_lt hv]
  unfold write_uint64 encode_bytes
  rw [ht]
  by_cases h1 : n = 1
  · have hv1 : v < 256 := by subst h1; simpa using hv
    rw [h0 h1]
    by_cases h128 : v < 128
    · rw [if_pos ⟨h1, (and_128 v hv1).2 h128⟩, if_pos ⟨h1, h128⟩]
      rfl
    · rw [if_neg (fun h => h128 ((and_128 v hv1).1 h.2)), if_neg (fun h => h128 h.2)]
      rw [hle, List.take_left' (by rw [List.length_reverse, bigEndian_length]),
        List.reverse_reverse]
      subst h1
      rfl
  · rw [if_neg (fun h => h1 h.1), if_neg (fun h => h1 h.1)]
    rw [hle, List.take_left' (by rw [List.length_reverse, bigEndian_length]),
      List.reverse_reverse, Nat.mod_eq_of_lt (by omega)]
    simp [Nat.add_comm]

/-- Reading `k` bytes that the buffer holds: they come back in reverse, and the position
advances by `k`. -/
theorem get_reversed_eq (buf : List Nat) : ∀ (k p : Nat), p + k ≤ buf.length →
    get_reversed k ⟨buf, p⟩ = (.ok ((buf.drop p).take k).reverse, ⟨buf, p + k⟩)
  | 0, p, _ => by simp [get_reversed]
  | k + 1, p, h => by
    have hp : p < buf.length := by omega
    unfold get_reversed stream.get
    simp only [List.get?_eq_getElem?, List.getElem?_eq_getElem hp]
    rw [get_reversed_eq buf k (p + 1) (by omega)]
    simp only
    have hd : buf.drop p = buf[p] :: buf.drop (p + 1) := List.drop_eq_getElem_cons hp
    rw [hd, List.take_succ_cons, List.reverse_cons]
    rw [show p + 1 + k = p + (k + 1) from by omega]

theorem of_le_bytes_append (A : List Nat) (b : Nat) :
    of_le_bytes (A ++ [b]) = of_le_bytes A + 256 ^ A.length * b := by
  induction A with
  | nil => simp [of_le_bytes]
  | cons a A ih =>
    rw [List.cons_append, of_le_bytes, of_le_bytes, ih, List.length_cons, pow_succ]
    ring

theorem of_le_bytes_zeros (A : List Nat) : ∀ k : Nat,
    of_le_bytes (A ++ List.replicate k 0) = of_le_bytes A
  | 0 => by simp
  | k + 1 => by
    rw [List.replicate_succ', ← List.append_assoc, of_le_bytes_append, Nat.mul_zero,
      Nat.add_zero, of_le_bytes_zeros A k]

theorem of_le_bytes_range (v : Nat) : ∀ n : Nat,
    of_le_bytes ((List.range n).map fun i => v / 256 ^ i % 256) = v % 256 ^ n
  | 0 => by simp [of_le_bytes, Nat.mod_one]
  | n + 1 => by
    rw [List.range_succ, List.map_append, List.map_singleton, of_le_bytes_append,
      of_le_bytes_range v n, List.length_map, List.length_range, Nat.mod_pow_succ]

/-- The value of the low bytes of a value below `256^n`. -/
theorem of_le_bytes_bigEndian (n v : Nat) (hv : v < 256 ^ n) :
    of_le_bytes (bigEndian n v).reverse = v := by
  rw [← range_map_bytes, of_le_bytes_range, Nat.mod_eq_of_lt hv]

/-- The first step of the integer reader on a buffer: the prefix is taken. -/
theorem read_uint64_cons (pre : Nat) (rest : List Nat) (h2 : pre < 0xb8)
    (h3 : pre ≤ 0x80 + 8) :
    read_uint64 ⟨pre :: rest, 0⟩ =
      match decode_bytes ⟨pre :: rest, 1⟩ 8 pre 0x80 with
      | (.error e, ds2) => (.error e, ds2)
      | (.ok s, ds2) => (.ok (of_le_bytes s), ds2) := by
  have hg : (⟨pre :: rest, 0⟩ : stream).get = (.ok pre, ⟨pre :: rest, 1⟩) := rfl
  unfold read_uint64
  rw [hg]
  simp only
  rw [if_pos h2, if_pos h3]

/-- The reader on the writer's output for a value of `n` minimal bytes. -/
theorem read_write_uint64 (n v : Nat) (hn : n ≤ 8) (hlo : n = 0 ∨ 256 ^ (n - 1) ≤ v)
    (hv : v < 256 ^ n) :
    read_uint64 ⟨write_uint64 [] v, 0⟩
      = (.ok v, ⟨write_uint64 [] v, (write_uint64 [] v).length⟩) := by
  rw [write_uint64_eq n v hn hlo hv]
  by_cases h1 : n = 1 ∧ v < 128
  · rw [if_pos h1, read_uint64_cons v [] (by omega) (by omega)]
    unfold decode_bytes
    rw [if_pos (show v < 0x80 from by omega)]
    simp only
    have hz := of_le_bytes_zeros [v] 7
    rw [List.singleton_append] at hz
    rw [show 8 - 1 = 7 from rfl, hz]
    simp [of_le_bytes]
  · rw [if_neg h1, read_uint64_cons (0x80 + n) (bigEndian n v) (by omega) (by omega)]
    unfold decode_bytes
    rw [if_neg (show ¬ 0x80 + n < 0x80 from by omega)]
    have hg := get_reversed_eq ((0x80 + n) :: bigEndian n v) n 1
      (by rw [List.length_cons, bigEndian_length]; omega)
    rw [List.drop_one, List.tail_cons, List.take_of_length_le (by rw [bigEndian_length])] at hg
    simp only [Nat.add_sub_cancel_left, hg]
    rw [of_le_bytes_zeros, of_le_bytes_bigEndian n v hv, List.length_cons, bigEndian_length,
      Nat.add_comm 1 n]

/-- Every `uint64_t` has a minimal number of bytes, from 0 for the value 0 to 8. -/
theorem byte_count (v : Nat) (hv : v < 2 ^ 64) :
    ∃ n, n ≤ 8 ∧ (n = 0 ∨ 256 ^ (n - 1) ≤ v) ∧ v < 256 ^ n := by
  rcases Nat.lt_or_ge v 1 with h | h0
  · exact ⟨0, by omega, Or.inl rfl, by simpa using h⟩
  rcases Nat.lt_or_ge v (256 ^ 1) with h | h1
  · exact ⟨1, by omega, Or.inr (by simpa using h0), h⟩
  rcases Nat.lt_or_ge v (256 ^ 2) with h | h2
  · exact ⟨2, by omega, Or.inr h1, h⟩
  rcases Nat.lt_or_ge v (256 ^ 3) with h | h3
  · exact ⟨3, by omega, Or.inr h2, h⟩
  rcases Nat.lt_or_ge v (256 ^ 4) with h | h4
  · exact ⟨4, by omega, Or.inr h3, h⟩
  rcases Nat.lt_or_ge v (256 ^ 5) with h | h5
  · exact ⟨5, by omega, Or.inr h4, h⟩
  rcases Nat.lt_or_ge v (256 ^ 6) with h | h6
  · exact ⟨6, by omega, Or.inr h5, h⟩
  rcases Nat.lt_or_ge v (256 ^ 7) with h | h7
  · exact ⟨7, by omega, Or.inr h6, h⟩
  · exact ⟨8, by omega, Or.inr h7, by
      have : (256 : Nat) ^ 8 = 2 ^ 64 := by norm_num
      omega⟩

/-- C38: for every unsigned 64-bit integer `v`, the RLP encoding of `v` is the single byte
`v` when `0 < v < 128`, the single byte `0x80` when `v = 0`, and otherwise the byte
`0x80 + n` followed by the `n` minimal big-endian bytes of `v`, the first of which is not
zero; decoding that encoding as a 64-bit integer returns `v` and consumes it entirely. -/
theorem uint64_rlp (v : Nat) (hv : v < 2 ^ 64) :
    (0 < v → v < 128 → write_uint64 [] v = [v]) ∧
    (v = 0 → write_uint64 [] v = [0x80]) ∧
    (128 ≤ v → ∃ n, 1 ≤ n ∧ n ≤ 8 ∧ 256 ^ (n - 1) ≤ v ∧ v < 256 ^ n ∧
      (∀ b, (bigEndian n v).head? = some b → b ≠ 0) ∧
      write_uint64 [] v = (0x80 + n) :: bigEndian n v) ∧
    read_uint64 ⟨write_uint64 [] v, 0⟩
      = (.ok v, ⟨write_uint64 [] v, (write_uint64 [] v).length⟩) := by
  obtain ⟨n, hn, hlo, hlt⟩ := byte_count v hv
  refine ⟨?_, ?_, ?_, read_write_uint64 n v hn hlo hlt⟩
  · intro h0 h128
    rw [write_uint64_eq 1 v (by omega) (Or.inr (by simpa using h0)) (by omega),
      if_pos ⟨rfl, h128⟩]
  · intro h0
    subst h0
    rfl
  · intro h128
    have hn1 : 1 ≤ n := by
      rcases Nat.eq_zero_or_pos n with h | h
      · subst h; simp at hlt; omega
      · exact h
    have hlo2 : 256 ^ (n - 1) ≤ v := by
      rcases hlo with h | h
      · omega
      · exact h
    refine ⟨n, hn1, hn, hlo2, hlt, bigEndian_head n v hlo hlt, ?_⟩
    rw [write_uint64_eq n v hn hlo hlt, if_neg (fun h => by omega)]

/-- C38 at the value 1024: the encoding is `82 04 00`, and it decodes to 1024. -/
theorem uint64_rlp_witness :
    1024 < 2 ^ 64 ∧ write_uint64 [] 1024 = [0x82, 0x04, 0x00] ∧
    read_uint64 ⟨write_uint64 [] 1024, 0⟩
      = (.ok 1024, ⟨write_uint64 [] 1024, (write_uint64 [] 1024).length⟩) :=
  ⟨by decide, by decide, (uint64_rlp 1024 (by decide)).2.2.2⟩

/-! ## The RLP struct reader -/

theorem get_message (ds : stream) (e : String) (h : ds.get.1 = .error e) :
    e = "datastream attempted to read past the end" := by
  unfold stream.get at h
  cases hb : ds.buf.get? ds.pos with
  | none => rw [hb] at h; exact (Except.error.inj h).symm
  | some b => rw [hb] at h; cases h

theorem get_reversed_message : ∀ (n : Nat) (ds : stream) (e : String),
    (get_reversed n ds).1 = .error e → e = "datastream attempted to read past the end"
  | 0, ds, e, h => by cases h
  | n + 1, ds, e, h => by
    unfold get_reversed at h
    have hg := get_message ds
    rcases hget : ds.get with ⟨res, ds1⟩
    rw [hget] at h hg
    cases res with
    | error e1 => simp only at h; cases h; exact hg _ rfl
    | ok b =>
      simp only at h
      have hr := get_reversed_message n ds1
      rcases hrec : get_reversed n ds1 with ⟨res2, ds2⟩
      rw [hrec] at h hr
      cases res2 with
      | error e2 => exact hr e h
      | ok low => cases h

/-- The messages the integer reader throws with. -/
theorem read_uint64_message (ds : stream) (e : String) (h : (read_uint64 ds).1 = .error e) :
    e = "datastream attempted to read past the end" ∨ e = "not sufficient output size" ∨
    e = "not implemented" ∨ e = "not matched prefix type" := by
  unfold read_uint64 at h
  have hg := get_message ds
  rcases hget : ds.get with ⟨res, ds1⟩
  rw [hget] at h hg
  cases res with
  | error e1 => simp only at h; cases h; exact Or.inl (hg _ rfl)
  | ok pre =>
    simp only at h
    split_ifs at h
    · unfold decode_bytes at h
      split_ifs at h
      have hr := get_reversed_message (pre - 0x80) ds1
      rcases hrec : get_reversed (pre - 0x80) ds1 with ⟨res2, ds2⟩
      dsimp only at h
      rw [hrec] at h hr
      cases res2 with
      | error e2 => simp only at h; cases h; exact Or.inl (hr _ rfl)
      | ok low => simp at h
    · exact Or.inr (Or.inl (Except.error.inj h).symm)
    · exact Or.inr (Or.inr (Or.inl (Except.error.inj h).symm))
    · exact Or.inr (Or.inr (Or.inr (Except.error.inj h).symm))

/-- The size check of the struct reader never fires: the loop over the fields does not throw
with its message, whatever the declared size and the input. -/
theorem read_fields_never_insufficient : ∀ (k size : Nat) (ds : stream),
    (read_fields k size ds).1 ≠ .error "insufficient bytes provided"
  | 0, size, ds => by simp [read_fields]
  | k + 1, size, ds => by
    unfold read_fields
    have hm := read_uint64_message ds
    rcases hread : read_uint64 ds with ⟨res, ds1⟩
    rw [hread] at hm
    cases res with
    | error e =>
      simp only
      intro he
      have := hm e rfl
      rw [Except.error.inj he] at this
      revert this
      decide
    | ok val =>
      simp only
      rw [if_pos (Nat.zero_le _)]
      have hrec := read_fields_never_insufficient k
        ((size + 2 ^ 64 - (ds1.tellp - ds.tellp) % 2 ^ 64) % 2 ^ 64) ds1
      rcases hf : read_fields k
        ((size + 2 ^ 64 - (ds1.tellp - ds.tellp) % 2 ^ 64) % 2 ^ 64) ds1 with ⟨res2, ds2⟩
      rw [hf] at hrec
      cases res2 with
      | error e2 => exact hrec
      | ok vals => simp

/-- C39 fails on the code: a struct of two `uint64_t` fields is read from the input
`c1 01 02`, whose list prefix declares one payload byte while the two fields consume two:
the reader returns the fields 1 and 2 and does not throw. -/
theorem read_struct_short_payload :
    ( decode_prefix ⟨[0xc1, 0x01, 0x02], 1⟩ 0xc1 0xc0).1 = .ok 1 ∧
    read_struct 2 ⟨[0xc1, 0x01, 0x02], 0⟩ = (.ok [1, 2], ⟨[0xc1, 0x01, 0x02], 3⟩) := by
  constructor <;> rfl

end noir.codec.rlp

namespace noir.codec.orderedcode

/-! ## The int64 writer: indices and length -/

theorem readAt_eq (a : List Nat) (i : Int) (h0 : 0 ≤ i) (h1 : i < a.length) :
    readAt a i = some (a.getD i.toNat 0) := by
  unfold readAt
  rw [if_pos ⟨h0, h1⟩]
  have hi : i.toNat < a.length := by omega
  rw [List.get?_eq_getElem?, List.getElem?_eq_getElem hi, List.getD_eq_getElem _ _ hi]

theorem writeAt_eq (a : List Nat) (i : Int) (x : Nat) (h0 : 0 ≤ i) (h1 : i < a.length) :
    writeAt a i x = some (a.set i.toNat x) := by
  unfold writeAt
  rw [if_pos ⟨h0, h1⟩]

/-- The checked loop makes the writes of the unchecked one and none of them is out of range,
when the vector has room for the bytes of `v` below index `i`. -/
theorem int64LoopChecked_eq : ∀ (fuel v : Nat) (buf : List Nat) (i n : Nat),
    v < 256 ^ fuel → fuel ≤ i → i < buf.length →
    int64LoopChecked fuel v buf (i : Int) (n : Int)
      = some ((int64Loop fuel v buf i n).1, ((int64Loop fuel v buf i n).2.1 : Int),
          ((int64Loop fuel v buf i n).2.2 : Int))
  | 0, v, buf, i, n, _, _, _ => rfl
  | fuel + 1, v, buf, i, n, hv, hi, hlen => by
    unfold int64LoopChecked int64Loop
    by_cases h0 : v > 0
    · rw [if_pos h0, if_pos h0, writeAt_eq buf i (v % 256) (by omega) (by omega)]
      simp only [Int.toNat_ofNat]
      have hv2 : v >>> 8 < 256 ^ fuel := by
        rw [Nat.shiftRight_eq_div_pow]
        rw [pow_succ] at hv
        exact (Nat.div_lt_iff_lt_mul (by decide)).2 (by simpa using hv)
      have ih := int64LoopChecked_eq fuel (v >>> 8) (buf.set i (v % 256)) (i - 1) (n + 1) hv2
        (by omega) (by rw [List.length_set]; omega)
      rw [show ((i : Int) - 1) = ((i - 1 : Nat) : Int) from by omega,
        show ((n : Int) + 1) = ((n + 1 : Nat) : Int) from by omega, ih]
    · rw [if_neg h0, if_neg h0]

/-- The vector, the index and the count that the loop leaves. -/
theorem int64Loop_bounds : ∀ (fuel v : Nat) (buf : List Nat) (i n : Nat),
    v < 256 ^ fuel → fuel ≤ i →
    (int64Loop fuel v buf i n).1.length = buf.length ∧
    (int64Loop fuel v buf i n).2.1 + (int64Loop fuel v buf i n).2.2 = i + n ∧
    i ≤ (int64Loop fuel v buf i n).2.1 + fuel ∧
    (int64Loop fuel v buf i n).2.1 ≤ i ∧
    (0 < v → (int64Loop fuel v buf i n).2.1 < i)
  | 0, v, buf, i, n, hv, _ => by
    have : v = 0 := by simpa using hv
    simp [int64Loop, this]
  | fuel + 1, v, buf, i, n, hv, hi => by
    unfold int64Loop
    by_cases h0 : v > 0
    · rw [if_pos h0]
      have hv2 : v >>> 8 < 256 ^ fuel := by
        rw [Nat.shiftRight_eq_div_pow]
        rw [pow_succ] at hv
        exact (Nat.div_lt_iff_lt_mul (by decide)).2 (by simpa using hv)
      obtain ⟨e1, e2, e3, e4, _⟩ := int64Loop_bounds fuel (v >>> 8) (buf.set i (v % 256))
        (i - 1) (n + 1) hv2 (by omega)
      rw [List.length_set] at e1
      exact ⟨e1, by omega, by omega, by omega, fun _ => by omega⟩
    · rw [if_neg h0]
      exact ⟨rfl, rfl, Nat.le_add_right _ _, le_refl _, fun h => absurd h h0⟩

/-- The checked long form makes every access in range and is the unchecked long form. -/
theorem int64LongChecked_eq (v : Nat) (h1 : 0 < v) (h2 : v < 2 ^ 63) :
    int64LongChecked v = some (int64Long v) := by
  have hv : v < 256 ^ 8 := by
    have : (256 : Nat) ^ 8 = 2 ^ 64 := by norm_num
    omega
  have hc := int64LoopChecked_eq 8 v (List.replicate 10 0) 9 1 hv (by decide) (by simp)
  obtain ⟨e1, e2, e3, e4, e5⟩ := int64Loop_bounds 8 v (List.replicate 10 0) 9 1 hv (by decide)
  have e5 := e5 h1
  unfold int64LongChecked int64Long
  simp only [Nat.cast_ofNat, Nat.cast_one] at hc
  rw [hc]
  generalize int64Loop 8 v (List.replicate 10 0) 9 1 = st at e1 e2 e3 e4 e5 ⊢
  obtain ⟨buf, i, n⟩ := st
  simp only [List.length_replicate] at e1 e2 e3 e4 e5
  simp only
  have hn : n = 10 - i := by omega
  subst hn
  have hi1 : 1 ≤ i := by omega
  have hi8 : i ≤ 8 := by omega
  have hm : msb.length = 8 := rfl
  interval_cases i
  all_goals
    simp only [Nat.reduceSub, Nat.cast_ofNat, gt_iff_lt, Nat.reduceLT, decide_True,
      decide_False, if_true, if_false, Int.reduceSub, Int.reduceAdd, Nat.reduceAdd,
      Bool.false_eq_true, Int.reduceLT, Nat.lt_irrefl, Nat.cast_one]
    rw [readAt_eq buf _ (by decide) (by rw [e1]; decide)]
    simp only [Int.toNat_ofNat, Int.reduceToNat, Int.reduceLE, Int.reduceLT, and_self, if_true]
    split_ifs with hcnd
    all_goals
      try simp only [decide_True, decide_False, if_true, if_false, Int.reduceSub,
        Int.reduceAdd, Nat.reduceSub, Nat.reduceAdd, Bool.false_eq_true, hcnd]
      rw [readAt_eq buf _ (by decide) (by rw [e1]; decide),
        readAt_eq msb _ (by decide) (by rw [hm]; decide)]
      simp only [Int.reduceToNat]
      rw [writeAt_eq buf _ _ (by decide) (by rw [e1]; decide)]
      simp only [Int.reduceToNat, Int.reduceSub]
      try rw [writeAt_eq _ _ _ (by decide) (by rw [List.length_set, e1]; decide)]
      simp only [Int.reduceToNat, List.length_set, e1, Int.reduceLE, Nat.cast_ofNat,
        Int.reduceLT, and_self, if_true]

/-- The length of the closed shape of the int64 form. -/
theorem int64Form_length (v : Int) (h1 : -2 ^ 63 ≤ v) (h2 : v < 2 ^ 63) :
    1 ≤ (int64Form v).length ∧ (int64Form v).length ≤ 10 ∧
    (¬ (-64 ≤ v ∧ v < 64) → 2 ≤ (int64Form v).length) := by
  unfold int64Form
  by_cases h0 : 0 ≤ v
  · rw [if_pos h0, bigEndian_length]
    have hu : v.toNat < 2 ^ 63 := by omega
    rcases int64Len_spec v.toNat hu with h | h | h | h | h | h | h | h | h | h <;>
      exact ⟨by omega, by omega, fun _ => by omega⟩
  · rw [if_neg h0]
    simp only [invert, List.length_map, bigEndian_length]
    have hu : (-v - 1).toNat < 2 ^ 63 := by omega
    rcases int64Len_spec (-v - 1).toNat hu with h | h | h | h | h | h | h | h | h | h <;>
      exact ⟨by omega, by omega, fun _ => by omega⟩

/-- C37: for every int64 `v`, the orderedcode int64 encoder stays within its 10-byte scratch
buffer and its 8-entry header table (the encoder with every index checked returns, and
returns the bytes of the encoder) and emits between 1 and 10 bytes: exactly 1 byte when
`-64 ≤ v < 64`, equal to the low 8 bits of `v` XOR `0x80`, and at least 2 bytes otherwise. -/
theorem int64_writer_bounds (v : Int) (h1 : -2 ^ 63 ≤ v) (h2 : v < 2 ^ 63) :
    writeInt64Checked [] v = some (writeInt64 [] v) ∧
    1 ≤ (writeInt64 [] v).length ∧ (writeInt64 [] v).length ≤ 10 ∧
    (-64 ≤ v → v < 64 → writeInt64 [] v = [(v % 256).toNat ^^^ 0x80]) ∧
    (¬ (-64 ≤ v ∧ v < 64) → 2 ≤ (writeInt64 [] v).length) := by
  have hlen := int64Form_length v h1 h2
  have hw := writeInt64_eq [] v h1 h2
  rw [List.nil_append] at hw
  refine ⟨?_, by rw [hw]; exact hlen.1, by rw [hw]; exact hlen.2.1, ?_,
    by rw [hw]; exact hlen.2.2⟩
  · unfold writeInt64Checked writeInt64
    by_cases hs : -64 ≤ v ∧ v < 64
    · rw [if_pos hs, if_pos hs]
    · rw [if_neg hs, if_neg hs]
      by_cases hneg : v < 0
      · have hu1 : 0 < (-v - 1).toNat := by omega
        have hu2 : (-v - 1).toNat < 2 ^ 63 := by omega
        simp only [hneg, decide_True, if_true, int_not_eq, int64LongChecked_eq _ hu1 hu2]
      · have hu1 : 0 < v.toNat := by omega
        have hu2 : v.toNat < 2 ^ 63 := by omega
        simp only [hneg, decide_False, if_false, int64LongChecked_eq _ hu1 hu2,
          Bool.false_eq_true]
  · intro ha hb
    interval_cases v <;> rfl

/-- C37 at `v = -65`, the first negative value of the long form: two bytes. -/
theorem int64_writer_bounds_witness :
    (-2 ^ 63 ≤ (-65 : Int) ∧ (-65 : Int) < 2 ^ 63) ∧
    writeInt64Checked [] (-65) = some [0x3f, 0xbf] ∧
    writeInt64Checked [] (-65) = some (writeInt64 [] (-65)) :=
  ⟨⟨by decide, by decide⟩, by decide,
   (int64_writer_bounds (-65) (by decide) (by decide)).1⟩

end noir.codec.orderedcode
